import Mathlib

/-!
# newick_utils: the label index (`hash.c`), the depth trimmer (`trim.c`), the pruner
(`prune.c`) and the matcher (`match.c`)

A shallow embedding of the C sources in Lean and theorems about it.

Conventions of the embedding.

* A C function whose behaviour can be undefined (a NULL pointer is read, an array is indexed
  outside its bounds, an integer is divided by zero) returns an `Option`; `none` is undefined
  behaviour.
* `unsigned int` arithmetic is arithmetic modulo `2^32`; the conversion of a value to `int` is
  `toInt32`.
* `double` values are rational numbers. The functions of `trim.c` come twice: with exact
  arithmetic, and, in the namespace `ieee`, with every result rounded to the nearest `double`
  (`round_double`), as the machine computes it.
* Dynamic allocation is driven by an oracle, the list of the outcomes of the allocations still
  to come (`Alloc`).
* A function that can end the program through `exit` returns an `outcome`.
* The functions that `match.c` calls and that are not among the sources are parameters of its
  model (`collaborators`); the definitions that follow the specification for them
  (`spec_collaborators`) serve to run the model on examples.
-/

namespace nw

/-! ## Machine integers and allocation -/

/-- The value an `int` holds after a 32-bit two's complement wrap-around of `x`. -/
@[irreducible] def toInt32 (x : Int) : Int := (x + 2 ^ 31) % 2 ^ 32 - 2 ^ 31

/-- The outcomes of the allocations still to come, first one first: `true` is a success. Once
the list is exhausted every allocation succeeds; `[]` is the run without allocation failure. -/
abbrev Alloc := List Bool

/-- One allocation (`malloc`, `strdup`, or the list cell inside `create_llist` and
`append_element`): its outcome and the oracle that is left. -/
def malloc (a : Alloc) : Bool × Alloc :=
  match a with
  | [] => (true, [])
  | b :: rest => (b, rest)

/-! ## hash.c -/

/-- A key as `hash.c` sees it: the `char` values of a NUL-terminated string, read as `int`s,
without the terminator. `strcmp` returning 0 is equality of these lists. -/
abbrev Key := List Int

/-- A `void *`: an address, `0` being `NULL`. -/
abbrev Value := Nat

/-- The null pointer. -/
def NULL : Value := 0

/-- The C struct `key_val_pair`. `key` is the pointer returned by `strdup`: `none` is `NULL`. -/
structure key_val_pair where
  key : Option Key
  value : Value
deriving DecidableEq, Repr

/-- Modelled from the spec: `list.h` is not among the sources. A `struct llist` is an
append-ordered sequence ("each an append-ordered sequence of (key, value) pairs"); `create_llist`
allocates the empty list and `append_element` allocates one cell at the end, each returning a
failure value when its allocation fails. -/
abbrev llist (α : Type) := List α

/-- Modelled from the spec: `common.h` is not among the sources; the two results of `set`
("returns success/failure"). -/
inductive status where
  | SUCCESS
  | FAILURE
deriving DecidableEq, Repr

/-- The two values of `h->type`. -/
inductive hash_type where
  | HASH_FIXED
  | HASH_DYNAMIC
deriving DecidableEq, Repr

/-- Modelled from the spec: `hash.h` is not among the sources; the fields are those `hash.c`
reads and writes. The array `bins` and its length `size` are one list (`size` is its length;
`create_hash` and `resize_hash` always write the two together). `count` is not wrapped.
`load_threshold` and `resize_factor` are read in dynamic mode only. -/
structure hash where
  bins : List (llist key_val_pair)
  count : Nat
  type : hash_type
  load_threshold : ℚ
  resize_factor : Nat
deriving DecidableEq, Repr

/-- The field `h->size`. -/
def hash.size (h : hash) : Nat := h.bins.length

/-- The loop of `create_hash` and of `resize_hash` that creates `n` empty bins; `none` when a
`create_llist` fails. -/
def create_bins : Nat → Alloc → Option (List (llist key_val_pair)) × Alloc
  | 0, a => (some [], a)
  | n + 1, a =>
    match malloc a with
    | (false, a1) => (none, a1)
    | (true, a1) =>
      match create_bins n a1 with
      | (none, a2) => (none, a2)
      | (some bs, a2) => (some ([] :: bs), a2)

/-- The C function `create_hash`; `none` is the `NULL` it returns when an allocation fails. The
two fields it leaves unset are given the value 0. -/
def create_hash (a : Alloc) (n : Nat) : Option hash × Alloc :=
  match malloc a with
  | (false, a1) => (none, a1)
  | (true, a1) =>
    match malloc a1 with
    | (false, a2) => (none, a2)
    | (true, a2) =>
      match create_bins n a2 with
      | (none, a3) => (none, a3)
      | (some bs, a3) =>
        (some { bins := bs, count := 0, type := hash_type.HASH_FIXED,
                load_threshold := 0, resize_factor := 0 }, a3)

/-- The C function `create_dynamic_hash`. -/
def create_dynamic_hash (a : Alloc) (init_size : Nat) (load_threshold : ℚ)
    (resize_factor : Nat) : Option hash × Alloc :=
  match create_hash a init_size with
  | (none, a1) => (none, a1)
  | (some h, a1) =>
    (some { h with type := hash_type.HASH_DYNAMIC, load_threshold := load_threshold,
                   resize_factor := resize_factor }, a1)

/-- The C function `load_factor`: `((double) h->count) / h->size`, as an exact quotient. -/
def load_factor (h : hash) : ℚ := (h.count : ℚ) / (h.size : ℚ)

/-- The C function `hash_func`: `int h = 0; while (*key) h = 33*h + *key++; return h;`, the
`int` wrapping around and the result converted to `unsigned int`. -/
def hash_func (key : Key) : Nat :=
  ((key.foldl (fun h c => toInt32 (33 * h + c)) 0) % 2 ^ 32).toNat

/-- Replaces bin `i` of `bins` by `f` of it. -/
def update_bin (bins : List (llist key_val_pair)) (i : Nat)
    (f : llist key_val_pair → llist key_val_pair) : List (llist key_val_pair) :=
  match bins[i]? with
  | some b => bins.set i (f b)
  | none => bins

/-- The loop of `resize_hash` that copies the pairs, in the order of the old bins, to the new
bins. Outer `none`: undefined behaviour (a `NULL` key is hashed, or the remainder by a
`new_size` of 0 is taken). Inner `none`: an `append_element` failed. -/
def rehash_pairs (new_size : Nat) :
    List key_val_pair → List (llist key_val_pair) → Alloc →
      Option (Option (List (llist key_val_pair)) × Alloc)
  | [], new_bins, a => some (some new_bins, a)
  | kvp :: rest, new_bins, a =>
    match kvp.key with
    | none => none
    | some k =>
      if new_size = 0 then none
      else
        let new_hash_code := hash_func k % new_size
        match malloc a with
        | (false, a1) => some (none, a1)
        | (true, a1) =>
          rehash_pairs new_size rest (update_bin new_bins new_hash_code (fun b => b ++ [kvp])) a1

/-- The C function `resize_hash` (on a non-null `h`): the value returned, the table afterwards
and the oracle that is left; `none` is undefined behaviour. -/
def resize_hash (a : Alloc) (h : hash) (new_size : Nat) : Option (ℚ × hash × Alloc) :=
  match malloc a with
  | (false, a1) => some (-1, h, a1)
  | (true, a1) =>
    match create_bins new_size a1 with
    | (none, a2) => some (-1, h, a2)
    | (some new_bins, a2) =>
      match rehash_pairs new_size h.bins.flatten new_bins a2 with
      | none => none
      | some (none, a3) => some (-1, h, a3)
      | some (some bins, a3) =>
        let h1 := { h with bins := bins }
        some (load_factor h1, h1, a3)

/-- The search loop of `hash_set` in one bin. Outer `none`: undefined behaviour (`strcmp` on a
`NULL` key). `some none`: the key is not in the bin. `some (some b)`: the key was found and `b`
is the bin with the value of the first pair of that key replaced. -/
def bin_replace (key : Key) (value : Value) :
    llist key_val_pair → Option (Option (llist key_val_pair))
  | [] => some none
  | kvp :: rest =>
    match kvp.key with
    | none => none
    | some k =>
      if key = k then some (some ({ kvp with value := value } :: rest))
      else
        match bin_replace key value rest with
        | none => none
        | some none => some none
        | some (some rest1) => some (some (kvp :: rest1))

/-- The search loop of `hash_get` in one bin: the value of the first pair of that key, `NULL`
when there is none; `none` is undefined behaviour (`strcmp` on a `NULL` key). -/
def bin_get (key : Key) : llist key_val_pair → Option Value
  | [] => some NULL
  | kvp :: rest =>
    match kvp.key with
    | none => none
    | some k => if key = k then some kvp.value else bin_get key rest

/-- The first statement of `hash_set` and of `hash_get`:
`int hash_code = hash_func(key) % h->size;`. `none`: the remainder by 0. -/
def hash_code (h : hash) (key : Key) : Option Int :=
  if h.size = 0 then none else some (toInt32 ((hash_func key % h.size : Nat) : Int))

/-- The array access `(h->bins)[hash_code]`; `none` outside the array. -/
def get_bin (h : hash) (code : Int) : Option (llist key_val_pair) :=
  if code < 0 then none else h.bins[code.toNat]?

/-- The resize step of `hash_set`: in dynamic mode, when the load factor has reached the
threshold, `resize_hash(h, h->resize_factor * h->size)`, whose result is not looked at. -/
def maybe_resize (a : Alloc) (h : hash) : Option (hash × Alloc) :=
  if h.type = hash_type.HASH_DYNAMIC ∧ load_factor h ≥ h.load_threshold then
    match resize_hash a h ((h.resize_factor * h.size) % 2 ^ 32) with
    | none => none
    | some (_, h1, a1) => some (h1, a1)
  else some (h, a)

/-- The part of `hash_set` after the resize step, from `bin = (h->bins)[hash_code];` on. -/
def insert_at (a1 : Alloc) (h1 : hash) (code : Int) (key : Key) (value : Value) :
    Option (status × hash × Alloc) :=
  match get_bin h1 code with
  | none => none
  | some bin =>
    match bin_replace key value bin with
    | none => none
    | some (some bin1) =>
      some (status.SUCCESS, { h1 with bins := h1.bins.set code.toNat bin1 }, a1)
    | some none =>
      match malloc a1 with
      | (false, a2) => some (status.FAILURE, h1, a2)
      | (true, a2) =>
        let dup := malloc a2
        let kvp : key_val_pair :=
          { key := if dup.1 then some key else none, value := value }
        match malloc dup.2 with
        | (false, a4) => some (status.FAILURE, h1, a4)
        | (true, a4) =>
          some (status.SUCCESS,
                { h1 with bins := h1.bins.set code.toNat (bin ++ [kvp]),
                          count := h1.count + 1 }, a4)

/-- The C function `hash_set`: the status returned, the table afterwards and the oracle that is
left; `none` is undefined behaviour. The bin index is computed first, from the size the table
has on entry; then comes the resize step; then the bin of that index is searched. -/
def hash_set (a : Alloc) (h : hash) (key : Key) (value : Value) :
    Option (status × hash × Alloc) :=
  match hash_code h key with
  | none => none
  | some code =>
    match maybe_resize a h with
    | none => none
    | some (h1, a1) => insert_at a1 h1 code key value

/-- The C function `hash_get`: the pointer returned; `none` is undefined behaviour. -/
def hash_get (h : hash) (key : Key) : Option Value :=
  match hash_code h key with
  | none => none
  | some code =>
    match get_bin h code with
    | none => none
    | some bin => bin_get key bin

/-- The loop of `hash_keys`: appends the key pointers to the list; `none` when an
`append_element` fails. -/
def append_keys : List key_val_pair → llist (Option Key) → Alloc →
    Option (llist (Option Key)) × Alloc
  | [], list, a => (some list, a)
  | kvp :: rest, list, a =>
    match malloc a with
    | (false, a1) => (none, a1)
    | (true, a1) => append_keys rest (list ++ [kvp.key]) a1

/-- The C function `hash_keys`: the list of the key pointers of all bins; `none` is the `NULL`
returned when an allocation fails. -/
def hash_keys (a : Alloc) (h : hash) : Option (llist (Option Key)) × Alloc :=
  match malloc a with
  | (false, a1) => (none, a1)
  | (true, a1) => append_keys h.bins.flatten [] a1

/-- A sequence of `hash_set` calls in which every allocation succeeds: the table afterwards;
`none` is undefined behaviour. -/
def hash_set_all : hash → List (Key × Value) → Option hash
  | h, [] => some h
  | h, (k, v) :: rest =>
    match hash_set [] h k v with
    | none => none
    | some (_, h1, _) => hash_set_all h1 rest

/-! ## Predicates on tables -/

/-- No pair of the bin has a `NULL` key. -/
def bin_ok (bin : llist key_val_pair) : Prop := ∀ p ∈ bin, p.key ≠ none

/-- No pair of the table has a `NULL` key. -/
def no_null_key (h : hash) : Prop := ∀ p ∈ h.bins.flatten, p.key ≠ none

/-- The keys stored in the table, in the order of `hash_keys`. -/
def stored_keys (h : hash) : List (Option Key) := h.bins.flatten.map key_val_pair.key

/-- The parameters of a table allow one more `hash_set`: the table has a bin, the bin index
fits an `int`, and the resize, if this call makes one, does not multiply by 0 and leaves at most
`2^31` bins. -/
def params_ok (h : hash) : Prop :=
  1 ≤ h.size ∧ h.size ≤ 2 ^ 31 ∧
    (h.type = hash_type.HASH_DYNAMIC → load_factor h ≥ h.load_threshold →
      1 ≤ h.resize_factor ∧ h.resize_factor * h.size ≤ 2 ^ 31)

/-- The factor by which one `hash_set` can multiply the number of bins. -/
def growth (h : hash) : Nat :=
  match h.type with
  | hash_type.HASH_FIXED => 1
  | hash_type.HASH_DYNAMIC => h.resize_factor

/-- The table can take `n` more `hash_set` calls within `2^31` bins: it has a bin, a resize does
not multiply by 0, and either even `n` resizes leave it with at most `2^31` bins, or the
threshold is positive and the number of pairs it can hold by then, times the factor, is at most
the threshold times `2^31` (a resize is made only when `count / size` has reached the
threshold). -/
def room_for (h : hash) (n : Nat) : Prop :=
  1 ≤ h.size ∧ 1 ≤ growth h ∧
    (h.size * growth h ^ n ≤ 2 ^ 31 ∨
      (h.size ≤ 2 ^ 31 ∧ 0 < h.load_threshold ∧
        (growth h : ℚ) * ((h.count : ℚ) + (n : ℚ)) ≤ h.load_threshold * 2 ^ 31))

/-- The parameters of `create_dynamic_hash(n, t, r)` let `N` keys be set within `2^31` bins:
either even `N` resizes do (`n * r^N ≤ 2^31`), or `n ≤ 2^31`, the threshold `t` is positive and
`r * N ≤ t * 2^31` (a resize is made only when `count / size` has reached `t`, so the table
never has more than `r * N / t` bins). -/
def dynamic_fits (n : Nat) (t : ℚ) (r : Nat) (N : Nat) : Prop :=
  n * r ^ N ≤ 2 ^ 31 ∨ (n ≤ 2 ^ 31 ∧ 0 < t ∧ (r : ℚ) * (N : ℚ) ≤ t * 2 ^ 31)

/-- Every pair of the bins lies in the bin numbered by its key: `hash_func(key) % n`. -/
def bins_placed (n : Nat) (bins : List (llist key_val_pair)) : Prop :=
  ∀ i bin, bins[i]? = some bin → ∀ p ∈ bin, ∃ k, p.key = some k ∧ hash_func k % n = i

/-- The value of a `char` as an `unsigned char`: the byte, `0..255`. -/
def byte_of (c : Int) : Nat := (c % 256).toNat

/-- Bernstein's hash as the specification words it: `h = 33*h + c` over the bytes `c` of the
key, each an unsigned value `0..255`, with unsigned 32-bit wrap-around, starting from 0. -/
def bernstein_hash (bytes : List Nat) : Nat :=
  bytes.foldl (fun h c => (33 * h + c) % 2 ^ 32) 0

/-! ## trim.c

The functions of `trim.c`, every `double` taken for the number it stands for: the sums and the
differences are exact. The section `trim.c in double arithmetic` below has the same functions
with the rounding of the machine. -/

/-- Modelled from the spec: the parser and `redge.h` are not among the sources. The text of an
edge length, `length_as_string` ("its canonical textual representation (empty string if absent
in input)"), taken for the number it denotes: the empty string, or a decimal numeral. -/
inductive length_text where
  | empty
  | numeral (value : ℚ)
deriving DecidableEq, Repr

/-- The C library function `atof` on the text of an edge length: 0 for the empty string, the
number denoted by a numeral. -/
def atof : length_text → ℚ
  | length_text.empty => 0
  | length_text.numeral q => q

/-- The number of decimal digits of `n`, less one (`n ≥ 1`), by repeated division. -/
def log10_floor : Nat → Nat → Nat
  | 0, _ => 0
  | fuel + 1, n => if n < 10 then 0 else 1 + log10_floor fuel (n / 10)

/-- The least `k`, from `k` on, for which `q ≤ p * 10^k`. -/
def scale_up : Nat → Nat → Nat → Nat → Nat
  | 0, _, _, k => k
  | fuel + 1, p, q, k => if q ≤ p * 10 ^ k then k else scale_up fuel p q (k + 1)

/-- The decimal exponent of a number that is not 0: the `e` with `10^e ≤ |x| < 10^(e+1)`. -/
def dec_exponent (x : ℚ) : Int :=
  let p := x.num.natAbs
  let q := x.den
  if q ≤ p then (log10_floor p (p / q) : Int) else -(scale_up q p q 1 : Int)

/-- The integer nearest to `s ≥ 0`, a tie going to the even one. -/
def round_half_even (s : ℚ) : Int :=
  let f := Rat.floor s
  let r := s - f
  if r < 1 / 2 then f else if 1 / 2 < r then f + 1 else if f % 2 = 0 then f else f + 1

/-- The number `x` rounded to 6 significant decimal digits. -/
def round_sig6 (x : ℚ) : ℚ :=
  if x = 0 then 0
  else
    let e := dec_exponent x
    let m := round_half_even ((if x < 0 then -x else x) * (10 : ℚ) ^ (5 - e))
    (if x < 0 then -1 else 1) * (m : ℚ) * (10 : ℚ) ^ (e - 5)

/-- Modelled from the spec: `masprintf.h` is not among the sources; `masprintf("%g", x)` is
taken to be the C conversion `%g` into a fresh string. The conversion prints 6 significant
digits: the text denotes `x` rounded to 6 significant decimal digits. -/
def masprintf_g (x : ℚ) : length_text := length_text.numeral (round_sig6 x)

/-- The two values of `params.depth_type`. -/
inductive depth_type where
  | DEPTH_DISTANCE
  | DEPTH_ANCESTORS
deriving DecidableEq, Repr

/-- The C struct `parameters` of `trim.c`. -/
structure parameters where
  depth_type : depth_type
  threshold : ℚ
deriving DecidableEq, Repr

/-- The C struct `node_data` of `trim.c`. The two depth fields are `none` as long as nothing
has been written to them. The field `ancestry_depth` is an `int`; it is taken without bound,
for trees less than 2^31 nodes deep. -/
structure node_data where
  trimmed : Bool
  ancestry_depth : Option Int
  distance_depth : Option ℚ
deriving DecidableEq, Repr

/-- Modelled from the spec: `redge.h` is not among the sources. The edge from a node to its
parent ("owned by the child it leads to"): the parent, the numeric length and its text. -/
structure redge where
  parent_node : Nat
  length : ℚ
  length_as_string : length_text
deriving DecidableEq, Repr

/-- Modelled from the spec: `rnode.h` is not among the sources. A node: its label, the list of
its children, its parent edge (`none`: `NULL`) and its user data (`none`: `NULL`). -/
structure rnode where
  label : String
  children : llist Nat
  parent_edge : Option redge
  data : Option node_data
deriving DecidableEq, Repr

/-- The memory that holds the nodes: the node at each address. -/
abbrev store := Nat → rnode

/-- Modelled from the spec: `tree.h` is not among the sources. A tree: the address of its root
and the order-listing of its nodes ("post-order: children fully listed before the node that
owns them, root last"). -/
structure rooted_tree where
  root : Nat
  nodes_in_order : llist Nat
deriving DecidableEq, Repr

/-- The store with the node at address `n` replaced. -/
def store.write (s : store) (n : Nat) (r : rnode) : store :=
  fun m => if m = n then r else s m

/-- The C function `trim` of `trim.c`; `none` is undefined behaviour (a `NULL` pointer or a
field never written is read). `clear_llist` empties the list of children. -/
def trim (s : store) (node : Nat) (params : parameters) : Option store :=
  match (s node).data with
  | none => none
  | some ndata =>
    match ndata.distance_depth with
    | none => none
    | some distance_depth =>
      let excess := distance_depth - params.threshold
      match (s node).parent_edge with
      | none => none
      | some parent_edge =>
        let trimmed_edge_length := parent_edge.length - excess
        let new_length := masprintf_g trimmed_edge_length
        some (s.write node
          { label := (s node).label,
            children := [],
            parent_edge := some { parent_edge with length_as_string := new_length },
            data := some { ndata with trimmed := true } })

/-- The test `to_trim` of `process_tree`. -/
def to_trim (params : parameters) (ndata_distance_depth : ℚ) (ndata_ancestry_depth : Int) :
    Bool :=
  match params.depth_type with
  | depth_type.DEPTH_DISTANCE => decide (ndata_distance_depth > params.threshold)
  | depth_type.DEPTH_ANCESTORS => decide ((ndata_ancestry_depth : ℚ) > params.threshold)

/-- The body of the loop of `process_tree`, for one node after the root; `none` is undefined
behaviour (a `NULL` pointer or a field never written is read). Allocation is taken to succeed
(the program exits otherwise). -/
def visit (params : parameters) (s : store) (node : Nat) : Option store :=
  match (s node).parent_edge with
  | none => none
  | some parent_edge =>
    let parent := parent_edge.parent_node
    match (s parent).data with
    | none => none
    | some parent_data =>
      if parent_data.trimmed then
        some (s.write node
          { (s node) with
            data := some { trimmed := true, ancestry_depth := none, distance_depth := none } })
      else
        match parent_data.distance_depth, parent_data.ancestry_depth with
        | some parent_distance_depth, some parent_ancestry_depth =>
          let parent_edge_length := atof parent_edge.length_as_string
          let distance_depth := parent_edge_length + parent_distance_depth
          let ancestry_depth := 1 + parent_ancestry_depth
          let s1 := s.write node
            { (s node) with
              parent_edge := some { parent_edge with length := parent_edge_length },
              data := some { trimmed := false, ancestry_depth := some ancestry_depth,
                             distance_depth := some distance_depth } }
          if to_trim params distance_depth ancestry_depth then trim s1 node params
          else some s1
        | _, _ => none

/-- The loop of `process_tree` over the nodes after the root. -/
def visit_all (params : parameters) : store → List Nat → Option store
  | s, [] => some s
  | s, node :: rest =>
    match visit params s node with
    | none => none
    | some s1 => visit_all params s1 rest

/-- The C function `process_tree` of `trim.c`: the store afterwards; `none` is undefined
behaviour. `llist_reverse` reverses the order-listing; its head is taken for the root. -/
def process_tree (s : store) (tree : rooted_tree) (params : parameters) : Option store :=
  match tree.nodes_in_order.reverse with
  | [] => none
  | node :: rest =>
    let s0 := s.write node
      { (s node) with
        data := some { trimmed := false, ancestry_depth := some 0, distance_depth := some 0 } }
    visit_all params s0 rest

/-! ## Predicates on trees -/

/-- The parent of a node, read through its parent edge. -/
def parent_of (s : store) (n : Nat) : Option Nat := (s n).parent_edge.map redge.parent_node

/-- Every node of the listing other than the last has a parent edge, and the parent is listed
after the node. -/
def parents_later (s : store) : List Nat → Bool
  | [] => true
  | x :: rest =>
    (rest.isEmpty ||
      (match parent_of s x with
       | none => false
       | some p => decide (p ∈ rest))) && parents_later s rest

/-- The tree is well formed, as the parser leaves it: the order-listing has no node twice and
ends with the root; every other node of it has a parent edge and is listed before its parent;
the children of a listed node are listed, are not the root and have that node as parent. -/
def well_formed (s : store) (t : rooted_tree) : Prop :=
  t.nodes_in_order.Nodup ∧ t.nodes_in_order.getLast? = some t.root ∧
    parents_later s t.nodes_in_order = true ∧
    ∀ p ∈ t.nodes_in_order, ∀ c ∈ (s p).children,
      c ∈ t.nodes_in_order ∧ c ≠ t.root ∧ parent_of s c = some p

instance (s : store) (t : rooted_tree) : Decidable (well_formed s t) := by
  unfold well_formed
  infer_instance

/-- What the loop body of `process_tree` makes of a node `r0` whose parent edge is `e` and whose
parent has the data `pd`; `none` when a depth field of the parent was never written. -/
def node_result (params : parameters) (r0 : rnode) (e : redge) (pd : node_data) :
    Option rnode :=
  if pd.trimmed then
    some { r0 with
           data := some { trimmed := true, ancestry_depth := none, distance_depth := none } }
  else
    match pd.distance_depth, pd.ancestry_depth with
    | some d, some a =>
      let len := atof e.length_as_string
      if to_trim params (len + d) (1 + a) then
        some { label := r0.label, children := [],
               parent_edge := some { parent_node := e.parent_node, length := len,
                                     length_as_string :=
                                       masprintf_g (len - (len + d - params.threshold)) },
               data := some { trimmed := true, ancestry_depth := some (1 + a),
                              distance_depth := some (len + d) } }
      else
        some { r0 with
               parent_edge := some { e with length := len },
               data := some { trimmed := false, ancestry_depth := some (1 + a),
                              distance_depth := some (len + d) } }
    | _, _ => none

/-- The store `s` when the nodes of `D` have been visited, starting from the store `s0`: the
other nodes are as they were; the root has its data; every other node of `D` is what the loop
body makes of it from its parent's data; and the data of a node that is not marked trimmed has
its two depths. -/
structure visited_inv (params : parameters) (s0 : store) (root : Nat) (D : List Nat)
    (s : store) : Prop where
  frame : ∀ n, n ∉ D → s n = s0 n
  root_rec : s root =
    { (s0 root) with
      data := some { trimmed := false, ancestry_depth := some 0, distance_depth := some 0 } }
  node_rec : ∀ n ∈ D, n ≠ root → ∃ e pd, (s0 n).parent_edge = some e ∧ e.parent_node ∈ D ∧
    (s e.parent_node).data = some pd ∧ node_result params (s0 n) e pd = some (s n)
  data_ok : ∀ n ∈ D, ∃ nd, (s n).data = some nd ∧
    (nd.trimmed = false → ∃ d a, nd.distance_depth = some d ∧ nd.ancestry_depth = some a)

/-- The node `n` can be reached from the root through the lists of children; `d` is the sum of
the edge lengths along the path, each read from the text of the edge, and `a` is the number of
edges of the path (the number of ancestors of `n`). -/
inductive path_to (s : store) (root : Nat) : Nat → ℚ → Nat → Prop where
  | root : path_to s root root 0 0
  | child (p c : Nat) (d : ℚ) (a : Nat) (e : redge) :
      path_to s root p d a → c ∈ (s p).children → (s c).parent_edge = some e →
      path_to s root c (d + atof e.length_as_string) (a + 1)

/-- What holds of a node that can be reached from the root after `process_tree`: it is listed
and has data. If it is not marked trimmed, its two depths are the length and the number of edges
of its path, and it is the root or the test `to_trim` failed on it. If it is marked trimmed, it
has no children, `to_trim` succeeded on it, its parent (at distance `dp`, with `ap` ancestors)
is the root or failed the test, and the text of its edge is what `trim` printed. -/
def reached_ok (params : parameters) (s1 : store) (t : rooted_tree) (n : Nat) (d : ℚ)
    (a : Nat) : Prop :=
  n ∈ t.nodes_in_order ∧ ∃ nd, (s1 n).data = some nd ∧
    (nd.trimmed = false →
      nd.distance_depth = some d ∧ nd.ancestry_depth = some (a : Int) ∧
      ((n = t.root ∧ d = 0 ∧ a = 0) ∨ to_trim params d (a : Int) = false)) ∧
    (nd.trimmed = true →
      (s1 n).children = [] ∧ ∃ (dp : ℚ) (ap : Nat) (len : ℚ),
        to_trim params (len + dp) (1 + (ap : Int)) = true ∧
        ((dp = 0 ∧ ap = 0) ∨ to_trim params dp (ap : Int) = false) ∧
        nd.distance_depth = some (len + dp) ∧ a = ap + 1 ∧
        d = dp + atof (masprintf_g (len - (len + dp - params.threshold))))

/-! ## Example trees -/

/-- The tree `((A:la)B:lb)R;`: the root R at address 0, its child B at 1 with an edge of length
`lb`, and B's child A at 2 with an edge of length `la`; no data yet. -/
def chain_store (lb la : ℚ) : store := fun n =>
  match n with
  | 0 => { label := "R", children := [1], parent_edge := none, data := none }
  | 1 => { label := "B", children := [2],
           parent_edge := some { parent_node := 0, length := 0,
                                 length_as_string := length_text.numeral lb },
           data := none }
  | 2 => { label := "A", children := [],
           parent_edge := some { parent_node := 1, length := 0,
                                 length_as_string := length_text.numeral la },
           data := none }
  | _ => { label := "", children := [], parent_edge := none, data := none }

/-- The tree of `chain_store`: the root and the order-listing A, B, R. -/
def chain_tree : rooted_tree := { root := 0, nodes_in_order := [2, 1, 0] }

/-! ## trim.c: the command line -/

/-- The two values passed to `exit`. -/
inductive exit_status where
  | EXIT_SUCCESS
  | EXIT_FAILURE
deriving DecidableEq, Repr

/-- How a function of a command-line tool ends: it returns a value, or it ends the program
through `exit`. -/
inductive outcome (α : Type) where
  | returns (value : α)
  | exits (status : exit_status)
deriving DecidableEq, Repr

/-- The position of `getopt` in the argument vector: `optind`, and the index of the next
character inside the argument at `optind` (0: no argument has been entered). -/
structure getopt_state where
  optind : Nat
  nextchar : Nat
deriving DecidableEq, Repr

/-- One call of the C library function `getopt`, for an option string of letters that take no
argument: the option character found (`'?'` for a character that is not in the option string),
or `none` for -1 when the argument at `optind` is not an option (it is absent, does not begin
with `-`, or is `-` alone) or is `--`. Arguments are not permuted. -/
def getopt (argv : List String) (optstring : List Char) (st : getopt_state) :
    Option Char × getopt_state :=
  match argv[st.optind]? with
  | none => (none, st)
  | some arg =>
    let cs := arg.toList
    if st.nextchar = 0 ∧ (cs.head? ≠ some '-' ∨ cs.length < 2) then (none, st)
    else if st.nextchar = 0 ∧ cs = ['-', '-'] then
      (none, { optind := st.optind + 1, nextchar := 0 })
    else
      let pos := if st.nextchar = 0 then 1 else st.nextchar
      match cs[pos]? with
      | none => (none, st)
      | some c =>
        (some (if c ∈ optstring then c else '?'),
         if pos + 1 < cs.length then { optind := st.optind, nextchar := pos + 1 }
         else { optind := st.optind + 1, nextchar := 0 })

/-- The leading decimal digits of a text, as numbers, and the rest of the text. -/
def take_digits : List Char → List Nat × List Char
  | [] => ([], [])
  | c :: rest =>
    if c.isDigit then
      let r := take_digits rest
      ((c.toNat - 48) :: r.1, r.2)
    else ([], c :: rest)

/-- The number written by a sequence of decimal digits. -/
def digits_value (ds : List Nat) : Nat := ds.foldl (fun n d => 10 * n + d) 0

/-- The C library function `atof` on a C string: white space, an optional sign, decimal digits
with an optional point, and an optional exponent are read; the value is 0 when no digit is
found. Hexadecimal numerals and the words for infinity and not-a-number are not modelled. -/
def atof_string (text : String) : ℚ :=
  let cs := text.toList.dropWhile Char.isWhitespace
  let negative := cs.head? = some '-'
  let cs1 := if cs.head? = some '-' ∨ cs.head? = some '+' then cs.tail else cs
  let ip := take_digits cs1
  let fp := if ip.2.head? = some '.' then take_digits ip.2.tail else ([], ip.2)
  if ip.1 = [] ∧ fp.1 = [] then 0
  else
    let mantissa : ℚ := (digits_value ip.1 : ℚ) + (digits_value fp.1 : ℚ) / 10 ^ fp.1.length
    let exponent : Int :=
      if fp.2.head? = some 'e' ∨ fp.2.head? = some 'E' then
        let es := fp.2.tail
        let eneg := es.head? = some '-'
        let es1 := if es.head? = some '-' ∨ es.head? = some '+' then es.tail else es
        let ed := take_digits es1
        if ed.1 = [] then 0
        else if eneg then -(digits_value ed.1 : Int) else (digits_value ed.1 : Int)
      else 0
    (if negative then -mantissa else mantissa) * (10 : ℚ) ^ exponent

/-- The statements of `get_params` of `trim.c` under `case 'h':`, `help(argv)` and
`exit (EXIT_SUCCESS)`. -/
def get_params_case_h (_depth_type : depth_type) : outcome (parameters × Option String) :=
  outcome.exits exit_status.EXIT_SUCCESS

/-- The statements of `get_params` of `trim.c` under `case 'a':`, the assignment
`params.depth_type = DEPTH_ANCESTORS;`. No `break` follows it: control runs on into the
statements under `case 'h':`. -/
def get_params_case_a (_depth_type : depth_type) : outcome (parameters × Option String) :=
  get_params_case_h depth_type.DEPTH_ANCESTORS

/-- The C function `get_params` of `trim.c`, for the argument vector `argv` (`argv[0]` is the
name of the program); `fopen` tells of a file name whether the file can be opened for reading.
The function returns the parameters, together with the name of the file that becomes the input
`nwsin` (`none`: the standard input stays), or ends the program. -/
def get_params (fopen : String → Bool) (argv : List String) :
    outcome (parameters × Option String) :=
  let depth_type0 := depth_type.DEPTH_DISTANCE
  match getopt argv ['a', 'h'] { optind := 1, nextchar := 0 } with
  | (some opt_char, _) =>
    if opt_char = 'a' then get_params_case_a depth_type0
    else if opt_char = 'h' then get_params_case_h depth_type0
    else outcome.exits exit_status.EXIT_FAILURE
  | (none, st) =>
    if argv.length - st.optind = 2 then
      match argv[st.optind]?, argv[st.optind + 1]? with
      | some input, some depth =>
        if input ≠ "-" ∧ fopen input = false then outcome.exits exit_status.EXIT_FAILURE
        else
          outcome.returns
            ({ depth_type := depth_type0, threshold := atof_string depth },
             if input ≠ "-" then some input else none)
      | _, _ => outcome.exits exit_status.EXIT_FAILURE
    else outcome.exits exit_status.EXIT_FAILURE

/-! ## prune.c -/

namespace nw_prune

/-- The C enumeration `prune_mode`. -/
inductive prune_mode where
  | PRUNE_DIRECT
  | PRUNE_REVERSE
deriving DecidableEq, Repr

/-- Modelled from the spec: `set.h` is not among the sources. A `set_t` of labels, as the list
of the labels added to it. -/
abbrev set_t := List String

/-- The C function `process_tree` of `prune.c`. Its body is empty but for a comment (`TODO:
forget about iterator; do it with reversed nodes-in-order ...`): the tree is left as it is. -/
def process_tree (s : store) (tree : rooted_tree) (_cl_labels : set_t) (_mode : prune_mode) :
    store × rooted_tree :=
  (s, tree)

end nw_prune

/-! ## match.c -/

/-- Modelled from the spec: `rnode.h` is not among the sources. "A node with zero children is a
leaf". -/
def is_leaf (s : store) (n : Nat) : Bool := (s n).children.isEmpty

/-- Modelled from the spec: `rnode.h` is not among the sources. "The unique node with no parent
edge is the root". -/
def is_root (s : store) (n : Nat) : Bool := (s n).parent_edge.isNone

/-- The value of a byte as a `char`, the type being signed. -/
def signed_char (b : UInt8) : Int :=
  if b.toNat < 128 then (b.toNat : Int) else (b.toNat : Int) - 256

/-- A label as `hash.c` sees it: the `char` values of its bytes (in UTF-8), up to the first
NUL. -/
def c_string (label : String) : Key :=
  ((label.toList.flatMap String.utf8EncodeChar).takeWhile (fun b => b ≠ 0)).map signed_char

/-- Modelled from the spec: `to_newick.h` is not among the sources. The pieces of "the
canonical textual tree form": brackets, commas, labels, and lengths behind a colon. -/
inductive token where
  | lparen
  | rparen
  | comma
  | colon
  | semicolon
  | label (text : String)
  | length (text : length_text)
deriving DecidableEq, Repr

/-- The text that the serializer returns, as the sequence of its pieces; `strcmp` returning 0
is equality of these sequences. -/
abbrev newick_text := List token

/-- Modelled from the spec: `parser.h`, `to_newick.h`, `order_tree.h`, `link.h` and `nodemap.h`
are not among the sources. The functions of them that `match.c` calls, taken as parameters;
`none` stands for a call that has no result (undefined behaviour, or no return).
`parse_tree` gives the tree read from a text ("parse next tree → tree-or-end-of-input"; `none`
is `NULL`), `to_newick` the text of the tree under a node, `order_tree` the tree with the
children lists reordered, `unlink_rnode` the store after the removal of a node and the new root
it returns (`none`: `NULL`), `create_label2node_map` the index from labels to nodes. -/
structure collaborators where
  parse_tree : String → Option (store × rooted_tree)
  to_newick : store → Nat → Option newick_text
  order_tree : store → rooted_tree → Option (store × rooted_tree)
  unlink_rnode : store → Nat → Option (store × Option Nat)
  create_label2node_map : store → llist Nat → Option hash

/-- The loop of `remove_inner_node_labels`. -/
def remove_inner_node_labels_loop : store → List Nat → store
  | s, [] => s
  | s, current :: rest =>
    if is_leaf s current then remove_inner_node_labels_loop s rest
    else remove_inner_node_labels_loop (s.write current { (s current) with label := "" }) rest

/-- The C function `remove_inner_node_labels`. -/
def remove_inner_node_labels (s : store) (target_tree : rooted_tree) : store :=
  remove_inner_node_labels_loop s target_tree.nodes_in_order

/-- The loop of `prune_extra_labels`, from the store `s` and the root `root` of the tree on:
the store and the root afterwards; `none` is undefined behaviour. The last component, which the
C function does not have, lists the nodes that were passed to `unlink_rnode`, in that order. -/
def prune_extra_labels_loop (unlink_rnode : store → Nat → Option (store × Option Nat))
    (kept : hash) : store → Nat → List Nat → List Nat → Option (store × Nat × List Nat)
  | s, root, [], passed => some (s, root, passed)
  | s, root, current :: rest, passed =>
    let label := (s current).label
    if label = "" then prune_extra_labels_loop unlink_rnode kept s root rest passed
    else if is_root s current then prune_extra_labels_loop unlink_rnode kept s root rest passed
    else
      match hash_get kept (c_string label) with
      | none => none
      | some value =>
        if value = NULL then
          match unlink_rnode s current with
          | none => none
          | some (s1, new_root) =>
            prune_extra_labels_loop unlink_rnode kept s1 (new_root.getD root) rest
              (passed ++ [current])
        else prune_extra_labels_loop unlink_rnode kept s root rest passed

/-- The C function `prune_extra_labels`: the store and the tree afterwards, and the nodes that
were passed to `unlink_rnode`; `none` is undefined behaviour. -/
def prune_extra_labels (unlink_rnode : store → Nat → Option (store × Option Nat))
    (s : store) (target_tree : rooted_tree) (kept : hash) :
    Option (store × rooted_tree × List Nat) :=
  match prune_extra_labels_loop unlink_rnode kept s target_tree.root
      target_tree.nodes_in_order [] with
  | none => none
  | some (s1, root, passed) => some (s1, { target_tree with root := root }, passed)

/-- The loop of `remove_branch_lengths`; `none` is undefined behaviour (the `NULL` parent edge
of a node is read). -/
def remove_branch_lengths_loop : store → List Nat → Option store
  | s, [] => some s
  | s, current :: rest =>
    match (s current).parent_edge with
    | none => none
    | some cur_edge =>
      if cur_edge.length_as_string ≠ length_text.empty then
        remove_branch_lengths_loop
          (s.write current
            { (s current) with
              parent_edge := some { cur_edge with length_as_string := length_text.empty } })
          rest
      else remove_branch_lengths_loop s rest

/-- The C function `remove_branch_lengths`. -/
def remove_branch_lengths (s : store) (target_tree : rooted_tree) : Option store :=
  remove_branch_lengths_loop s target_tree.nodes_in_order

namespace nw_match

/-- The C struct `parameters` of `match.c`. The field `target_trees`, a stream in C, is the
sequence of the texts of the trees that the stream holds. -/
structure parameters where
  pattern : String
  target_trees : List String
  reverse : Bool
deriving DecidableEq, Repr

/-- The C function `get_ordered_pattern_tree`: the pattern is parsed and ordered; the program
exits when it cannot be parsed. -/
def get_ordered_pattern_tree (c : collaborators) (pattern : String) :
    Option (outcome (store × rooted_tree)) :=
  match c.parse_tree pattern with
  | none => some (outcome.exits exit_status.EXIT_FAILURE)
  | some (s, pattern_tree) =>
    match c.order_tree s pattern_tree with
    | none => none
    | some r => some (outcome.returns r)

/-- The statements of the loop of `main` between the two calls of `to_newick`: the reduction of
the target tree, and the text of the reduced tree, `processed_newick`. -/
def reduce (c : collaborators) (pattern_labels : hash) (s : store) (tree : rooted_tree) :
    Option newick_text :=
  let s1 := remove_inner_node_labels s tree
  match prune_extra_labels c.unlink_rnode s1 tree pattern_labels with
  | none => none
  | some (s2, tree2, _) =>
    match remove_branch_lengths s2 tree2 with
    | none => none
    | some s3 =>
      match c.order_tree s3 tree2 with
      | none => none
      | some (s4, tree4) => c.to_newick s4 tree4.root

/-- The two assignments to `match` in the loop of `main`:
`match = (0 == strcmp(processed_newick, pattern_newick))` and
`match = params.reverse ? !match : match`. -/
def decide_match (reverse : Bool) (processed_newick pattern_newick : newick_text) : Bool :=
  let m := decide (processed_newick = pattern_newick)
  if reverse then !m else m

/-- The body of the loop of `main` for one target tree: the final value of `match` and the
lines printed; `none` is undefined behaviour. -/
def main_loop_body (c : collaborators) (reverse : Bool) (pattern_newick : newick_text)
    (pattern_labels : hash) (s : store) (tree : rooted_tree) :
    Option (Bool × List newick_text) :=
  match c.to_newick s tree.root with
  | none => none
  | some original_newick =>
    match reduce c pattern_labels s tree with
    | none => none
    | some processed_newick =>
      let m := decide_match reverse processed_newick pattern_newick
      some (m, if m then [original_newick] else [])

/-- The loop of `main`: the lines printed for the trees of the stream, up to the first text
for which `parse_tree` returns `NULL`. -/
def main_loop (c : collaborators) (reverse : Bool) (pattern_newick : newick_text)
    (pattern_labels : hash) : List String → Option (List newick_text)
  | [] => some []
  | text :: rest =>
    match c.parse_tree text with
    | none => some []
    | some (s, tree) =>
      match main_loop_body c reverse pattern_newick pattern_labels s tree with
      | none => none
      | some (_, printed) =>
        match main_loop c reverse pattern_newick pattern_labels rest with
        | none => none
        | some more => some (printed ++ more)

/-- The C function `main` of `match.c`, after `get_params`: the lines printed, when `main`
returns; `none` is undefined behaviour. -/
def main (c : collaborators) (params : parameters) : Option (outcome (List newick_text)) :=
  match get_ordered_pattern_tree c params.pattern with
  | none => none
  | some (outcome.exits status) => some (outcome.exits status)
  | some (outcome.returns (ps, pattern_tree)) =>
    match c.to_newick ps pattern_tree.root with
    | none => none
    | some pattern_newick =>
      match c.create_label2node_map ps pattern_tree.nodes_in_order with
      | none => none
      | some pattern_labels =>
        match main_loop c params.reverse pattern_newick pattern_labels params.target_trees with
        | none => none
        | some printed => some (outcome.returns printed)

end nw_match

/-! ## The collaborators of match.c, after the specification -/

/-- The texts of the subtrees of a list of siblings, separated by commas; `none` when one of
them has no text. -/
def join_texts : List (Option newick_text) → Option newick_text
  | [] => some []
  | [t] => t
  | t :: rest =>
    match t, join_texts rest with
    | some t1, some r => some (t1 ++ token.comma :: r)
    | _, _ => none

/-- Modelled from the spec: `to_newick.h` is not among the sources. The text of the subtree
under a node ("a pure function of the current tree shape, labels, and edge-length text"): the
texts of its children in brackets, its label, and the text of its length behind a colon. The
recursion goes `fuel` levels deep; `none`: it does not end within them. -/
def subtree_text : Nat → store → Nat → Option newick_text
  | 0, _, _ => none
  | fuel + 1, s, n =>
    let below : Option newick_text :=
      if (s n).children = [] then some []
      else
        match join_texts ((s n).children.map (subtree_text fuel s)) with
        | none => none
        | some t => some (token.lparen :: t ++ [token.rparen])
    let name : newick_text := if (s n).label = "" then [] else [token.label (s n).label]
    let len : newick_text :=
      match (s n).parent_edge with
      | none => []
      | some e =>
        if e.length_as_string = length_text.empty then []
        else [token.colon, token.length e.length_as_string]
    match below with
    | none => none
    | some t => some (t ++ name ++ len)

/-- Modelled from the spec: `to_newick.h` is not among the sources. The text of the tree under
`root`: the text of the subtree and a semicolon. -/
def to_newick (fuel : Nat) (s : store) (root : Nat) : Option newick_text :=
  match subtree_text fuel s root with
  | none => none
  | some t => some (t ++ [token.semicolon])

/-- The key by which `order_tree` compares subtrees ("leaves compare by their own label;
internal nodes compare by their already-ordered descendant label sequence"): the labels of the
leaves under the node, in the order of the children lists. -/
def subtree_key : Nat → store → Nat → List String
  | 0, _, _ => []
  | fuel + 1, s, n =>
    if (s n).children = [] then [(s n).label]
    else ((s n).children.map (subtree_key fuel s)).flatten

/-- The loop of `order_tree` over the order-listing, children before parents. -/
def order_tree_loop (fuel : Nat) : store → List Nat → store
  | s, [] => s
  | s, node :: rest =>
    order_tree_loop fuel
      (s.write node
        { (s node) with
          children := (s node).children.insertionSort
            (fun a b => subtree_key fuel s a ≤ subtree_key fuel s b) })
      rest

/-- Modelled from the spec: `order_tree.h` is not among the sources. "Mutates children lists in
place, bottom-up, so that siblings are sorted by a total order derived from each subtree's own
normalized label sequence". -/
def order_tree (fuel : Nat) (s : store) (tree : rooted_tree) : Option (store × rooted_tree) :=
  some (order_tree_loop fuel s tree.nodes_in_order, tree)

/-- The text of the sum of two lengths: empty when both texts are, else the numeral of the sum
of the two numbers. -/
def add_lengths (a b : length_text) : length_text :=
  if a = length_text.empty ∧ b = length_text.empty then length_text.empty
  else length_text.numeral (atof a + atof b)

/-- The children list of the parent when `node` is replaced, at its position, by the children
`kids` it had. -/
def replace_child (node : Nat) (kids : List Nat) : List Nat → List Nat
  | [] => []
  | c :: rest =>
    if c = node then kids ++ replace_child node kids rest
    else c :: replace_child node kids rest

/-- The edges of the nodes of `kids` led to `p`, each made longer by the edge `e` of the node
that is removed. -/
def reparent (p : Nat) (e : redge) : store → List Nat → store
  | s, [] => s
  | s, k :: rest =>
    reparent p e
      (s.write k
        { (s k) with
          parent_edge := (s k).parent_edge.map (fun ke =>
            { parent_node := p, length := ke.length + e.length,
              length_as_string := add_lengths ke.length_as_string e.length_as_string }) })
      rest

/-- One removal: `node`, whose parent edge `e` leads to `p`, is taken out of the children list
of `p`; the children it had take its place there, their edges led to `p` and made longer by
`e`. The node that is removed is not written. -/
def splice_out (s : store) (node : Nat) (e : redge) : store :=
  let p := e.parent_node
  let kids := (s node).children
  let s1 := reparent p e s kids
  s1.write p { (s1 p) with children := replace_child node kids (s1 p).children }

/-- Modelled from the spec: `link.h` is not among the sources. The removal of a node
("unlinks `node` from its parent's children list; if the node had children, they are
re-parented onto the node's former parent at the same list position, and each promoted child's
edge length becomes (its own length + the removed node's edge length)"; "if, after removal, the
parent is left with exactly one child, the parent itself is spliced out in the same way
(recursively)"). A node is taken for the root when it has no parent edge, or a parent edge that
leads to no node (`NULL`). When the parent that is left with one child is the root, that child
is the new root and is returned: it gets the place of the old root, that is no parent edge, or
the parent edge of the old root made longer by its own. The nodes that are taken out of the
tree are not written. `none`: the node is the root ("removing the root is disallowed"), or the
recursion does not end within `fuel` levels. -/
def unlink_rnode : Nat → store → Nat → Option (store × Option Nat)
  | 0, _, _ => none
  | fuel + 1, s, node =>
    match (s node).parent_edge with
    | none => none
    | some e =>
      if e.parent_node = NULL then none
      else
        let p := e.parent_node
        let s1 := splice_out s node e
        match (s1 p).children with
        | [c] =>
          match (s1 p).parent_edge with
          | none => some (s1.write c { (s1 c) with parent_edge := none }, some c)
          | some ep =>
            if ep.parent_node = NULL then some (reparent NULL ep s1 [c], some c)
            else unlink_rnode fuel s1 p
        | _ => some (s1, none)

/-- Modelled from the spec: `nodemap.h` is not among the sources. The index from labels to
nodes ("a mapping from label string to ... node references", "built once per run"): a table
made by `create_hash` with one bin for each node of the list, in which every node of the list
is set under its label. -/
def create_label2node_map (s : store) (nodes : llist Nat) : Option hash :=
  match create_hash [] nodes.length with
  | (none, _) => none
  | (some h, _) => hash_set_all h (nodes.map (fun n => (c_string (s n).label, n)))

/-- The collaborators after the specification, for a parser `parse_tree` and a depth `fuel`
of recursion. -/
def spec_collaborators (parse_tree : String → Option (store × rooted_tree)) (fuel : Nat) :
    collaborators :=
  { parse_tree := parse_tree
    to_newick := to_newick fuel
    order_tree := order_tree fuel
    unlink_rnode := unlink_rnode fuel
    create_label2node_map := create_label2node_map }

/-! ## Predicates on the trees and on the index of match.c -/

/-- The node can be reached from `root` through the lists of children: it is in the tree that
hangs from `root`. -/
inductive in_tree (s : store) (root : Nat) : Nat → Prop where
  | root : in_tree s root root
  | child (p c : Nat) : in_tree s root p → c ∈ (s p).children → in_tree s root c

/-- Modelled from the spec: `rnode.h` and `tree.h` are not among the sources. The invariants of
a tree ("exactly one root per tree; no cycles; every non-root node's parent edge points to a
node that lists it among its children"), for the nodes that hang from `root` in the store `s`
and a numbering `rank` of the nodes: the root has no parent, that is no parent edge or a parent
edge that leads to no node (`NULL`); `NULL` is no node of the tree; a node that a node of the
tree lists as a child has its parent edge to that node; and every child has a larger number
than the node that lists it, and none larger than `depth`. Nothing is said of the nodes that do
not hang from `root`. -/
structure tree_ranked (s : store) (root : Nat) (depth : Nat) (rank : Nat → Nat) : Prop where
  root_edge : parent_of s root = none ∨ parent_of s root = some NULL
  no_null : ¬ in_tree s root NULL
  child_parent : ∀ p c, in_tree s root p → c ∈ (s p).children → parent_of s c = some p
  ranked : ∀ p c, in_tree s root p → c ∈ (s p).children → rank p < rank c ∧ rank c ≤ depth

/-- The nodes that hang from `root` in the store `s` meet the invariants of a tree, no chain
of children being longer than `depth`: they do for some numbering of the nodes. -/
def tree_ok (s : store) (root : Nat) (depth : Nat) : Prop :=
  ∃ rank : Nat → Nat, tree_ranked s root depth rank

/-- Modelled from the spec: `link.h` is not among the sources. What the specification says of
the node-removal operation (sections 1 and 4.4), for a tree that meets the invariants and a
node `n` of the tree other than the root. The operation returns. The tree it leaves, under the
new root if it returns one, meets the invariants ("must preserve tree invariants"). No label is
changed. No node enters the tree, and `n` is no longer in it ("unlinks `node` from its parent's
children list"). A node that leaves the tree is `n` or a node that had children ("if the node
had children, they are re-parented onto the node's former parent"; "if, after removal, the
parent is left with exactly one child, the parent itself is spliced out"). A node that had no
children and stays in the tree has none afterwards (children are given to "the node's former
parent" only). Nothing is asked of the fields of the nodes that have left the tree, nor of a
call for a node that is not in the tree. -/
def splicer_contract (unlink_rnode : store → Nat → Option (store × Option Nat))
    (depth : Nat) : Prop :=
  ∀ s root n, tree_ok s root depth → in_tree s root n → n ≠ root →
    ∃ s1 new_root, unlink_rnode s n = some (s1, new_root) ∧
      tree_ok s1 (new_root.getD root) depth ∧
      (∀ m, (s1 m).label = (s m).label) ∧
      (∀ m, in_tree s1 (new_root.getD root) m → in_tree s root m ∧ m ≠ n) ∧
      (∀ m, in_tree s root m → ¬ in_tree s1 (new_root.getD root) m →
        m = n ∨ (s m).children ≠ []) ∧
      (∀ m, in_tree s1 (new_root.getD root) m → (s m).children = [] → (s1 m).children = [])

/-- The index is one in which `hash_get` tells the labels that are stored from those that are
not: it has between 1 and `2^31` bins, no `NULL` key, every pair in the bin numbered by its
key, and no value `NULL`. -/
def index_ok (kept : hash) : Prop :=
  1 ≤ kept.size ∧ kept.size ≤ 2 ^ 31 ∧ no_null_key kept ∧
    bins_placed kept.size kept.bins ∧ ∀ p ∈ kept.bins.flatten, p.value ≠ NULL

/-- The invariants of a tree, checked on the nodes of the list `nodes` with the numbering
`rank`: the root is listed and `NULL` is not; the root has no parent edge, or one that leads to
`NULL`; every child of a listed node is listed, has its parent edge to that node, and a number
larger than it and at most `depth`; and every listed node other than the root is a child of the
listed node that its parent edge leads to. -/
def tree_check (s : store) (root depth : Nat) (rank : Nat → Nat) (nodes : List Nat) : Bool :=
  decide (root ∈ nodes) && decide (NULL ∉ nodes) &&
    decide (parent_of s root = none ∨ parent_of s root = some NULL) &&
    nodes.all (fun p => (s p).children.all (fun c =>
      decide (c ∈ nodes) && decide (parent_of s c = some p) && decide (rank p < rank c) &&
        decide (rank c ≤ depth))) &&
    nodes.all (fun n => decide (n = root) ||
      match parent_of s n with
      | none => false
      | some p => decide (p ∈ nodes) && decide (n ∈ (s p).children))

/-- Every pair of the bins, the first of which has the number `i`, lies in the bin numbered by
its key, as a check. -/
def bins_check_from (n : Nat) : Nat → List (llist key_val_pair) → Bool
  | _, [] => true
  | i, bin :: rest =>
    bin.all (fun p =>
      match p.key with
      | some k => decide (hash_func k % n = i)
      | none => false) && bins_check_from n (i + 1) rest

/-! ## Example trees of match.c -/

/-- A node without label, children, parent edge and data. -/
def blank_node : rnode := { label := "", children := [], parent_edge := none, data := none }

/-- The store that holds the nodes of the list `nodes` at their addresses, and a blank node at
every other address. -/
def store_of (nodes : List (Nat × rnode)) : store := fun n =>
  match nodes.lookup n with
  | some r => r
  | none => blank_node

/-- A tree of two leaves `A` and `B`, in this order or the other, under a root: the root at
address 1 with the label `root_label` and the parent edge `root_edge`, the leaves at the
addresses 2 and 3 with the length text `len` on their edges. -/
def two_leaf_store (root_label : String) (root_edge : Option redge) (len : length_text)
    (swapped : Bool) : store := fun n =>
  match n with
  | 1 => { label := root_label, children := if swapped then [3, 2] else [2, 3],
           parent_edge := root_edge, data := none }
  | 2 => { label := "A", children := [],
           parent_edge := some { parent_node := 1, length := 0, length_as_string := len },
           data := none }
  | 3 => { label := "B", children := [],
           parent_edge := some { parent_node := 1, length := 0, length_as_string := len },
           data := none }
  | _ => { label := "", children := [], parent_edge := none, data := none }

/-- The tree of `two_leaf_store`: the root and the order-listing. -/
def two_leaf_tree (swapped : Bool) : rooted_tree :=
  { root := 1, nodes_in_order := if swapped then [3, 2, 1] else [2, 3, 1] }

/-- The parent edge of a root that has one: it leads to no node (`NULL`, the address 0) and
has no length text. -/
def root_edge : redge := { parent_node := 0, length := 0, length_as_string := length_text.empty }

/-- A parser that knows one text: it returns the tree `result` for the text `text`, and `NULL`
for every other text. -/
def parser_of (text : String) (result : store × rooted_tree) :
    String → Option (store × rooted_tree) :=
  fun t => if t = text then some result else none

/-- The tree `((A,B)X,C)R;`, its nodes without length text: the root `R` at address 1, `X` at
2, `A` at 3, `B` at 4 and `C` at 5. -/
def five_node_store : store :=
  store_of
    [(1, { label := "R", children := [2, 5], parent_edge := none, data := none }),
     (2, { label := "X", children := [3, 4],
           parent_edge := some { parent_node := 1, length := 0,
                                 length_as_string := length_text.empty },
           data := none }),
     (3, { label := "A", children := [],
           parent_edge := some { parent_node := 2, length := 0,
                                 length_as_string := length_text.empty },
           data := none }),
     (4, { label := "B", children := [],
           parent_edge := some { parent_node := 2, length := 0,
                                 length_as_string := length_text.empty },
           data := none }),
     (5, { label := "C", children := [],
           parent_edge := some { parent_node := 1, length := 0,
                                 length_as_string := length_text.empty },
           data := none })]

/-- The tree of `five_node_store`: the root and the order-listing A, B, X, C, R. -/
def five_node_tree : rooted_tree := { root := 1, nodes_in_order := [3, 4, 2, 5, 1] }

/-- The tree `((A,B)X,C)R;` of `five_node_store` with a parent edge at the root too, which
leads to no node. -/
def five_node_rooted : store :=
  five_node_store.write 1 { (five_node_store 1) with parent_edge := some root_edge }

/-- A numbering of the nodes of `five_node_store` by their depth. -/
def five_node_rank (n : Nat) : Nat :=
  if n = 1 then 0 else if n = 2 ∨ n = 5 then 1 else 2

/-- An index that holds the labels `B` and `C`, each with its node of `five_node_store`. -/
def five_node_kept : hash :=
  { bins := [[{ key := some [66], value := 4 }], [{ key := some [67], value := 5 }]],
    count := 2, type := hash_type.HASH_FIXED, load_threshold := 0, resize_factor := 0 }

/-! ## trim.c: the calls of `trim`, and ancestors -/

/-- Whether the body of the loop of `process_tree`, run for `node` in the store `s`, comes to
the call `trim(node, params)`: the parent is not marked trimmed and the test `to_trim`
succeeds on the depths computed for the node. -/
def calls_trim (params : parameters) (s : store) (node : Nat) : Bool :=
  match (s node).parent_edge with
  | none => false
  | some parent_edge =>
    match (s parent_edge.parent_node).data with
    | none => false
    | some parent_data =>
      if parent_data.trimmed then false
      else
        match parent_data.distance_depth, parent_data.ancestry_depth with
        | some parent_distance_depth, some parent_ancestry_depth =>
          to_trim params (atof parent_edge.length_as_string + parent_distance_depth)
            (1 + parent_ancestry_depth)
        | _, _ => false

/-- The loop of `process_tree` over the nodes after the root: the nodes for which `trim` is
called, in the order of the calls; `none` is undefined behaviour. -/
def trim_calls (params : parameters) : store → List Nat → Option (List Nat)
  | _, [] => some []
  | s, node :: rest =>
    match visit params s node with
    | none => none
    | some s1 =>
      match trim_calls params s1 rest with
      | none => none
      | some calls => some (if calls_trim params s node then node :: calls else calls)

/-- The C function `process_tree` of `trim.c`: the nodes to which it applies `trim`, in the
order of the calls; `none` is undefined behaviour. -/
def process_tree_trims (s : store) (tree : rooted_tree) (params : parameters) :
    Option (List Nat) :=
  match tree.nodes_in_order.reverse with
  | [] => none
  | node :: rest =>
    let s0 := s.write node
      { (s node) with
        data := some { trimmed := false, ancestry_depth := some 0, distance_depth := some 0 } }
    trim_calls params s0 rest

/-- The node `n` lies `a` parent edges below the root, and `d` is the sum of the lengths of
these edges, each read from the text of the edge. -/
inductive depth_of (s : store) (root : Nat) : Nat → ℚ → Nat → Prop where
  | root : depth_of s root root 0 0
  | edge (n : Nat) (e : redge) (d : ℚ) (a : Nat) :
      n ≠ root → (s n).parent_edge = some e → depth_of s root e.parent_node d a →
      depth_of s root n (d + atof e.length_as_string) (a + 1)

/-- The node `n` is a proper descendant of the node `m`: it is reached from `m` through one or
more lists of children. -/
inductive descends (s : store) (m : Nat) : Nat → Prop where
  | child (c : Nat) : c ∈ (s m).children → descends s m c
  | step (p c : Nat) : descends s m p → c ∈ (s p).children → descends s m c

/-- The condition under which `process_tree` applies `trim` to the node `n`, read in the store
`s1` that it leaves (`s0` is the store before): the parent of `n` is not marked trimmed, and the
depth of `n`, computed from the depths of the parent, is above the threshold. -/
def trim_applies (params : parameters) (s0 s1 : store) (n : Nat) : Prop :=
  ∃ e pd d a, (s0 n).parent_edge = some e ∧ (s1 e.parent_node).data = some pd ∧
    pd.trimmed = false ∧ pd.distance_depth = some d ∧ pd.ancestry_depth = some a ∧
    to_trim params (atof e.length_as_string + d) (1 + a) = true

/-! ## hash.c: the tables that the functions make -/

/-- The tables that can be reached: a table is made by `create_hash` or by
`create_dynamic_hash`, and is the table that `hash_set` or `resize_hash` leaves of a table that
can be reached, whatever the outcomes of the allocations. -/
inductive reachable : hash → Prop where
  | created (a : Alloc) (n : Nat) (h : hash) (a1 : Alloc) :
      create_hash a n = (some h, a1) → reachable h
  | created_dynamic (a : Alloc) (init_size : Nat) (load_threshold : ℚ) (resize_factor : Nat)
      (h : hash) (a1 : Alloc) :
      create_dynamic_hash a init_size load_threshold resize_factor = (some h, a1) →
      reachable h
  | set (a : Alloc) (h : hash) (key : Key) (value : Value) (st : status) (h1 : hash)
      (a1 : Alloc) :
      reachable h → hash_set a h key value = some (st, h1, a1) → reachable h1
  | resized (a : Alloc) (h : hash) (new_size : Nat) (r : ℚ) (h1 : hash) (a1 : Alloc) :
      reachable h → resize_hash a h new_size = some (r, h1, a1) → reachable h1

/-! ## trim.c in double arithmetic

The functions of `trim.c` once more, with the arithmetic of the machine: a `double` is the
rational number it holds, `atof` gives the double nearest to the number that a text denotes,
and every sum and difference of doubles is rounded to the nearest double. The definitions of
the section `trim.c` above take every double for the number it stands for, without rounding. -/

/-- The number of binary digits of `n`, less one (`n ≥ 1`), by repeated halving. -/
def log2_floor : Nat → Nat → Nat
  | 0, _ => 0
  | fuel + 1, n => if n < 2 then 0 else 1 + log2_floor fuel (n / 2)

/-- The least `k`, from `k` on, for which `q ≤ p * 2^k`. -/
def scale_up2 : Nat → Nat → Nat → Nat → Nat
  | 0, _, _, k => k
  | fuel + 1, p, q, k => if q ≤ p * 2 ^ k then k else scale_up2 fuel p q (k + 1)

/-- The binary exponent of a number that is not 0: the `e` with `2^e ≤ |x| < 2^(e+1)`. -/
def bin_exponent (x : ℚ) : Int :=
  let p := x.num.natAbs
  let q := x.den
  if q ≤ p then (log2_floor p (p / q) : Int) else -(scale_up2 q p q 1 : Int)

/-- The exponent of the last binary place of the double nearest to `x`: 52 places below the
leading one, and not below `2^-1074`, the least positive double. -/
def last_place (x : ℚ) : Int := max (bin_exponent x - 52) (-1074)

/-- The double nearest to `x` (IEEE 754 binary64, rounding to nearest, a tie going to the even
significand). The exponent range has no upper end here: no infinity arises, and the function is
the rounding of the machine for the numbers below `2^1024` in magnitude. -/
def round_double (x : ℚ) : ℚ :=
  if x = 0 then 0
  else
    let e := last_place x
    let m := round_half_even ((if x < 0 then -x else x) * (2 : ℚ) ^ (-e))
    (if x < 0 then -1 else 1) * (m : ℚ) * (2 : ℚ) ^ e

/-- The number `x` is a double: rounding leaves it as it is, and it is below `2^1024` in
magnitude. -/
def is_double (x : ℚ) : Prop := round_double x = x ∧ |x| < 2 ^ 1024

instance (x : ℚ) : Decidable (is_double x) := by
  unfold is_double
  infer_instance

namespace ieee

/-- The C library function `atof` on the text of an edge length, in double arithmetic: the
double nearest to the number that the text denotes. -/
def atof (t : length_text) : ℚ := round_double (nw.atof t)

/-- The C function `trim` of `trim.c`, in double arithmetic; `none` is undefined behaviour (a
`NULL` pointer or a field never written is read). -/
def trim (s : store) (node : Nat) (params : parameters) : Option store :=
  match (s node).data with
  | none => none
  | some ndata =>
    match ndata.distance_depth with
    | none => none
    | some distance_depth =>
      let excess := round_double (distance_depth - params.threshold)
      match (s node).parent_edge with
      | none => none
      | some parent_edge =>
        let trimmed_edge_length := round_double (parent_edge.length - excess)
        let new_length := masprintf_g trimmed_edge_length
        some (s.write node
          { label := (s node).label,
            children := [],
            parent_edge := some { parent_edge with length_as_string := new_length },
            data := some { ndata with trimmed := true } })

/-- The body of the loop of `process_tree`, for one node after the root, in double arithmetic;
`none` is undefined behaviour. Allocation is taken to succeed (the program exits otherwise). -/
def visit (params : parameters) (s : store) (node : Nat) : Option store :=
  match (s node).parent_edge with
  | none => none
  | some parent_edge =>
    let parent := parent_edge.parent_node
    match (s parent).data with
    | none => none
    | some parent_data =>
      if parent_data.trimmed then
        some (s.write node
          { (s node) with
            data := some { trimmed := true, ancestry_depth := none, distance_depth := none } })
      else
        match parent_data.distance_depth, parent_data.ancestry_depth with
        | some parent_distance_depth, some parent_ancestry_depth =>
          let parent_edge_length := atof parent_edge.length_as_string
          let distance_depth := round_double (parent_edge_length + parent_distance_depth)
          let ancestry_depth := 1 + parent_ancestry_depth
          let s1 := s.write node
            { (s node) with
              parent_edge := some { parent_edge with length := parent_edge_length },
              data := some { trimmed := false, ancestry_depth := some ancestry_depth,
                             distance_depth := some distance_depth } }
          if to_trim params distance_depth ancestry_depth then trim s1 node params
          else some s1
        | _, _ => none

/-- The loop of `process_tree` over the nodes after the root, in double arithmetic. -/
def visit_all (params : parameters) : store → List Nat → Option store
  | s, [] => some s
  | s, node :: rest =>
    match visit params s node with
    | none => none
    | some s1 => visit_all params s1 rest

/-- The C function `process_tree` of `trim.c`, in double arithmetic: the store afterwards;
`none` is undefined behaviour. -/
def process_tree (s : store) (tree : rooted_tree) (params : parameters) : Option store :=
  match tree.nodes_in_order.reverse with
  | [] => none
  | node :: rest =>
    let s0 := s.write node
      { (s node) with
        data := some { trimmed := false, ancestry_depth := some 0, distance_depth := some 0 } }
    visit_all params s0 rest

end ieee

namespace ieee

/-- What the loop body of `process_tree`, in double arithmetic, makes of a node `r0` whose
parent edge is `e` and whose parent has the data `pd`; `none` when a depth field of the parent
was never written. -/
def node_result (params : parameters) (r0 : rnode) (e : redge) (pd : node_data) :
    Option rnode :=
  if pd.trimmed then
    some { r0 with
           data := some { trimmed := true, ancestry_depth := none, distance_depth := none } }
  else
    match pd.distance_depth, pd.ancestry_depth with
    | some d, some a =>
      let len := atof e.length_as_string
      let dd := round_double (len + d)
      if to_trim params dd (1 + a) then
        some { label := r0.label, children := [],
               parent_edge := some { parent_node := e.parent_node, length := len,
                                     length_as_string :=
                                       masprintf_g (round_double
                                         (len - round_double (dd - params.threshold))) },
               data := some { trimmed := true, ancestry_depth := some (1 + a),
                              distance_depth := some dd } }
      else
        some { r0 with
               parent_edge := some { e with length := len },
               data := some { trimmed := false, ancestry_depth := some (1 + a),
                              distance_depth := some dd } }
    | _, _ => none

/-- The store `s` when the nodes of `D` have been visited in double arithmetic, starting from
the store `s0`: as `nw.visited_inv`, with `ieee.node_result`. -/
structure visited_inv (params : parameters) (s0 : store) (root : Nat) (D : List Nat)
    (s : store) : Prop where
  frame : ∀ n, n ∉ D → s n = s0 n
  root_rec : s root =
    { (s0 root) with
      data := some { trimmed := false, ancestry_depth := some 0, distance_depth := some 0 } }
  node_rec : ∀ n ∈ D, n ≠ root → ∃ e pd, (s0 n).parent_edge = some e ∧ e.parent_node ∈ D ∧
    (s e.parent_node).data = some pd ∧ node_result params (s0 n) e pd = some (s n)
  data_ok : ∀ n ∈ D, ∃ nd, (s n).data = some nd ∧
    (nd.trimmed = false → ∃ d a, nd.distance_depth = some d ∧ nd.ancestry_depth = some a)

/-- Nothing is rounded at a node whose edge length is the number `v` and whose parent lies at
the depth `dp`, with `a` ancestors: `v` is a double, so that `atof` gives `v` itself; the sum
`v + dp` is a double; and if the test `to_trim` succeeds on it, the excess over the threshold
and the length less the excess are doubles. -/
def exact_at (params : parameters) (v dp : ℚ) (a : Int) : Prop :=
  is_double v ∧ is_double (v + dp) ∧
    (to_trim params (v + dp) (1 + a) = true →
      is_double (v + dp - params.threshold) ∧ is_double (v - (v + dp - params.threshold)))

/-- Nothing is rounded in the run of `process_tree` that leads from the store `s` to the store
`s1`: `exact_at` holds at every listed node, other than the root, whose parent is not marked
trimmed. -/
def exact_run (params : parameters) (s s1 : store) (t : rooted_tree) : Prop :=
  ∀ m ∈ t.nodes_in_order, m ≠ t.root → ∀ e pd dp a, (s m).parent_edge = some e →
    (s1 e.parent_node).data = some pd → pd.trimmed = false → pd.distance_depth = some dp →
    pd.ancestry_depth = some a → exact_at params (nw.atof e.length_as_string) dp a

end ieee

/-! ## Lemmas on hash.c: the run without allocation failure -/

theorem toInt32_of_lt (x : Int) (h0 : 0 ≤ x) (h1 : x < 2 ^ 31) : toInt32 x = x := by
  unfold toInt32
  norm_num at h1 ⊢
  omega

theorem create_bins_nil (n : Nat) : create_bins n [] = (some (List.replicate n []), []) := by
  induction n with
  | zero => rfl
  | succ n ih => simp [create_bins, malloc, ih, List.replicate_succ]

theorem create_hash_nil (n : Nat) :
    create_hash [] n =
      (some { bins := List.replicate n [], count := 0, type := hash_type.HASH_FIXED,
              load_threshold := 0, resize_factor := 0 }, []) := by
  simp [create_hash, malloc, create_bins_nil]

theorem create_dynamic_hash_nil (n : Nat) (t : ℚ) (r : Nat) :
    create_dynamic_hash [] n t r =
      (some { bins := List.replicate n [], count := 0, type := hash_type.HASH_DYNAMIC,
              load_threshold := t, resize_factor := r }, []) := by
  simp [create_dynamic_hash, create_hash_nil]

theorem bin_get_append_ne (key k : Key) (v : Value) (h : key ≠ k) (bin : llist key_val_pair) :
    bin_get key (bin ++ [{ key := some k, value := v }]) = bin_get key bin := by
  induction bin with
  | nil => simp [bin_get, h]
  | cons p rest ih =>
    cases hk : p.key with
    | none => simp [bin_get, hk]
    | some k1 => by_cases e : key = k1 <;> simp [bin_get, hk, e, ih]

theorem bin_replace_none_get (key : Key) (v : Value) (bin : llist key_val_pair)
    (h : bin_replace key v bin = some none) :
    bin_get key bin = some NULL ∧ some key ∉ bin.map key_val_pair.key ∧ bin_ok bin ∧
      bin_get key (bin ++ [{ key := some key, value := v }]) = some v := by
  induction bin with
  | nil => simp [bin_get, bin_ok]
  | cons p rest ih =>
    cases hk : p.key with
    | none => simp [bin_replace, hk] at h
    | some k1 =>
      by_cases e : key = k1
      · simp [bin_replace, hk, e] at h
      · simp only [bin_replace, hk, e, if_false] at h
        cases hr : bin_replace key v rest with
        | none => simp [hr] at h
        | some r =>
          cases r with
          | some r1 => simp [hr] at h
          | none =>
            obtain ⟨h1, h2, h3, h4⟩ := ih hr
            refine ⟨by simp [bin_get, hk, e, h1], ?_, ?_, by simp [bin_get, hk, e, h4]⟩
            · simp only [List.map_cons, List.mem_cons, not_or]
              exact ⟨by rw [hk]; simpa using e, h2⟩
            · intro q hq
              rcases List.mem_cons.1 hq with rfl | hq
              · simp [hk]
              · exact h3 q hq

theorem bin_replace_some_get (key : Key) (v : Value) (bin bin1 : llist key_val_pair)
    (h : bin_replace key v bin = some (some bin1)) :
    bin_get key bin1 = some v ∧ (∀ k, k ≠ key → bin_get k bin1 = bin_get k bin) ∧
      bin1.map key_val_pair.key = bin.map key_val_pair.key ∧ bin1.length = bin.length ∧
      some key ∈ bin.map key_val_pair.key := by
  induction bin generalizing bin1 with
  | nil => simp [bin_replace] at h
  | cons p rest ih =>
    cases hk : p.key with
    | none => simp [bin_replace, hk] at h
    | some k1 =>
      by_cases e : key = k1
      · simp only [bin_replace, hk, e, if_true, Option.some.injEq] at h
        subst h
        subst e
        refine ⟨by simp [bin_get, hk], ?_, by simp [hk], by simp, by simp [hk]⟩
        intro k hne
        simp [bin_get, hk, hne]
      · simp only [bin_replace, hk, e, if_false] at h
        cases hr : bin_replace key v rest with
        | none => simp [hr] at h
        | some r =>
          cases r with
          | none => simp [hr] at h
          | some r1 =>
            simp only [hr, Option.some.injEq] at h
            subst h
            obtain ⟨h1, h2, h3, h4, h5⟩ := ih r1 hr
            refine ⟨by simp [bin_get, hk, e, h1], ?_, by simp [h3], by simp [h4], by simp [h5]⟩
            intro k hne
            by_cases e1 : k = k1
            · simp [bin_get, hk, e1]
            · simp [bin_get, hk, e1, h2 k hne]

theorem bin_replace_total (key : Key) (v : Value) (bin : llist key_val_pair) (hb : bin_ok bin) :
    ∃ r, bin_replace key v bin = some r := by
  induction bin with
  | nil => exact ⟨none, rfl⟩
  | cons p rest ih =>
    have hp : p.key ≠ none := hb p (List.mem_cons_self _ _)
    obtain ⟨r, hr⟩ := ih (fun q hq => hb q (List.mem_cons_of_mem _ hq))
    cases hk : p.key with
    | none => exact absurd hk hp
    | some k1 =>
      by_cases e : key = k1
      · exact ⟨some ({ p with value := v } :: rest), by simp [bin_replace, hk, e]⟩
      · cases r with
        | none => exact ⟨none, by simp [bin_replace, hk, e, hr]⟩
        | some r1 => exact ⟨some (p :: r1), by simp [bin_replace, hk, e, hr]⟩

theorem bin_get_absent (key : Key) (bin : llist key_val_pair) (hb : bin_ok bin)
    (h : some key ∉ bin.map key_val_pair.key) : bin_get key bin = some NULL := by
  induction bin with
  | nil => rfl
  | cons p rest ih =>
    have hp : p.key ≠ none := hb p (List.mem_cons_self _ _)
    simp only [List.map_cons, List.mem_cons, not_or] at h
    cases hk : p.key with
    | none => exact absurd hk hp
    | some k1 =>
      have e : key ≠ k1 := by
        intro e
        exact h.1 (by rw [hk, e])
      simp [bin_get, hk, e, ih (fun q hq => hb q (List.mem_cons_of_mem _ hq)) h.2]

theorem mem_flatten_of_getElem? {bins : List (llist key_val_pair)} {i : Nat}
    {b : llist key_val_pair} (hb : bins[i]? = some b) {p : key_val_pair} (hp : p ∈ b) :
    p ∈ bins.flatten :=
  List.mem_flatten.2 ⟨b, List.getElem?_mem hb, hp⟩

theorem flatten_set_perm (bins : List (llist key_val_pair)) (i : Nat) (b : llist key_val_pair)
    (p : key_val_pair) (hb : bins[i]? = some b) :
    (bins.set i (b ++ [p])).flatten.Perm (bins.flatten ++ [p]) := by
  induction bins generalizing i with
  | nil => simp at hb
  | cons c rest ih =>
    cases i with
    | zero =>
      simp only [List.getElem?_cons_zero, Option.some.injEq] at hb
      subst hb
      simp only [List.set_cons_zero, List.flatten_cons, List.append_assoc]
      exact List.Perm.append_left _ List.perm_append_comm
    | succ j =>
      simp only [List.getElem?_cons_succ] at hb
      simp only [List.set_cons_succ, List.flatten_cons, List.append_assoc]
      exact List.Perm.append_left _ (ih j hb)

theorem flatten_set_keys (bins : List (llist key_val_pair)) (i : Nat)
    (b b1 : llist key_val_pair) (hb : bins[i]? = some b)
    (hk : b1.map key_val_pair.key = b.map key_val_pair.key) :
    (bins.set i b1).flatten.map key_val_pair.key = bins.flatten.map key_val_pair.key := by
  induction bins generalizing i with
  | nil => simp at hb
  | cons c rest ih =>
    cases i with
    | zero =>
      simp only [List.getElem?_cons_zero, Option.some.injEq] at hb
      subst hb
      simp [hk]
    | succ j =>
      simp only [List.getElem?_cons_succ] at hb
      simp [ih j hb]

theorem get_bin_natCast (h : hash) (i : Nat) : get_bin h (i : Int) = h.bins[i]? := by
  simp [get_bin]

/-- What `insert_at` does when no allocation fails and the bin index is inside the table. -/
theorem insert_at_spec (h1 : hash) (code : Nat) (k : Key) (v : Value)
    (hc : code < h1.size) (hn : no_null_key h1) :
    ∃ bin bin1, h1.bins[code]? = some bin ∧
      insert_at [] h1 (code : Int) k v =
        some (status.SUCCESS,
              { h1 with bins := h1.bins.set code bin1,
                        count := h1.count + (if some k ∈ bin.map key_val_pair.key then 0 else 1) },
              []) ∧
      bin_get k bin1 = some v ∧ (∀ k1, k1 ≠ k → bin_get k1 bin1 = bin_get k1 bin) ∧
      ((some k ∈ bin.map key_val_pair.key ∧
          bin1.map key_val_pair.key = bin.map key_val_pair.key) ∨
        (some k ∉ bin.map key_val_pair.key ∧ bin1 = bin ++ [{ key := some k, value := v }])) := by
  have hlen : code < h1.bins.length := hc
  refine ⟨h1.bins[code], ?_⟩
  have hb : h1.bins[code]? = some h1.bins[code] := List.getElem?_eq_getElem hlen
  have hok : bin_ok h1.bins[code] := fun p hp => hn p (mem_flatten_of_getElem? hb hp)
  obtain ⟨r, hr⟩ := bin_replace_total k v _ hok
  cases r with
  | none =>
    obtain ⟨_, h2, _, h4⟩ := bin_replace_none_get k v _ hr
    refine ⟨h1.bins[code] ++ [{ key := some k, value := v }], hb, ?_, h4, ?_, Or.inr ⟨h2, rfl⟩⟩
    · simp [insert_at, get_bin_natCast, hb, hr, malloc, h2]
    · intro k1 hne
      exact bin_get_append_ne k1 k v hne _
  | some bin1 =>
    obtain ⟨g1, g2, g3, _, g5⟩ := bin_replace_some_get k v _ bin1 hr
    refine ⟨bin1, hb, ?_, g1, g2, Or.inl ⟨g5, g3⟩⟩
    simp [insert_at, get_bin_natCast, hb, hr, g5]

theorem no_null_key_iff (h : hash) :
    no_null_key h ↔ none ∉ h.bins.flatten.map key_val_pair.key := by
  unfold no_null_key
  constructor
  · intro hn hm
    obtain ⟨p, hp, hk⟩ := List.mem_map.1 hm
    exact hn p hp hk
  · intro hn p hp hk
    exact hn (List.mem_map.2 ⟨p, hp, hk⟩)

theorem hash_code_spec (h : hash) (k : Key) (h1 : 1 ≤ h.size) (h2 : h.size ≤ 2 ^ 31) :
    hash_code h k = some ((hash_func k % h.size : Nat) : Int) := by
  have hlt : hash_func k % h.size < h.size := Nat.mod_lt _ h1
  have hs : h.size ≠ 0 := by omega
  simp only [hash_code, hs, if_false, Option.some.injEq]
  apply toInt32_of_lt
  · exact Int.ofNat_nonneg _
  · have : ((hash_func k % h.size : Nat) : Int) < ((2 ^ 31 : Nat) : Int) :=
      Int.ofNat_lt.2 (lt_of_lt_of_le hlt h2)
    simpa using this

theorem hash_get_spec (h : hash) (k : Key) (h1 : 1 ≤ h.size) (h2 : h.size ≤ 2 ^ 31) :
    hash_get h k = (h.bins[hash_func k % h.size]?).bind (bin_get k) := by
  simp only [hash_get, hash_code_spec h k h1 h2, get_bin_natCast]
  cases h.bins[hash_func k % h.size]? <;> rfl

theorem maybe_resize_fixed (a : Alloc) (h : hash) (ht : h.type = hash_type.HASH_FIXED) :
    maybe_resize a h = some (h, a) := by
  simp [maybe_resize, ht]

/-- The table `insert_at` leaves has no `NULL` key when the table it started from had none. -/
theorem no_null_key_insert (h1 : hash) (code c : Nat) (k : Key) (v : Value)
    (bin bin1 : llist key_val_pair) (hb : h1.bins[code]? = some bin) (hn : no_null_key h1)
    (hd : (some k ∈ bin.map key_val_pair.key ∧
            bin1.map key_val_pair.key = bin.map key_val_pair.key) ∨
          (some k ∉ bin.map key_val_pair.key ∧ bin1 = bin ++ [{ key := some k, value := v }])) :
    no_null_key { h1 with bins := h1.bins.set code bin1, count := c } := by
  rw [no_null_key_iff] at hn ⊢
  rcases hd with ⟨_, hk⟩ | ⟨_, rfl⟩
  · simpa [flatten_set_keys h1.bins code bin bin1 hb hk] using hn
  · intro hm
    have hp := (flatten_set_perm h1.bins code bin { key := some k, value := v } hb).map
      key_val_pair.key
    have := (hp.mem_iff (a := none)).1 hm
    simp only [List.map_append, List.mem_append, List.map_cons, List.map_nil,
      List.mem_singleton] at this
    rcases this with h3 | h3
    · exact hn h3
    · exact absurd h3 (by simp)

/-- One `hash_set` on a fixed-size table of at most `2^31` bins, no allocation failing: the call
succeeds, the key then maps to the value, and every other key maps to what it did. -/
theorem hash_set_fixed (h : hash) (k : Key) (v : Value) (ht : h.type = hash_type.HASH_FIXED)
    (h1 : 1 ≤ h.size) (h2 : h.size ≤ 2 ^ 31) (hn : no_null_key h) :
    ∃ h', hash_set [] h k v = some (status.SUCCESS, h', []) ∧
      h'.type = hash_type.HASH_FIXED ∧ h'.size = h.size ∧ no_null_key h' ∧
      hash_get h' k = some v ∧ (∀ k1, k1 ≠ k → hash_get h' k1 = hash_get h k1) ∧
      (∀ k1, some k1 ∈ h'.bins.flatten.map key_val_pair.key →
        k1 = k ∨ some k1 ∈ h.bins.flatten.map key_val_pair.key) := by
  have hlt : hash_func k % h.size < h.size := Nat.mod_lt _ h1
  obtain ⟨bin, bin1, hb, hset, g1, g2, hd⟩ := insert_at_spec h (hash_func k % h.size) k v hlt hn
  refine ⟨{ h with bins := h.bins.set (hash_func k % h.size) bin1,
                   count := h.count + (if some k ∈ bin.map key_val_pair.key then 0 else 1) },
    ?_, ?_, ?_, ?_, ?_, ?_, ?_⟩
  · simp only [hash_set, hash_code_spec h k h1 h2, maybe_resize_fixed [] h ht]
    exact hset
  · exact ht
  · simp [hash.size]
  · exact no_null_key_insert h _ _ k v bin bin1 hb hn hd
  · rw [hash_get_spec _ _ (by simpa [hash.size] using h1) (by simpa [hash.size] using h2)]
    have : hash_func k % h.bins.length < h.bins.length := hlt
    simp [hash.size, List.getElem?_set, this, g1]
  · intro k1 hne
    rw [hash_get_spec _ _ (by simpa [hash.size] using h1) (by simpa [hash.size] using h2),
      hash_get_spec _ _ h1 h2]
    have hlt' : hash_func k % h.bins.length < h.bins.length := hlt
    by_cases e : hash_func k % h.bins.length = hash_func k1 % h.bins.length
    · have hb' : h.bins[hash_func k1 % h.bins.length]? = some bin := by
        rw [← e]; exact hb
      simp [hash.size, List.getElem?_set, e, hb', g2 k1 hne]
      rw [← e]; simp [hlt', g2 k1 hne]
    · simp [hash.size, List.getElem?_set, e]
  · intro k1 hm
    rcases hd with ⟨_, hk⟩ | ⟨_, rfl⟩
    · right
      simpa [flatten_set_keys h.bins _ bin bin1 hb hk] using hm
    · have hp := (flatten_set_perm h.bins _ bin { key := some k, value := v } hb).map
        key_val_pair.key
      have := (hp.mem_iff (a := some k1)).1 hm
      simp only [List.map_append, List.mem_append, List.map_cons, List.map_nil,
        List.mem_singleton, Option.some.injEq] at this
      rcases this with h3 | h3
      · exact Or.inr h3
      · exact Or.inl h3

theorem hash_set_all_append (h : hash) (l1 l2 : List (Key × Value)) :
    hash_set_all h (l1 ++ l2) = (hash_set_all h l1).bind (fun h1 => hash_set_all h1 l2) := by
  induction l1 generalizing h with
  | nil => rfl
  | cons kv rest ih =>
    obtain ⟨k, v⟩ := kv
    simp only [List.cons_append, hash_set_all]
    cases hash_set [] h k v with
    | none => rfl
    | some r => exact ih r.2.1

/-- A sequence of `hash_set` calls on a fixed-size table of at most `2^31` bins: the run is
defined, keys that are not set keep what they map to, and no key appears from nowhere. -/
theorem hash_set_all_fixed (kvs : List (Key × Value)) (h : hash)
    (ht : h.type = hash_type.HASH_FIXED) (h1 : 1 ≤ h.size) (h2 : h.size ≤ 2 ^ 31)
    (hn : no_null_key h) :
    ∃ h', hash_set_all h kvs = some h' ∧
      h'.type = hash_type.HASH_FIXED ∧ h'.size = h.size ∧ no_null_key h' ∧
      (∀ k, k ∉ kvs.map Prod.fst → hash_get h' k = hash_get h k) ∧
      (∀ k, some k ∈ h'.bins.flatten.map key_val_pair.key →
        k ∈ kvs.map Prod.fst ∨ some k ∈ h.bins.flatten.map key_val_pair.key) := by
  induction kvs generalizing h with
  | nil => exact ⟨h, rfl, ht, rfl, hn, fun _ _ => rfl, fun _ hk => Or.inr hk⟩
  | cons kv rest ih =>
    obtain ⟨k, v⟩ := kv
    obtain ⟨ha, hset, hta, hsa, hna, _, hoa, hka⟩ := hash_set_fixed h k v ht h1 h2 hn
    obtain ⟨hb, hrun, htb, hsb, hnb, hob, hkb⟩ :=
      ih ha hta (by rw [hsa]; exact h1) (by rw [hsa]; exact h2) hna
    refine ⟨hb, by simp [hash_set_all, hset, hrun], htb, by rw [hsb, hsa], hnb, ?_, ?_⟩
    · intro k1 hk1
      simp only [List.map_cons, List.mem_cons, not_or] at hk1
      rw [hob k1 hk1.2, hoa k1 hk1.1]
    · intro k1 hk1
      rcases hkb k1 hk1 with h3 | h3
      · exact Or.inl (by simp [h3])
      · rcases hka k1 h3 with h4 | h4
        · exact Or.inl (by simp [h4])
        · exact Or.inr h4

theorem no_null_key_replicate (n c : Nat) (t : hash_type) (q : ℚ) (r : Nat) :
    no_null_key { bins := List.replicate n [], count := c, type := t, load_threshold := q,
                  resize_factor := r } := by
  intro p hp
  obtain ⟨b, hb, hpb⟩ := List.mem_flatten.1 hp
  rw [List.eq_of_mem_replicate hb] at hpb
  exact absurd hpb (List.not_mem_nil _)

theorem insert_at_negative (a1 : Alloc) (h1 : hash) (c : Int) (k : Key) (v : Value)
    (hneg : c < 0) : insert_at a1 h1 c k v = none := by
  simp only [insert_at, get_bin, hneg, if_true]

/-- On a table of more than `2^31` bins, a key whose remainder is `2^31` or more makes
`hash_set` read outside the array of bins: the `int` that holds the remainder is negative. -/
theorem hash_set_large_table (h : hash) (k : Key) (v : Value) (h0 : h.size ≠ 0)
    (h1 : 2 ^ 31 ≤ hash_func k % h.size) (h2 : h.size < 2 ^ 32) :
    hash_set [] h k v = none := by
  have hlt : hash_func k % h.size < 2 ^ 32 :=
    lt_trans (Nat.mod_lt _ (Nat.pos_of_ne_zero h0)) h2
  have hneg : toInt32 ((hash_func k % h.size : Nat) : Int) < 0 := by
    unfold toInt32
    norm_num at h1 hlt ⊢
    omega
  simp only [hash_set, hash_code, h0, if_false]
  cases maybe_resize [] h with
  | none => rfl
  | some r => exact insert_at_negative _ _ _ _ _ hneg

theorem hash_func_Tamias : hash_func [84, 97, 109, 105, 97, 115] = 3406442143 := by decide!

theorem hash_set_all_large_table (n : Nat) (k : Key) (v : Value) (h0 : n ≠ 0)
    (h1 : 2 ^ 31 ≤ hash_func k % n) (h2 : n < 2 ^ 32) :
    ¬ ∃ t h, create_hash [] n = (some t, []) ∧ hash_set_all t [(k, v)] = some h ∧
      hash_get h k = some v := by
  rintro ⟨t, h, e1, e2, -⟩
  rw [create_hash_nil] at e1
  simp only [Prod.mk.injEq, Option.some.injEq, and_true] at e1
  subst e1
  rw [hash_set_all, hash_set_large_table _ _ _ (by simpa [hash.size] using h0)
    (by simpa [hash.size] using h1) (by simpa [hash.size] using h2)] at e2
  simp at e2

theorem hash_get_negative (h : hash) (k : Key) (c : Int) (hc : hash_code h k = some c)
    (hneg : c < 0) : hash_get h k = none := by
  unfold hash_get
  rw [hc]
  simp only [get_bin, hneg, if_true]

theorem hash_code_of_size_ne_zero (h : hash) (k : Key) (h0 : h.size ≠ 0) :
    hash_code h k = some (toInt32 ((hash_func k % h.size : Nat) : Int)) := by
  unfold hash_code
  rw [if_neg h0]

/-- On a table of more than `2^31` bins, looking up a key whose remainder is `2^31` or more
reads outside the array of bins. -/
theorem hash_get_large_table (h : hash) (k : Key) (h0 : h.size ≠ 0)
    (h1 : 2 ^ 31 ≤ hash_func k % h.size) (h2 : h.size < 2 ^ 32) : hash_get h k = none := by
  have hlt : hash_func k % h.size < 2 ^ 32 :=
    lt_trans (Nat.mod_lt _ (Nat.pos_of_ne_zero h0)) h2
  have hneg : toInt32 ((hash_func k % h.size : Nat) : Int) < 0 := by
    unfold toInt32
    norm_num at h1 hlt ⊢
    omega
  exact hash_get_negative h k _ (hash_code_of_size_ne_zero h k h0) hneg

theorem hash_get_large_table_none (n : Nat) (k : Key) (h0 : n ≠ 0)
    (h1 : 2 ^ 31 ≤ hash_func k % n) (h2 : n < 2 ^ 32) :
    ∃ t, create_hash [] n = (some t, []) ∧ hash_get t k = none :=
  ⟨_, create_hash_nil n, hash_get_large_table _ _ (by simpa [hash.size] using h0)
    (by simpa [hash.size] using h1) (by simpa [hash.size] using h2)⟩

/-- On a table of more than `2^31` bins created by `create_hash`, setting a key whose remainder
is `2^31` or more is undefined. -/
theorem hash_set_all_large_table_none (n : Nat) (k : Key) (v : Value) (h0 : n ≠ 0)
    (h1 : 2 ^ 31 ≤ hash_func k % n) (h2 : n < 2 ^ 32) :
    ∃ t, create_hash [] n = (some t, []) ∧ hash_set_all t [(k, v)] = none := by
  refine ⟨_, create_hash_nil n, ?_⟩
  rw [hash_set_all, hash_set_large_table _ _ _ (by simpa [hash.size] using h0)
    (by simpa [hash.size] using h1) (by simpa [hash.size] using h2)]

/-- On a fixed-size table of at most `2^31` bins, `hash_get` returns the value of the last
`hash_set` of the key. -/
theorem hash_get_latest_fixed (h0 : hash) (pre post : List (Key × Value)) (k : Key) (v : Value)
    (ht : h0.type = hash_type.HASH_FIXED) (h1 : 1 ≤ h0.size) (h2 : h0.size ≤ 2 ^ 31)
    (hn : no_null_key h0) (hk : k ∉ post.map Prod.fst) :
    ∃ h, hash_set_all h0 (pre ++ (k, v) :: post) = some h ∧ hash_get h k = some v := by
  obtain ⟨ha, hrun, hta, hsa, hna, _, _⟩ := hash_set_all_fixed pre h0 ht h1 h2 hn
  obtain ⟨hb, hset, htb, hsb, hnb, hget, _, _⟩ :=
    hash_set_fixed ha k v hta (by rw [hsa]; exact h1) (by rw [hsa]; exact h2) hna
  obtain ⟨hc, hrun2, _, _, _, hoc, _⟩ :=
    hash_set_all_fixed post hb htb (by rw [hsb, hsa]; exact h1) (by rw [hsb, hsa]; exact h2)
      hnb
  refine ⟨hc, ?_, ?_⟩
  · rw [hash_set_all_append, hrun]
    simp [hash_set_all, hset, hrun2]
  · rw [hoc k hk, hget]

/-! ## Lemmas on hash.c: resizing, and tables in dynamic mode -/

theorem flatten_replicate_nil (n : Nat) :
    (List.replicate n ([] : llist key_val_pair)).flatten = [] := by
  induction n with
  | zero => rfl
  | succ n ih => simp [List.replicate_succ, ih]

theorem update_bin_spec (bins : List (llist key_val_pair)) (i : Nat) (p : key_val_pair)
    (hi : i < bins.length) :
    (update_bin bins i (fun b => b ++ [p])).length = bins.length ∧
      (update_bin bins i (fun b => b ++ [p])).flatten.Perm (bins.flatten ++ [p]) := by
  have hb : bins[i]? = some bins[i] := List.getElem?_eq_getElem hi
  simp only [update_bin, hb, List.length_set, true_and]
  exact flatten_set_perm bins i _ p hb

/-- The copying loop of `resize_hash`, no allocation failing: every pair is moved, none is
lost or doubled. -/
theorem rehash_pairs_spec (new_size : Nat) (ps : List key_val_pair)
    (nb : List (llist key_val_pair)) (h0 : new_size ≠ 0) (hl : nb.length = new_size)
    (hk : ∀ p ∈ ps, p.key ≠ none) :
    ∃ nb1, rehash_pairs new_size ps nb [] = some (some nb1, []) ∧ nb1.length = new_size ∧
      nb1.flatten.Perm (nb.flatten ++ ps) := by
  induction ps generalizing nb with
  | nil => exact ⟨nb, rfl, hl, by simp⟩
  | cons p rest ih =>
    cases hp : p.key with
    | none => exact absurd hp (hk p (List.mem_cons_self _ _))
    | some k =>
      have hi : hash_func k % new_size < nb.length := by
        rw [hl]; exact Nat.mod_lt _ (Nat.pos_of_ne_zero h0)
      obtain ⟨u1, u2⟩ := update_bin_spec nb _ p hi
      obtain ⟨nb1, r1, r2, r3⟩ := ih (update_bin nb (hash_func k % new_size) (fun b => b ++ [p]))
        (by rw [u1, hl]) (fun q hq => hk q (List.mem_cons_of_mem _ hq))
      refine ⟨nb1, ?_, r2, ?_⟩
      · simp only [rehash_pairs, hp, h0, if_false, malloc]
        exact r1
      · refine r3.trans ?_
        have := u2.append_right rest
        simpa using this

/-- The C function `resize_hash`, no allocation failing, to a new size that is not 0. -/
theorem resize_hash_spec (h : hash) (new_size : Nat) (h0 : new_size ≠ 0)
    (hn : no_null_key h) :
    ∃ nb1, resize_hash [] h new_size =
        some ((h.count : ℚ) / (new_size : ℚ), { h with bins := nb1 }, []) ∧
      nb1.length = new_size ∧ nb1.flatten.Perm h.bins.flatten := by
  obtain ⟨nb1, r1, r2, r3⟩ := rehash_pairs_spec new_size h.bins.flatten
    (List.replicate new_size []) h0 (by simp) hn
  refine ⟨nb1, ?_, r2, by simpa [flatten_replicate_nil] using r3⟩
  simp [resize_hash, malloc, create_bins_nil, r1, load_factor, hash.size, r2]

theorem no_null_key_of_perm (h h1 : hash) (hp : h1.bins.flatten.Perm h.bins.flatten)
    (hn : no_null_key h) : no_null_key h1 :=
  fun p hm => hn p (hp.mem_iff.1 hm)

/-- The resize step of `hash_set`, no allocation failing. -/
theorem maybe_resize_spec (h : hash) (hp : params_ok h) (hn : no_null_key h) :
    ∃ nb1, maybe_resize [] h = some ({ h with bins := nb1 }, []) ∧
      nb1.flatten.Perm h.bins.flatten ∧
      (nb1 = h.bins ∨ (h.type = hash_type.HASH_DYNAMIC ∧ load_factor h ≥ h.load_threshold ∧
        nb1.length = h.resize_factor * h.size)) := by
  obtain ⟨h1, h2, h3⟩ := hp
  by_cases hc : h.type = hash_type.HASH_DYNAMIC ∧ load_factor h ≥ h.load_threshold
  · obtain ⟨h4, h5⟩ := h3 hc.1 hc.2
    have hmod : h.resize_factor * h.size % 2 ^ 32 = h.resize_factor * h.size :=
      Nat.mod_eq_of_lt (lt_of_le_of_lt h5 (by norm_num))
    have hne : h.resize_factor * h.size ≠ 0 := by
      have : 0 < h.resize_factor * h.size := Nat.mul_pos h4 h1
      omega
    obtain ⟨nb1, r1, r2, r3⟩ := resize_hash_spec h _ hne hn
    refine ⟨nb1, ?_, r3, Or.inr ⟨hc.1, hc.2, r2⟩⟩
    simp only [maybe_resize, hc, and_self, if_true, hmod, r1]
  · exact ⟨h.bins, by simp only [maybe_resize, hc, if_false], List.Perm.refl _, Or.inl rfl⟩

/-- One `hash_set`, in either mode, no allocation failing, on a table whose parameters are in
range: the call succeeds; the table keeps its mode and parameters; it has as many bins as before
or, after a resize, `resize_factor` times as many; every key stored afterwards is the key set or
was stored before; and a key that was not stored before is stored exactly once more. -/
theorem hash_set_spec (h : hash) (k : Key) (v : Value) (hp : params_ok h)
    (hn : no_null_key h) :
    ∃ h', hash_set [] h k v = some (status.SUCCESS, h', []) ∧
      h'.type = h.type ∧ h'.load_threshold = h.load_threshold ∧
      h'.resize_factor = h.resize_factor ∧ no_null_key h' ∧
      (h'.size = h.size ∨
        (h.type = hash_type.HASH_DYNAMIC ∧ load_factor h ≥ h.load_threshold ∧
          h'.size = h.resize_factor * h.size)) ∧
      (∀ k1, some k1 ∈ stored_keys h' → k1 = k ∨ some k1 ∈ stored_keys h) ∧
      (some k ∉ stored_keys h →
        (stored_keys h').Perm (stored_keys h ++ [some k]) ∧ h'.count = h.count + 1) ∧
      h.count ≤ h'.count ∧ h'.count ≤ h.count + 1 := by
  obtain ⟨nb1, r1, r2, r3⟩ := maybe_resize_spec h hp hn
  obtain ⟨p1, p2, p3⟩ := hp
  have hn1 : no_null_key { h with bins := nb1 } := no_null_key_of_perm h _ r2 hn
  have hsz : h.size ≤ nb1.length := by
    rcases r3 with rfl | ⟨r4, r6, r5⟩
    · exact le_refl _
    · rw [r5]
      exact Nat.le_mul_of_pos_left _ (p3 r4 r6).1
  have hlt : hash_func k % h.size < hash.size { h with bins := nb1 } :=
    lt_of_lt_of_le (Nat.mod_lt _ p1) hsz
  obtain ⟨bin, bin1, hb, hset, _, _, hd⟩ :=
    insert_at_spec { h with bins := nb1 } (hash_func k % h.size) k v hlt hn1
  have hkeys : (nb1.flatten.map key_val_pair.key).Perm (stored_keys h) := r2.map _
  refine ⟨{ h with bins := nb1.set (hash_func k % h.size) bin1,
                   count := h.count + (if some k ∈ bin.map key_val_pair.key then 0 else 1) },
    ?_, rfl, rfl, rfl, ?_, ?_, ?_, ?_, ?_⟩
  · simp only [hash_set, hash_code_spec h k p1 p2, r1]
    exact hset
  · exact no_null_key_insert _ _ _ k v bin bin1 hb hn1 hd
  · rcases r3 with rfl | ⟨r4, r6, r5⟩
    · left; simp [hash.size]
    · right; exact ⟨r4, r6, by simpa [hash.size] using r5⟩
  · intro k1 hm
    rcases hd with ⟨_, hk⟩ | ⟨_, rfl⟩
    · right
      have : some k1 ∈ nb1.flatten.map key_val_pair.key := by
        simpa [stored_keys, flatten_set_keys nb1 _ bin bin1 hb hk] using hm
      exact (hkeys.mem_iff).1 this
    · have hq := (flatten_set_perm nb1 _ bin { key := some k, value := v } hb).map
        key_val_pair.key
      have := (hq.mem_iff (a := some k1)).1 hm
      simp only [List.map_append, List.mem_append, List.map_cons, List.map_nil,
        List.mem_singleton, Option.some.injEq] at this
      rcases this with h3 | h3
      · exact Or.inr ((hkeys.mem_iff).1 h3)
      · exact Or.inl h3
  · intro hnew
    have hnb : some k ∉ bin.map key_val_pair.key := by
      intro hm
      obtain ⟨q, hq, hqk⟩ := List.mem_map.1 hm
      have : some k ∈ nb1.flatten.map key_val_pair.key :=
        List.mem_map.2 ⟨q, mem_flatten_of_getElem? hb hq, hqk⟩
      exact hnew ((hkeys.mem_iff).1 this)
    rcases hd with ⟨hin, _⟩ | ⟨_, rfl⟩
    · exact absurd hin hnb
    · constructor
      · have hq := (flatten_set_perm nb1 _ bin { key := some k, value := v } hb).map
          key_val_pair.key
        refine hq.trans ?_
        simp only [List.map_append, List.map_cons, List.map_nil]
        exact hkeys.append_right _
      · simp [hnb]
  · constructor
    · simp
    · show h.count + _ ≤ h.count + 1
      split <;> omega

/-- When the load factor has reached a positive threshold and the factor times the number of
pairs is at most the threshold times `2^31`, the resize leaves at most `2^31` bins. -/
theorem resize_within_range (h : hash) (m : Nat) (h1 : 1 ≤ h.size)
    (hl : load_factor h ≥ h.load_threshold) (ht : 0 < h.load_threshold)
    (hb : (h.resize_factor : ℚ) * ((h.count : ℚ) + (m : ℚ)) ≤ h.load_threshold * 2 ^ 31) :
    h.resize_factor * h.size ≤ 2 ^ 31 := by
  have hs : (0 : ℚ) < (h.size : ℚ) := by exact_mod_cast h1
  have h2 : h.load_threshold * (h.size : ℚ) ≤ (h.count : ℚ) := by
    unfold load_factor at hl
    exact (le_div_iff₀ hs).1 hl
  have hr : (0 : ℚ) ≤ (h.resize_factor : ℚ) := Nat.cast_nonneg _
  have hm : (0 : ℚ) ≤ (m : ℚ) := Nat.cast_nonneg _
  have h3 : h.load_threshold * ((h.resize_factor : ℚ) * (h.size : ℚ))
      ≤ h.load_threshold * 2 ^ 31 := by
    calc h.load_threshold * ((h.resize_factor : ℚ) * (h.size : ℚ))
        = (h.resize_factor : ℚ) * (h.load_threshold * (h.size : ℚ)) := by ring
      _ ≤ (h.resize_factor : ℚ) * (h.count : ℚ) := mul_le_mul_of_nonneg_left h2 hr
      _ ≤ (h.resize_factor : ℚ) * ((h.count : ℚ) + (m : ℚ)) :=
          mul_le_mul_of_nonneg_left (by linarith) hr
      _ ≤ h.load_threshold * 2 ^ 31 := hb
  have h4 : (h.resize_factor : ℚ) * (h.size : ℚ) ≤ 2 ^ 31 := le_of_mul_le_mul_left h3 ht
  exact_mod_cast h4

theorem params_ok_of_room (h : hash) (n : Nat) (hr : room_for h (n + 1)) : params_ok h := by
  obtain ⟨h1, h2, h3⟩ := hr
  rcases h3 with h3 | ⟨h3, h4, h5⟩
  · have hg : growth h * h.size ≤ h.size * growth h ^ (n + 1) := by
      rw [pow_succ, ← mul_assoc, mul_comm (growth h)]
      exact Nat.mul_le_mul_right _ (Nat.le_mul_of_pos_right _ (Nat.pow_pos h2))
    have hs : h.size ≤ growth h * h.size := Nat.le_mul_of_pos_left _ h2
    refine ⟨h1, le_trans hs (le_trans hg h3), ?_⟩
    intro hd _
    have hgr : growth h = h.resize_factor := by simp [growth, hd]
    rw [hgr] at h2 hg
    rw [hgr] at h3
    exact ⟨h2, le_trans hg h3⟩
  · refine ⟨h1, h3, ?_⟩
    intro hd hl
    have hgr : growth h = h.resize_factor := by simp [growth, hd]
    rw [hgr] at h2 h5
    exact ⟨h2, resize_within_range h (n + 1) h1 hl h4 (by exact_mod_cast h5)⟩

theorem room_after_set (h h' : hash) (n : Nat) (hr : room_for h (n + 1))
    (ht : h'.type = h.type) (hf : h'.resize_factor = h.resize_factor)
    (hth : h'.load_threshold = h.load_threshold) (hc : h'.count ≤ h.count + 1)
    (hs : h'.size = h.size ∨
      (h.type = hash_type.HASH_DYNAMIC ∧ load_factor h ≥ h.load_threshold ∧
        h'.size = h.resize_factor * h.size)) :
    room_for h' n := by
  have hpo := params_ok_of_room h n hr
  obtain ⟨h1, h2, h3⟩ := hr
  have hg : growth h' = growth h := by simp [growth, ht, hf]
  have hle : h'.size ≤ growth h * h.size := by
    rcases hs with e | ⟨hd, _, e⟩
    · rw [e]; exact Nat.le_mul_of_pos_left _ h2
    · rw [e]; simp [growth, hd]
  have hpos : 1 ≤ h'.size := by
    rcases hs with e | ⟨hd, _, e⟩
    · rw [e]; exact h1
    · rw [e]
      have : 1 ≤ h.resize_factor := by simpa [growth, hd] using h2
      exact Nat.mul_pos this h1
  refine ⟨hpos, by rw [hg]; exact h2, ?_⟩
  rw [hg, hth]
  rcases h3 with h3 | ⟨h3, h4, h5⟩
  · left
    calc h'.size * growth h ^ n ≤ growth h * h.size * growth h ^ n :=
          Nat.mul_le_mul_right _ hle
      _ = h.size * growth h ^ (n + 1) := by ring
      _ ≤ 2 ^ 31 := h3
  · right
    refine ⟨?_, h4, ?_⟩
    · rcases hs with e | ⟨hd, hl, e⟩
      · rw [e]; exact h3
      · rw [e]; exact (hpo.2.2 hd hl).2
    · have hc' : (h'.count : ℚ) ≤ (h.count : ℚ) + 1 := by exact_mod_cast hc
      have hgn : (0 : ℚ) ≤ (growth h : ℚ) := Nat.cast_nonneg _
      calc (growth h : ℚ) * ((h'.count : ℚ) + (n : ℚ))
          ≤ (growth h : ℚ) * ((h.count : ℚ) + ((n + 1 : Nat) : ℚ)) := by
            apply mul_le_mul_of_nonneg_left _ hgn
            push_cast
            linarith
        _ ≤ h.load_threshold * 2 ^ 31 := h5

/-- A sequence of `hash_set` calls, in either mode, no allocation failing, on a table that has
room for them: the run is defined; every key stored afterwards was set or was stored before; and
when the keys set are pairwise distinct and none was stored before, each is stored exactly once
more and `count` grows by their number. -/
theorem hash_set_all_spec (kvs : List (Key × Value)) (h : hash) (hr : room_for h kvs.length)
    (hn : no_null_key h) :
    ∃ h', hash_set_all h kvs = some h' ∧ no_null_key h' ∧ h'.type = h.type ∧
      1 ≤ h'.size ∧ h'.size ≤ 2 ^ 31 ∧
      (∀ k1, some k1 ∈ stored_keys h' → k1 ∈ kvs.map Prod.fst ∨ some k1 ∈ stored_keys h) ∧
      ((kvs.map Prod.fst).Nodup → (∀ kv ∈ kvs, some kv.1 ∉ stored_keys h) →
        (stored_keys h').Perm (stored_keys h ++ kvs.map (fun kv => some kv.1)) ∧
          h'.count = h.count + kvs.length) := by
  induction kvs generalizing h with
  | nil =>
    obtain ⟨h1, _, h3⟩ := hr
    have h4 : h.size ≤ 2 ^ 31 := by
      rcases h3 with h3 | ⟨h3, _, _⟩
      · simpa using h3
      · exact h3
    exact ⟨h, rfl, hn, rfl, h1, h4, fun _ hk => Or.inr hk, fun _ _ => ⟨by simp, rfl⟩⟩
  | cons kv rest ih =>
    obtain ⟨k, v⟩ := kv
    obtain ⟨ha, hset, hta, hth, hfa, hna, hsa, hka, hnew, _, hca⟩ :=
      hash_set_spec h k v (params_ok_of_room h rest.length hr) hn
    obtain ⟨hb, hrun, hnb, htb, hb1, hb2, hkb, hdist⟩ :=
      ih ha (room_after_set h ha rest.length hr hta hfa hth hca hsa) hna
    refine ⟨hb, by simp [hash_set_all, hset, hrun], hnb, by rw [htb, hta], hb1, hb2, ?_, ?_⟩
    · intro k1 hk1
      rcases hkb k1 hk1 with h3 | h3
      · exact Or.inl (by simp [h3])
      · rcases hka k1 h3 with h4 | h4
        · exact Or.inl (by simp [h4])
        · exact Or.inr h4
    · intro hnd habs
      simp only [List.map_cons, List.nodup_cons] at hnd
      obtain ⟨hp, hc⟩ := hnew (habs (k, v) (List.mem_cons_self _ _))
      have hrest : ∀ kv ∈ rest, some kv.1 ∉ stored_keys ha := by
        intro kv hkv hm
        rcases hka kv.1 hm with h4 | h4
        · exact hnd.1 (by rw [← h4]; exact List.mem_map_of_mem _ hkv)
        · exact habs kv (List.mem_cons_of_mem _ hkv) h4
      obtain ⟨hp2, hc2⟩ := hdist hnd.2 hrest
      refine ⟨?_, by rw [hc2, hc]; simp; omega⟩
      refine hp2.trans ?_
      have := hp.append_right (rest.map (fun kv => some kv.1))
      simpa using this

theorem room_for_create_hash (n N : Nat) (h1 : 1 ≤ n) (h2 : n ≤ 2 ^ 31) :
    room_for { bins := List.replicate n [], count := 0, type := hash_type.HASH_FIXED,
               load_threshold := 0, resize_factor := 0 } N :=
  ⟨by simpa [hash.size] using h1, by simp [growth],
    Or.inl (by simpa [hash.size, growth] using h2)⟩

theorem room_for_create_dynamic_hash (n : Nat) (t : ℚ) (r N : Nat) (h1 : 1 ≤ n) (h2 : 1 ≤ r)
    (h3 : dynamic_fits n t r N) :
    room_for { bins := List.replicate n [], count := 0, type := hash_type.HASH_DYNAMIC,
               load_threshold := t, resize_factor := r } N := by
  refine ⟨by simpa [hash.size] using h1, by simpa [growth] using h2, ?_⟩
  rcases h3 with h3 | ⟨h3, h4, h5⟩
  · exact Or.inl (by simpa [hash.size, growth] using h3)
  · exact Or.inr ⟨by simpa [hash.size] using h3, h4, by simpa [growth] using h5⟩

theorem append_keys_nil (ps : List key_val_pair) (list : llist (Option Key)) :
    append_keys ps list [] = (some (list ++ ps.map key_val_pair.key), []) := by
  induction ps generalizing list with
  | nil => simp [append_keys]
  | cons p rest ih => simp [append_keys, malloc, ih]

theorem hash_keys_nil (h : hash) : hash_keys [] h = (some (stored_keys h), []) := by
  simp [hash_keys, malloc, append_keys_nil, stored_keys]

/-- The keys listed by `hash_keys` after pairwise distinct keys were set in a table that was
empty and has room for them. -/
theorem hash_keys_after_sets (kvs : List (Key × Value)) (h0 : hash)
    (hd : (kvs.map Prod.fst).Nodup) (he : stored_keys h0 = [])
    (hr : room_for h0 kvs.length) :
    ∃ h l, hash_set_all h0 kvs = some h ∧ hash_keys [] h = (some l, []) ∧
      l.length = kvs.length ∧ l.Nodup ∧ ∀ kv ∈ kvs, some kv.1 ∈ l := by
  have hn : no_null_key h0 := by
    rw [no_null_key_iff]
    have : h0.bins.flatten.map key_val_pair.key = [] := he
    rw [this]
    exact List.not_mem_nil _
  obtain ⟨h, hrun, _, _, _, _, _, hdist⟩ := hash_set_all_spec kvs h0 hr hn
  obtain ⟨hp, _⟩ := hdist hd (by intro kv _; rw [he]; exact List.not_mem_nil _)
  rw [he, List.nil_append] at hp
  refine ⟨h, stored_keys h, hrun, hash_keys_nil h, ?_, ?_, ?_⟩
  · rw [hp.length_eq, List.length_map]
  · rw [hp.nodup_iff]
    have := hd.map (f := some) (Option.some_injective _)
    simpa [List.map_map] using this
  · intro kv hkv
    exact hp.mem_iff.2 (List.mem_map.2 ⟨kv, hkv, rfl⟩)

theorem stored_keys_replicate (n c : Nat) (t : hash_type) (q : ℚ) (r : Nat) :
    stored_keys { bins := List.replicate n [], count := c, type := t, load_threshold := q,
                  resize_factor := r } = [] := by
  simp [stored_keys, flatten_replicate_nil]

/-- A key that is not stored in the table is looked up as `NULL`. -/
theorem hash_get_absent (h : hash) (k : Key) (h1 : 1 ≤ h.size) (h2 : h.size ≤ 2 ^ 31)
    (hn : no_null_key h) (hk : some k ∉ stored_keys h) : hash_get h k = some NULL := by
  rw [hash_get_spec h k h1 h2]
  have hlt : hash_func k % h.size < h.bins.length := Nat.mod_lt _ h1
  have hb : h.bins[hash_func k % h.size]? = some h.bins[hash_func k % h.size] :=
    List.getElem?_eq_getElem hlt
  rw [hb]
  refine bin_get_absent k _ (fun p hp => hn p (mem_flatten_of_getElem? hb hp)) ?_
  intro hm
  obtain ⟨q, hq, hqk⟩ := List.mem_map.1 hm
  exact hk (List.mem_map.2 ⟨q, mem_flatten_of_getElem? hb hq, hqk⟩)

/-- A key that was never set is looked up as `NULL`, in either mode. -/
theorem hash_get_never_set (kvs : List (Key × Value)) (h0 : hash) (k : Key)
    (he : stored_keys h0 = []) (hr : room_for h0 kvs.length) (hk : k ∉ kvs.map Prod.fst) :
    ∃ h, hash_set_all h0 kvs = some h ∧ hash_get h k = some NULL := by
  have hn : no_null_key h0 := by
    rw [no_null_key_iff]
    have : h0.bins.flatten.map key_val_pair.key = [] := he
    rw [this]
    exact List.not_mem_nil _
  obtain ⟨h, hrun, hnn, _, g1, g2, hkeys, _⟩ := hash_set_all_spec kvs h0 hr hn
  refine ⟨h, hrun, hash_get_absent h k g1 g2 hnn ?_⟩
  intro hm
  rcases hkeys k hm with h3 | h3
  · exact hk h3
  · rw [he] at h3
    exact absurd h3 (List.not_mem_nil _)

/-! ## Lemmas on trim.c -/

theorem store.write_same (s : store) (n : Nat) (r : rnode) : (s.write n r) n = r := by
  simp [store.write]

theorem store.write_other (s : store) (n m : Nat) (r : rnode) (h : m ≠ n) :
    (s.write n r) m = s m := by
  simp [store.write, h]

theorem store.write_write (s : store) (n : Nat) (r1 r2 : rnode) :
    (s.write n r1).write n r2 = s.write n r2 := by
  funext m
  by_cases h : m = n <;> simp [store.write, h]

/-- The loop body of `process_tree` writes the node visited, nothing else, and what it writes
is `node_result`. -/
theorem visit_eq (params : parameters) (s : store) (node : Nat) (e : redge) (pd : node_data)
    (he : (s node).parent_edge = some e) (hp : (s e.parent_node).data = some pd) :
    visit params s node = (node_result params (s node) e pd).map (s.write node) := by
  unfold visit node_result
  simp only [he, hp]
  by_cases ht : pd.trimmed = true
  · simp [ht]
  · simp only [ht]
    cases hd : pd.distance_depth with
    | none => simp
    | some d =>
      cases ha : pd.ancestry_depth with
      | none => simp
      | some a =>
        by_cases hx : to_trim params (atof e.length_as_string + d) (1 + a) = true
        · simp [hx, trim, store.write_same, store.write_write]
        · simp [hx]

theorem parents_later_suffix (s : store) (A B : List Nat)
    (h : parents_later s (A ++ B) = true) : parents_later s B = true := by
  induction A with
  | nil => exact h
  | cons x rest ih =>
    simp only [List.cons_append, parents_later, Bool.and_eq_true] at h
    exact ih h.2

theorem parents_later_head (s : store) (x : Nat) (D : List Nat)
    (h : parents_later s (x :: D) = true) (hD : D ≠ []) :
    ∃ e, (s x).parent_edge = some e ∧ e.parent_node ∈ D := by
  simp only [parents_later, Bool.and_eq_true, Bool.or_eq_true, List.isEmpty_iff] at h
  rcases h.1 with h1 | h1
  · exact absurd h1 hD
  · unfold parent_of at h1
    cases he : (s x).parent_edge with
    | none => simp [he] at h1
    | some e =>
      refine ⟨e, rfl, ?_⟩
      simpa [he] using h1

theorem node_result_data (params : parameters) (r0 r : rnode) (e : redge) (pd : node_data)
    (h : node_result params r0 e pd = some r) :
    ∃ nd, r.data = some nd ∧
      (nd.trimmed = false → ∃ d a, nd.distance_depth = some d ∧ nd.ancestry_depth = some a) := by
  unfold node_result at h
  cases ht : pd.trimmed with
  | true =>
    simp only [ht, if_true, Option.some.injEq] at h
    subst h
    exact ⟨_, rfl, by simp⟩
  | false =>
    simp only [ht, Bool.false_eq_true, if_false] at h
    cases hd : pd.distance_depth with
    | none => simp [hd] at h
    | some d =>
      cases ha : pd.ancestry_depth with
      | none => simp [hd, ha] at h
      | some a =>
        simp only [hd, ha] at h
        cases hx : to_trim params (atof e.length_as_string + d) (1 + a) with
        | true =>
          simp only [hx, if_true, Option.some.injEq] at h
          subst h
          exact ⟨_, rfl, by simp⟩
        | false =>
          simp only [hx, Bool.false_eq_true, if_false, Option.some.injEq] at h
          subst h
          exact ⟨_, rfl, fun _ => ⟨_, _, rfl, rfl⟩⟩

theorem node_result_defined (params : parameters) (r0 : rnode) (e : redge) (pd : node_data)
    (h : pd.trimmed = false → ∃ d a, pd.distance_depth = some d ∧ pd.ancestry_depth = some a) :
    ∃ r, node_result params r0 e pd = some r := by
  unfold node_result
  cases ht : pd.trimmed with
  | true => exact ⟨_, by simp only [if_true]; rfl⟩
  | false =>
    obtain ⟨d, a, hd, ha⟩ := h ht
    simp only [Bool.false_eq_true, if_false, hd, ha]
    cases hx : to_trim params (atof e.length_as_string + d) (1 + a) with
    | true => exact ⟨_, by simp only [if_true]; rfl⟩
    | false => exact ⟨_, by simp only [Bool.false_eq_true, if_false]; rfl⟩

/-- One more node visited: the invariant goes from `D` to `x :: D`. -/
theorem visited_inv_step (params : parameters) (s0 s : store) (root x : Nat) (D : List Nat)
    (hroot : root ∈ D) (hx : x ∉ D) (e : redge) (he : (s0 x).parent_edge = some e)
    (hp : e.parent_node ∈ D) (hinv : visited_inv params s0 root D s) :
    ∃ s1, visit params s x = some s1 ∧ visited_inv params s0 root (x :: D) s1 := by
  have hsx : s x = s0 x := hinv.frame x hx
  obtain ⟨pd, hpd, hpf⟩ := hinv.data_ok _ hp
  obtain ⟨r, hr⟩ := node_result_defined params (s0 x) e pd hpf
  have hne : ∀ n ∈ D, n ≠ x := fun n hn h => hx (h ▸ hn)
  refine ⟨s.write x r, ?_, ?_, ?_, ?_, ?_⟩
  · rw [visit_eq params s x e pd (by rw [hsx]; exact he) hpd, hsx, hr]
    rfl
  · intro n hn
    simp only [List.mem_cons, not_or] at hn
    rw [store.write_other _ _ _ _ hn.1]
    exact hinv.frame n hn.2
  · rw [store.write_other _ _ _ _ (hne root hroot)]
    exact hinv.root_rec
  · intro n hn hnr
    rcases List.mem_cons.1 hn with rfl | hn
    · refine ⟨e, pd, he, List.mem_cons_of_mem _ hp, ?_, ?_⟩
      · rw [store.write_other _ _ _ _ (hne _ hp)]
        exact hpd
      · rw [store.write_same]
        exact hr
    · obtain ⟨e1, pd1, g1, g2, g3, g4⟩ := hinv.node_rec n hn hnr
      refine ⟨e1, pd1, g1, List.mem_cons_of_mem _ g2, ?_, ?_⟩
      · rw [store.write_other _ _ _ _ (hne _ g2)]
        exact g3
      · rw [store.write_other _ _ _ _ (hne _ hn)]
        exact g4
  · intro n hn
    rcases List.mem_cons.1 hn with rfl | hn
    · rw [store.write_same]
      exact node_result_data params _ r e pd hr
    · rw [store.write_other _ _ _ _ (hne _ hn)]
      exact hinv.data_ok n hn

/-- The loop of `process_tree`: the nodes `A`, visited last to first after the nodes `D`. -/
theorem visit_all_inv (params : parameters) (s0 : store) (root : Nat) (A : List Nat) :
    ∀ (D : List Nat) (s : store), root ∈ D → (A ++ D).Nodup →
      parents_later s0 (A ++ D) = true → visited_inv params s0 root D s →
      ∃ s1, visit_all params s A.reverse = some s1 ∧ visited_inv params s0 root (A ++ D) s1 := by
  induction A using List.reverseRecOn with
  | nil =>
    intro D s _ _ _ hinv
    exact ⟨s, rfl, hinv⟩
  | append_singleton A x ih =>
    intro D s hroot hnd hpl hinv
    have hD : D ≠ [] := List.ne_nil_of_mem hroot
    rw [List.append_assoc] at hnd hpl
    have hnd2 : (x :: D).Nodup := (List.nodup_append.1 hnd).2.1
    have hx : x ∉ D := (List.nodup_cons.1 hnd2).1
    obtain ⟨e, he, hp⟩ := parents_later_head s0 x D (parents_later_suffix s0 A _ hpl) hD
    obtain ⟨s1, hv, hinv1⟩ := visited_inv_step params s0 s root x D hroot hx e he hp hinv
    obtain ⟨s2, hv2, hinv2⟩ := ih (x :: D) s1 (List.mem_cons_of_mem _ hroot) hnd hpl hinv1
    refine ⟨s2, ?_, ?_⟩
    · rw [List.reverse_append]
      simp only [List.reverse_cons, List.reverse_nil, List.nil_append, List.singleton_append,
        visit_all, hv]
      exact hv2
    · rw [List.append_assoc]
      exact hinv2

/-- The C function `process_tree` on a well-formed tree: it is defined, and the store it leaves
satisfies the invariant for all the nodes of the order-listing. -/
theorem process_tree_spec (params : parameters) (s : store) (t : rooted_tree)
    (hwf : well_formed s t) :
    ∃ s1, process_tree s t params = some s1 ∧
      visited_inv params s t.root t.nodes_in_order s1 := by
  obtain ⟨hnd, hlast, hpl, _⟩ := hwf
  obtain ⟨A, hA⟩ : ∃ A, t.nodes_in_order = A ++ [t.root] := by
    rcases List.eq_nil_or_concat t.nodes_in_order with h | ⟨A, b, h⟩
    · rw [h] at hlast; simp at hlast
    · rw [h] at hlast
      simp at hlast
      exact ⟨A, by rw [h, hlast]; simp⟩
  rw [hA] at hnd hpl
  have hinit : visited_inv params s t.root [t.root]
      (s.write t.root { (s t.root) with
        data := some { trimmed := false, ancestry_depth := some 0,
                       distance_depth := some 0 } }) := by
    refine ⟨?_, ?_, ?_, ?_⟩
    · intro n hn
      exact store.write_other _ _ _ _ (by simpa using hn)
    · exact store.write_same _ _ _
    · intro n hn hne
      exact absurd (List.mem_singleton.1 hn) hne
    · intro n hn
      rw [List.mem_singleton.1 hn, store.write_same]
      exact ⟨_, rfl, fun _ => ⟨_, _, rfl, rfl⟩⟩
  obtain ⟨s1, hv, hinv⟩ := visit_all_inv params s t.root A [t.root] _
    (List.mem_singleton_self _) hnd hpl hinit
  refine ⟨s1, ?_, by rw [hA]; exact hinv⟩
  unfold process_tree
  rw [hA, List.reverse_append]
  simpa using hv

theorem node_result_children (params : parameters) (r0 r : rnode) (e : redge)
    (pd : node_data) (h : node_result params r0 e pd = some r) :
    ∀ c ∈ r.children, c ∈ r0.children := by
  unfold node_result at h
  cases ht : pd.trimmed with
  | true =>
    simp only [ht, if_true, Option.some.injEq] at h
    subst h
    exact fun c hc => hc
  | false =>
    simp only [ht, Bool.false_eq_true, if_false] at h
    cases hd : pd.distance_depth with
    | none => simp [hd] at h
    | some d =>
      cases ha : pd.ancestry_depth with
      | none => simp [hd, ha] at h
      | some a =>
        simp only [hd, ha] at h
        cases hx : to_trim params (atof e.length_as_string + d) (1 + a) with
        | true =>
          simp only [hx, if_true, Option.some.injEq] at h
          subst h
          intro c hc
          exact absurd hc (List.not_mem_nil _)
        | false =>
          simp only [hx, Bool.false_eq_true, if_false, Option.some.injEq] at h
          subst h
          exact fun c hc => hc

theorem visited_children (params : parameters) (s0 s1 : store) (root : Nat) (L : List Nat)
    (hinv : visited_inv params s0 root L s1) (p : Nat) (hp : p ∈ L) :
    ∀ c ∈ (s1 p).children, c ∈ (s0 p).children := by
  by_cases hr : p = root
  · subst hr
    rw [hinv.root_rec]
    exact fun c hc => hc
  · obtain ⟨e, pd, _, _, _, h4⟩ := hinv.node_rec p hp hr
    exact node_result_children params _ _ e pd h4

theorem path_to_reached_ok (params : parameters) (s0 s1 : store) (t : rooted_tree)
    (hwf : well_formed s0 t) (hinv : visited_inv params s0 t.root t.nodes_in_order s1)
    (n : Nat) (d : ℚ) (a : Nat) (hpath : path_to s1 t.root n d a) :
    reached_ok params s1 t n d a := by
  obtain ⟨_, hlast, _, hch⟩ := hwf
  have hroot : t.root ∈ t.nodes_in_order := List.mem_of_getLast?_eq_some hlast
  induction hpath with
  | root =>
    refine ⟨hroot, _, by rw [hinv.root_rec], ?_, ?_⟩
    · intro _
      exact ⟨rfl, rfl, Or.inl ⟨rfl, rfl, rfl⟩⟩
    · intro h
      simp at h
  | child p c d a e _ hc he ih =>
    obtain ⟨hpL, pd, hpd, hun, htr⟩ := ih
    cases ht : pd.trimmed with
    | true =>
      rw [(htr ht).1] at hc
      exact absurd hc (List.not_mem_nil _)
    | false =>
      obtain ⟨hdd, had, hpar⟩ := hun ht
      have hc0 : c ∈ (s0 p).children := visited_children params s0 s1 _ _ hinv p hpL c hc
      obtain ⟨hcL, hcr, hcp⟩ := hch p hpL c hc0
      obtain ⟨e0, pdc, g1, _, g3, g4⟩ := hinv.node_rec c hcL hcr
      have hpn : e0.parent_node = p := by
        simpa [parent_of, g1] using hcp
      rw [hpn, hpd] at g3
      simp only [Option.some.injEq] at g3
      subst g3
      have hpar' : (d = 0 ∧ a = 0) ∨ to_trim params d (a : Int) = false := by
        rcases hpar with ⟨_, h2, h3⟩ | h
        · exact Or.inl ⟨h2, h3⟩
        · exact Or.inr h
      unfold node_result at g4
      unfold reached_ok
      simp only [ht, Bool.false_eq_true, if_false, hdd, had] at g4
      cases hx : to_trim params (atof e0.length_as_string + d) (1 + (a : Int)) with
      | true =>
        simp only [hx, if_true, Option.some.injEq] at g4
        rw [← g4] at he ⊢
        simp only [Option.some.injEq] at he
        subst he
        refine ⟨hcL, _, rfl, by simp, ?_⟩
        intro _
        exact ⟨rfl, d, a, atof e0.length_as_string, hx, hpar', rfl, rfl, rfl⟩
      | false =>
        simp only [hx, Bool.false_eq_true, if_false, Option.some.injEq] at g4
        rw [← g4] at he ⊢
        simp only [Option.some.injEq] at he
        subst he
        refine ⟨hcL, _, rfl, ?_, by simp⟩
        intro _
        refine ⟨by simp only [add_comm], by simp only [Nat.cast_add, Nat.cast_one, add_comm],
          Or.inr ?_⟩
        have e1 : d + atof e0.length_as_string = atof e0.length_as_string + d := add_comm _ _
        have e2 : ((a + 1 : Nat) : Int) = 1 + (a : Int) := by push_cast; ring
        simp only [e1, e2]
        exact hx

theorem to_trim_distance (K d : ℚ) (a : Int) :
    to_trim { depth_type := depth_type.DEPTH_DISTANCE, threshold := K } d a = decide (K < d) :=
  rfl

theorem to_trim_ancestors (K d : ℚ) (a : Int) :
    to_trim { depth_type := depth_type.DEPTH_ANCESTORS, threshold := K } d a
      = decide (K < (a : ℚ)) :=
  rfl

theorem chain_path (s1 : store) (e1 e2 : redge) (h0 : (s1 0).children = [1])
    (h1 : (s1 1).children = [2]) (he1 : (s1 1).parent_edge = some e1)
    (he2 : (s1 2).parent_edge = some e2) :
    path_to s1 0 2 (0 + atof e1.length_as_string + atof e2.length_as_string) 2 :=
  path_to.child 1 2 _ 1 e2
    (path_to.child 0 1 0 0 e1 path_to.root (by rw [h0]; exact List.mem_singleton_self _) he1)
    (by rw [h1]; exact List.mem_singleton_self _) he2

theorem atof_numeral (q : ℚ) : atof (length_text.numeral q) = q := rfl

/-- With enough fuel `log10_floor` is the number of decimal digits of `n ≥ 1`, less one. -/
theorem log10_floor_spec (fuel n : Nat) (h1 : 1 ≤ n) (hf : n ≤ fuel) :
    10 ^ log10_floor fuel n ≤ n ∧ n < 10 ^ (log10_floor fuel n + 1) := by
  induction fuel generalizing n with
  | zero => omega
  | succ fuel ih =>
    unfold log10_floor
    by_cases h : n < 10
    · simp only [h, if_true]
      constructor
      · simpa using h1
      · simpa using h
    · simp only [h, if_false]
      have h10 : 10 ≤ n := not_lt.1 h
      have hd1 : 1 ≤ n / 10 := (Nat.one_le_div_iff (by norm_num)).2 h10
      have hd2 : n / 10 ≤ fuel := by
        have : n / 10 < n := Nat.div_lt_self (by omega) (by norm_num)
        omega
      obtain ⟨i1, i2⟩ := ih (n / 10) hd1 hd2
      constructor
      · have : 10 ^ (1 + log10_floor fuel (n / 10)) = 10 * 10 ^ log10_floor fuel (n / 10) := by
          rw [pow_add, pow_one]
        rw [this]
        calc 10 * 10 ^ log10_floor fuel (n / 10) ≤ 10 * (n / 10) := Nat.mul_le_mul_left _ i1
          _ ≤ n := Nat.mul_div_le n 10
      · have : 10 ^ (1 + log10_floor fuel (n / 10) + 1)
            = 10 ^ (log10_floor fuel (n / 10) + 1) * 10 := by
          rw [show 1 + log10_floor fuel (n / 10) + 1 = (log10_floor fuel (n / 10) + 1) + 1 by omega,
            pow_succ]
        rw [this]
        exact (Nat.div_lt_iff_lt_mul (by norm_num)).1 i2

/-- With enough fuel `scale_up` stops at the least `k` with `q ≤ p * 10^k`. -/
theorem scale_up_spec (fuel p q k : Nat) (hk : 1 ≤ k) (hlow : p * 10 ^ (k - 1) < q)
    (hhigh : q ≤ p * 10 ^ (k + fuel)) :
    q ≤ p * 10 ^ scale_up fuel p q k ∧ p * 10 ^ (scale_up fuel p q k - 1) < q ∧
      1 ≤ scale_up fuel p q k := by
  induction fuel generalizing k with
  | zero =>
    unfold scale_up
    exact ⟨by simpa using hhigh, hlow, hk⟩
  | succ fuel ih =>
    unfold scale_up
    by_cases h : q ≤ p * 10 ^ k
    · rw [if_pos h]
      exact ⟨h, hlow, hk⟩
    · rw [if_neg h]
      exact ih (k + 1) (by omega) (by simpa using not_le.1 h)
        (by rw [show k + 1 + fuel = k + (fuel + 1) by omega]; exact hhigh)

/-- The decimal exponent `e` of `x ≠ 0` satisfies `10^e ≤ |x| < 10^(e+1)`. -/
theorem dec_exponent_spec (x : ℚ) (hx : x ≠ 0) :
    (10 : ℚ) ^ dec_exponent x ≤ |x| ∧ |x| < (10 : ℚ) ^ (dec_exponent x + 1) := by
  have hp : 1 ≤ x.num.natAbs := Nat.one_le_iff_ne_zero.2 (by simpa using hx)
  have hq : 0 < x.den := x.den_pos
  have habs : |x| = (x.num.natAbs : ℚ) / (x.den : ℚ) := by
    rw [Rat.abs_def, Rat.divInt_eq_div]
    simp [Nat.cast_natAbs, Int.cast_abs]
  have hqQ : (0 : ℚ) < (x.den : ℚ) := by exact_mod_cast hq
  unfold dec_exponent
  by_cases h : x.den ≤ x.num.natAbs
  · simp only [h, if_true]
    have hd1 : 1 ≤ x.num.natAbs / x.den := (Nat.one_le_div_iff hq).2 h
    obtain ⟨i1, i2⟩ := log10_floor_spec x.num.natAbs (x.num.natAbs / x.den) hd1
      (Nat.div_le_self _ _)
    rw [habs]
    constructor
    · rw [zpow_natCast, le_div_iff₀ hqQ]
      have : 10 ^ log10_floor x.num.natAbs (x.num.natAbs / x.den) * x.den ≤ x.num.natAbs :=
        le_trans (Nat.mul_le_mul_right _ i1) (Nat.div_mul_le_self _ _)
      exact_mod_cast this
    · rw [show ((log10_floor x.num.natAbs (x.num.natAbs / x.den) : Nat) : Int) + 1
          = ((log10_floor x.num.natAbs (x.num.natAbs / x.den) + 1 : Nat) : Int) by push_cast; rfl,
        zpow_natCast, div_lt_iff₀ hqQ]
      have : x.num.natAbs < 10 ^ (log10_floor x.num.natAbs (x.num.natAbs / x.den) + 1) * x.den :=
        (Nat.div_lt_iff_lt_mul hq).1 i2
      exact_mod_cast this
  · simp only [h, if_false]
    have hlt : x.num.natAbs < x.den := not_le.1 h
    have hhigh : x.den ≤ x.num.natAbs * 10 ^ (1 + x.den) := by
      have h1 : x.den < 10 ^ (1 + x.den) :=
        lt_of_lt_of_le (Nat.lt_pow_self (by norm_num) _)
          (Nat.pow_le_pow_right (by norm_num) (by omega))
      calc x.den ≤ 1 * 10 ^ (1 + x.den) := by omega
        _ ≤ x.num.natAbs * 10 ^ (1 + x.den) := Nat.mul_le_mul_right _ hp
    obtain ⟨i1, i2, i3⟩ := scale_up_spec x.den x.num.natAbs x.den 1 (le_refl 1)
      (by simpa using hlt) hhigh
    generalize scale_up x.den x.num.natAbs x.den 1 = k at i1 i2 i3
    have hk10 : (0 : ℚ) < (10 : ℚ) ^ k := by positivity
    rw [habs]
    constructor
    · rw [zpow_neg, zpow_natCast, le_div_iff₀ hqQ, inv_mul_le_iff₀ hk10]
      have : (x.den : ℚ) ≤ (x.num.natAbs : ℚ) * (10 : ℚ) ^ k := by exact_mod_cast i1
      linarith
    · obtain ⟨j, rfl⟩ : ∃ j, k = j + 1 := ⟨k - 1, by omega⟩
      rw [show -(((j + 1 : Nat)) : Int) + 1 = -((j : Nat) : Int) by push_cast; ring,
        zpow_neg, zpow_natCast, div_lt_iff₀ hqQ]
      have hj10 : (0 : ℚ) < (10 : ℚ) ^ j := by positivity
      have : (x.num.natAbs : ℚ) * (10 : ℚ) ^ j < (x.den : ℚ) := by
        have := i2
        simp only [Nat.add_sub_cancel] at this
        exact_mod_cast this
      rw [lt_inv_mul_iff₀ hj10]
      linarith

/-- Rounding to the nearest integer moves a number by at most one half. -/
theorem round_half_even_near (s : ℚ) : |(round_half_even s : ℚ) - s| ≤ 1 / 2 := by
  have h1 : ((Rat.floor s : Int) : ℚ) ≤ s := Int.floor_le s
  have h2 : s < ((Rat.floor s : Int) : ℚ) + 1 := Int.lt_floor_add_one s
  unfold round_half_even
  simp only
  split_ifs with c1 c2 c3
  · rw [abs_le]; constructor <;> linarith
  · rw [abs_le]; push_cast; constructor <;> linarith
  · rw [abs_le]; constructor <;> linarith
  · rw [abs_le]; push_cast; constructor <;> linarith

/-- Rounding to 6 significant digits moves a number by at most 5 parts in a million. -/
theorem round_sig6_near (x : ℚ) : |round_sig6 x - x| ≤ |x| / 200000 := by
  unfold round_sig6
  by_cases hx : x = 0
  · simp [hx]
  · simp only [hx, if_false]
    obtain ⟨e1, _⟩ := dec_exponent_spec x hx
    generalize dec_exponent x = e at e1
    have hpos : (0 : ℚ) < (10 : ℚ) ^ (e - 5) := by positivity
    have hinv : (10 : ℚ) ^ (5 - e) * (10 : ℚ) ^ (e - 5) = 1 := by
      rw [← zpow_add₀ (by norm_num : (10 : ℚ) ≠ 0)]
      simp
    have hsplit : (10 : ℚ) ^ e = (10 : ℚ) ^ (e - 5) * 100000 := by
      rw [show e = (e - 5) + 5 by ring, zpow_add₀ (by norm_num : (10 : ℚ) ≠ 0)]
      norm_num
    by_cases hneg : x < 0
    · simp only [hneg, if_true]
      have hr := round_half_even_near (-x * (10 : ℚ) ^ (5 - e))
      generalize (round_half_even (-x * (10 : ℚ) ^ (5 - e)) : ℚ) = m at hr
      have habs : |x| = -x := abs_of_neg hneg
      rw [habs] at e1 ⊢
      have key : -1 * m * (10 : ℚ) ^ (e - 5) - x
          = -((m - -x * (10 : ℚ) ^ (5 - e)) * (10 : ℚ) ^ (e - 5)) := by
        have : -x * (10 : ℚ) ^ (5 - e) * (10 : ℚ) ^ (e - 5) = -x := by
          rw [mul_assoc, hinv, mul_one]
        linarith
      rw [key, abs_neg, abs_mul, abs_of_pos hpos]
      calc |m - -x * (10 : ℚ) ^ (5 - e)| * (10 : ℚ) ^ (e - 5)
          ≤ 1 / 2 * (10 : ℚ) ^ (e - 5) := mul_le_mul_of_nonneg_right hr hpos.le
        _ ≤ -x / 200000 := by rw [hsplit] at e1; linarith
    · simp only [hneg, if_false]
      have hr := round_half_even_near (x * (10 : ℚ) ^ (5 - e))
      generalize (round_half_even (x * (10 : ℚ) ^ (5 - e)) : ℚ) = m at hr
      have habs : |x| = x := abs_of_nonneg (not_lt.1 hneg)
      rw [habs] at e1 ⊢
      have key : 1 * m * (10 : ℚ) ^ (e - 5) - x
          = (m - x * (10 : ℚ) ^ (5 - e)) * (10 : ℚ) ^ (e - 5) := by
        have : x * (10 : ℚ) ^ (5 - e) * (10 : ℚ) ^ (e - 5) = x := by
          rw [mul_assoc, hinv, mul_one]
        linarith
      rw [key, abs_mul, abs_of_pos hpos]
      calc |m - x * (10 : ℚ) ^ (5 - e)| * (10 : ℚ) ^ (e - 5)
          ≤ 1 / 2 * (10 : ℚ) ^ (e - 5) := mul_le_mul_of_nonneg_right hr hpos.le
        _ ≤ x / 200000 := by rw [hsplit] at e1; linarith

/-! ## Lemmas on hash.c: where `resize_hash` puts the pairs, and the hash function -/

theorem bins_placed_replicate (n m : Nat) : bins_placed n (List.replicate m []) := by
  intro i bin hb p hp
  rw [List.getElem?_replicate] at hb
  split at hb
  · simp only [Option.some.injEq] at hb
    subst hb
    exact absurd hp (List.not_mem_nil _)
  · exact absurd hb (by simp)

theorem bins_placed_update (n : Nat) (bins : List (llist key_val_pair)) (p : key_val_pair)
    (k : Key) (hk : p.key = some k) (hb : bins_placed n bins) :
    bins_placed n (update_bin bins (hash_func k % n) (fun b => b ++ [p])) := by
  intro i bin hi q hq
  unfold update_bin at hi
  cases hc : bins[hash_func k % n]? with
  | none =>
    rw [hc] at hi
    exact hb i bin hi q hq
  | some b =>
    rw [hc] at hi
    simp only at hi
    rw [List.getElem?_set] at hi
    by_cases he : hash_func k % n = i
    · rw [if_pos he] at hi
      split at hi
      · simp only [Option.some.injEq] at hi
        subst hi
        rcases List.mem_append.1 hq with h1 | h1
        · exact hb i b (he ▸ hc) q h1
        · rw [List.mem_singleton] at h1
          subst h1
          exact ⟨k, hk, he⟩
      · exact absurd hi (by simp)
    · rw [if_neg he] at hi
      exact hb i bin hi q hq

/-- The copying loop of `resize_hash` puts every pair into the bin numbered by its key. -/
theorem rehash_pairs_placed (new_size : Nat) (ps : List key_val_pair)
    (nb nb1 : List (llist key_val_pair)) (a a1 : Alloc) (hb : bins_placed new_size nb)
    (hr : rehash_pairs new_size ps nb a = some (some nb1, a1)) : bins_placed new_size nb1 := by
  induction ps generalizing nb a with
  | nil =>
    simp only [rehash_pairs, Option.some.injEq, Prod.mk.injEq] at hr
    rw [← hr.1]
    exact hb
  | cons p rest ih =>
    unfold rehash_pairs at hr
    cases hp : p.key with
    | none => simp [hp] at hr
    | some k =>
      simp only [hp] at hr
      by_cases h0 : new_size = 0
      · simp [h0] at hr
      · simp only [h0, if_false] at hr
        cases hm : malloc a with
        | mk ok a2 =>
          rw [hm] at hr
          cases ok with
          | false => simp at hr
          | true => exact ih _ a2 (bins_placed_update new_size nb p k hp hb) hr

/-- The C function `resize_hash`, no allocation failing, to a new size that is not 0: where
the pairs end up. -/
theorem resize_hash_placed (h : hash) (new_size : Nat) (h0 : new_size ≠ 0)
    (hn : no_null_key h) :
    ∃ nb1, resize_hash [] h new_size =
        some ((h.count : ℚ) / (new_size : ℚ), { h with bins := nb1 }, []) ∧
      nb1.length = new_size ∧ nb1.flatten.Perm h.bins.flatten ∧ bins_placed new_size nb1 := by
  obtain ⟨nb1, r1, r2, r3⟩ := resize_hash_spec h new_size h0 hn
  refine ⟨nb1, r1, r2, r3, ?_⟩
  unfold resize_hash at r1
  simp only [malloc, create_bins_nil] at r1
  cases hr : rehash_pairs new_size h.bins.flatten (List.replicate new_size []) [] with
  | none => simp [hr] at r1
  | some res =>
    obtain ⟨ob, a3⟩ := res
    cases ob with
    | none =>
      rw [hr] at r1
      simp only [Option.some.injEq, Prod.mk.injEq] at r1
      have h1 := r1.2.2
      have h2 : (0 : ℚ) ≤ (h.count : ℚ) / (new_size : ℚ) := by positivity
      have h3 := r1.1
      rw [← h3] at h2
      norm_num at h2
    | some nb2 =>
      rw [hr] at r1
      simp only [Option.some.injEq, Prod.mk.injEq] at r1
      have hb : nb2 = nb1 := by
        have := r1.2.1
        simpa using congrArg hash.bins this
      rw [← hb]
      exact rehash_pairs_placed new_size _ _ nb2 [] a3 (bins_placed_replicate _ _) hr

/-- The two steps of one `hash_set`, no allocation failing, on a table whose parameters are in
range: the resize step is a `resize_hash` to `resize_factor * size` bins when the table is
dynamic and the load factor has reached the threshold, and nothing otherwise; the insertion
keeps the number of bins. -/
theorem hash_set_steps (h : hash) (k : Key) (v : Value) (hp : params_ok h)
    (hn : no_null_key h) :
    ∃ nb1 h', maybe_resize [] h = some ({ h with bins := nb1 }, []) ∧
      hash_set [] h k v = some (status.SUCCESS, h', []) ∧ h'.size = nb1.length ∧
      (h.type = hash_type.HASH_DYNAMIC ∧ load_factor h ≥ h.load_threshold →
        resize_hash [] h (h.resize_factor * h.size) =
            some ((h.count : ℚ) / ((h.resize_factor * h.size : Nat) : ℚ),
                  { h with bins := nb1 }, []) ∧
          nb1.length = h.resize_factor * h.size) ∧
      (¬ (h.type = hash_type.HASH_DYNAMIC ∧ load_factor h ≥ h.load_threshold) →
        nb1 = h.bins) := by
  obtain ⟨p1, p2, p3⟩ := hp
  have key : ∃ nb1, maybe_resize [] h = some ({ h with bins := nb1 }, []) ∧
      nb1.flatten.Perm h.bins.flatten ∧ h.size ≤ nb1.length ∧
      (h.type = hash_type.HASH_DYNAMIC ∧ load_factor h ≥ h.load_threshold →
        resize_hash [] h (h.resize_factor * h.size) =
            some ((h.count : ℚ) / ((h.resize_factor * h.size : Nat) : ℚ),
                  { h with bins := nb1 }, []) ∧
          nb1.length = h.resize_factor * h.size) ∧
      (¬ (h.type = hash_type.HASH_DYNAMIC ∧ load_factor h ≥ h.load_threshold) →
        nb1 = h.bins) := by
    by_cases hc : h.type = hash_type.HASH_DYNAMIC ∧ load_factor h ≥ h.load_threshold
    · obtain ⟨h4, h5⟩ := p3 hc.1 hc.2
      have hmod : h.resize_factor * h.size % 2 ^ 32 = h.resize_factor * h.size :=
        Nat.mod_eq_of_lt (lt_of_le_of_lt h5 (by norm_num))
      have hne : h.resize_factor * h.size ≠ 0 := by
        have : 0 < h.resize_factor * h.size := Nat.mul_pos h4 p1
        omega
      obtain ⟨nb1, r1, r2, r3⟩ := resize_hash_spec h _ hne hn
      refine ⟨nb1, ?_, r3, ?_, fun _ => ⟨r1, r2⟩, fun hnc => absurd hc hnc⟩
      · simp only [maybe_resize, hc, and_self, if_true, hmod, r1]
      · rw [r2]
        exact Nat.le_mul_of_pos_left _ h4
    · exact ⟨h.bins, by simp only [maybe_resize, hc, if_false], List.Perm.refl _, le_refl _,
        fun hcc => absurd hcc hc, fun _ => rfl⟩
  obtain ⟨nb1, r1, r2, hsz, r4, r5⟩ := key
  have hn1 : no_null_key { h with bins := nb1 } := no_null_key_of_perm h _ r2 hn
  have hlt : hash_func k % h.size < hash.size { h with bins := nb1 } :=
    lt_of_lt_of_le (Nat.mod_lt _ p1) hsz
  obtain ⟨bin, bin1, hb, hset, _, _, _⟩ :=
    insert_at_spec { h with bins := nb1 } (hash_func k % h.size) k v hlt hn1
  refine ⟨nb1, { h with bins := nb1.set (hash_func k % h.size) bin1,
                        count := h.count + (if some k ∈ bin.map key_val_pair.key then 0 else 1) },
    r1, ?_, ?_, r4, r5⟩
  · simp only [hash_set, hash_code_spec h k p1 p2, r1]
    exact hset
  · simp [hash.size]

theorem toInt32_emod (x : Int) : toInt32 x % 2 ^ 32 = x % 2 ^ 32 := by
  unfold toInt32
  omega

theorem hash_func_fold (key : Key) (h0 : Int) (n0 : Nat) (hc : ∀ c ∈ key, 0 ≤ c ∧ c < 256)
    (he : h0 % 2 ^ 32 = (n0 : Int)) :
    (key.foldl (fun h c => toInt32 (33 * h + c)) h0) % 2 ^ 32 =
      ((key.map byte_of).foldl (fun h c => (33 * h + c) % 2 ^ 32) n0 : Nat) := by
  induction key generalizing h0 n0 with
  | nil => simpa using he
  | cons c rest ih =>
    simp only [List.foldl_cons, List.map_cons]
    apply ih _ _ (fun d hd => hc d (List.mem_cons_of_mem _ hd))
    obtain ⟨c0, c1⟩ := hc c (List.mem_cons_self _ _)
    rw [toInt32_emod]
    have hb : ((byte_of c : Nat) : Int) = c := by
      unfold byte_of
      rw [Int.toNat_of_nonneg (Int.emod_nonneg _ (by norm_num))]
      exact Int.emod_eq_of_lt c0 c1
    push_cast
    rw [hb]
    omega

/-- On a key all of whose `char` values are in `0..255` (as they are for ASCII text, and for
every text where `char` is unsigned) `hash_func` is Bernstein's hash of the bytes. -/
theorem hash_func_unsigned (key : Key) (hc : ∀ c ∈ key, 0 ≤ c ∧ c < 256) :
    hash_func key = bernstein_hash (key.map byte_of) := by
  unfold hash_func bernstein_hash
  rw [hash_func_fold key 0 0 hc (by norm_num)]
  simp

/-! ## Lemmas on match.c -/

theorem store.write_self (s : store) (n : Nat) : s.write n (s n) = s := by
  funext m
  unfold store.write
  split
  · next h => rw [h]
  · rfl

/-- On a tree without inner-node labels `remove_inner_node_labels` changes nothing. -/
theorem remove_inner_node_labels_loop_id (s : store) (l : List Nat)
    (h : ∀ n ∈ l, is_leaf s n = false → (s n).label = "") :
    remove_inner_node_labels_loop s l = s := by
  induction l with
  | nil => rfl
  | cons n rest ih =>
    have ih1 := ih (fun m hm => h m (List.mem_cons_of_mem _ hm))
    unfold remove_inner_node_labels_loop
    cases hl : is_leaf s n with
    | true => simpa using ih1
    | false =>
      have hlab := h n (List.mem_cons_self _ _) hl
      have hw : s.write n { (s n) with label := "" } = s := by
        have : ({ (s n) with label := "" } : rnode) = s n := by
          rw [← hlab]
        rw [this, store.write_self]
      simp only [Bool.false_eq_true, if_false, hw]
      exact ih1

/-- When every labelled node of the listing that is not a root is found in the index with a
value other than `NULL`, `prune_extra_labels` passes no node to `unlink_rnode` and changes
nothing. -/
theorem prune_extra_labels_loop_id (u : store → Nat → Option (store × Option Nat))
    (kept : hash) (s : store) (root : Nat) (l passed : List Nat)
    (h : ∀ n ∈ l, (s n).label ≠ "" → is_root s n = false →
      ∃ v, hash_get kept (c_string (s n).label) = some v ∧ v ≠ NULL) :
    prune_extra_labels_loop u kept s root l passed = some (s, root, passed) := by
  induction l with
  | nil => rfl
  | cons n rest ih =>
    have ih1 := ih (fun m hm => h m (List.mem_cons_of_mem _ hm))
    unfold prune_extra_labels_loop
    by_cases hl : (s n).label = ""
    · simp only [hl, if_true]
      exact ih1
    · simp only [hl, if_false]
      cases hr : is_root s n with
      | true => simpa using ih1
      | false =>
        obtain ⟨v, hv, hne⟩ := h n (List.mem_cons_self _ _) hl hr
        simp only [Bool.false_eq_true, if_false, hv, hne]
        exact ih1

/-- On a tree all of whose listed nodes have a parent edge without length text
`remove_branch_lengths` returns and changes nothing. -/
theorem remove_branch_lengths_loop_id (s : store) (l : List Nat)
    (h : ∀ n ∈ l, ∃ e, (s n).parent_edge = some e ∧ e.length_as_string = length_text.empty) :
    remove_branch_lengths_loop s l = some s := by
  induction l with
  | nil => rfl
  | cons n rest ih =>
    obtain ⟨e, he, ht⟩ := h n (List.mem_cons_self _ _)
    unfold remove_branch_lengths_loop
    simp only [he, ht, ne_eq, not_true_eq_false, if_false]
    exact ih (fun m hm => h m (List.mem_cons_of_mem _ hm))

theorem bin_get_total (k : Key) (bin : llist key_val_pair) (hb : bin_ok bin) :
    ∃ v, bin_get k bin = some v := by
  induction bin with
  | nil => exact ⟨NULL, rfl⟩
  | cons p rest ih =>
    unfold bin_get
    cases hp : p.key with
    | none => exact absurd hp (hb p (List.mem_cons_self _ _))
    | some k1 =>
      by_cases hk : k = k1
      · exact ⟨p.value, by simp [hk]⟩
      · simp only [hk, if_false]
        exact ih (fun q hq => hb q (List.mem_cons_of_mem _ hq))

theorem bin_get_found (k : Key) (bin : llist key_val_pair) (hb : bin_ok bin)
    (hv : ∀ p ∈ bin, p.value ≠ NULL) (hk : some k ∈ bin.map key_val_pair.key) :
    ∃ v, bin_get k bin = some v ∧ v ≠ NULL := by
  induction bin with
  | nil => exact absurd hk (List.not_mem_nil _)
  | cons p rest ih =>
    unfold bin_get
    cases hp : p.key with
    | none => exact absurd hp (hb p (List.mem_cons_self _ _))
    | some k1 =>
      by_cases hkk : k = k1
      · exact ⟨p.value, by simp [hkk], hv p (List.mem_cons_self _ _)⟩
      · simp only [hkk, if_false]
        refine ih (fun q hq => hb q (List.mem_cons_of_mem _ hq))
          (fun q hq => hv q (List.mem_cons_of_mem _ hq)) ?_
        simp only [List.map_cons, List.mem_cons, hp, Option.some.injEq] at hk
        rcases hk with h1 | h1
        · exact absurd h1 hkk
        · exact h1

/-- In an index that is in order `hash_get` returns a value, and the value is `NULL` exactly
for the keys that are not stored. -/
theorem hash_get_index (kept : hash) (k : Key) (hi : index_ok kept) :
    ∃ v, hash_get kept k = some v ∧ (v = NULL ↔ some k ∉ stored_keys kept) := by
  obtain ⟨h1, h2, hn, hp, hv⟩ := hi
  by_cases hk : some k ∈ stored_keys kept
  · obtain ⟨q, hq, hqk⟩ := List.mem_map.1 hk
    obtain ⟨bin, hbin, hqb⟩ := List.mem_flatten.1 hq
    obtain ⟨i, hi, hget⟩ := List.getElem_of_mem hbin
    have hb : kept.bins[i]? = some bin := by
      rw [List.getElem?_eq_getElem hi, hget]
    obtain ⟨k1, e1, e2⟩ := hp i bin hb q hqb
    rw [hqk] at e1
    simp only [Option.some.injEq] at e1
    subst e1
    rw [hash_get_spec kept k h1 h2, e2, hb]
    obtain ⟨v, g1, g2⟩ := bin_get_found k bin
      (fun p hp1 => hn p (mem_flatten_of_getElem? hb hp1))
      (fun p hp1 => hv p (mem_flatten_of_getElem? hb hp1))
      (List.mem_map.2 ⟨q, hqb, hqk⟩)
    exact ⟨v, g1, ⟨fun h => absurd h g2, fun h => absurd hk h⟩⟩
  · exact ⟨NULL, hash_get_absent kept k h1 h2 hn hk, ⟨fun _ => hk, fun _ => rfl⟩⟩

theorem bin_get_stored (k : Key) (bin : llist key_val_pair) (v : Value)
    (h : bin_get k bin = some v) (hv : v ≠ NULL) : some k ∈ bin.map key_val_pair.key := by
  induction bin with
  | nil =>
    simp only [bin_get, Option.some.injEq] at h
    exact absurd h.symm hv
  | cons p rest ih =>
    unfold bin_get at h
    cases hp : p.key with
    | none => rw [hp] at h; exact absurd h (by simp)
    | some k1 =>
      rw [hp] at h
      simp only at h
      by_cases hk : k = k1
      · simp only [List.map_cons, List.mem_cons, hp, hk, true_or]
      · simp only [hk, if_false] at h
        exact List.mem_cons_of_mem _ (ih h)

/-- A key for which `hash_get` returns a value other than `NULL` is stored in the table. -/
theorem hash_get_stored (h : hash) (k : Key) (v : Value) (hg : hash_get h k = some v)
    (hv : v ≠ NULL) : some k ∈ stored_keys h := by
  unfold hash_get at hg
  cases hc : hash_code h k with
  | none => rw [hc] at hg; exact absurd hg (by simp)
  | some code =>
    rw [hc] at hg
    simp only at hg
    cases hb : get_bin h code with
    | none => rw [hb] at hg; exact absurd hg (by simp)
    | some bin =>
      rw [hb] at hg
      simp only at hg
      have hmem : h.bins[code.toNat]? = some bin := by
        unfold get_bin at hb
        split at hb
        · exact absurd hb (by simp)
        · exact hb
      obtain ⟨p, hp, hpk⟩ := List.mem_map.1 (bin_get_stored k bin v hg hv)
      unfold stored_keys
      exact List.mem_map.2 ⟨p, mem_flatten_of_getElem? hmem hp, hpk⟩

/-- A node of the tree other than the root is listed as a child by a node of the tree, and has
its parent edge to it. -/
theorem in_tree_edge (s : store) (root depth n : Nat) (ht : tree_ok s root depth)
    (hn : in_tree s root n) (hr : n ≠ root) :
    ∃ p, in_tree s root p ∧ n ∈ (s p).children ∧ parent_of s n = some p := by
  obtain ⟨rank, ht⟩ := ht
  cases hn with
  | root => exact absurd rfl hr
  | child p c hp hc => exact ⟨p, hp, hc, ht.child_parent p n hp hc⟩

theorem in_tree_has_edge (s : store) (root depth n : Nat) (ht : tree_ok s root depth)
    (hn : in_tree s root n) (hr : n ≠ root) : is_root s n = false := by
  obtain ⟨p, _, _, hp⟩ := in_tree_edge s root depth n ht hn hr
  unfold parent_of at hp
  unfold is_root
  cases he : (s n).parent_edge with
  | none => rw [he] at hp; exact absurd hp (by simp)
  | some e => rfl

/-- Under a root without children there is no node but the root. -/
theorem in_tree_leaf_root (s : store) (root m : Nat) (h : (s root).children = [])
    (hm : in_tree s root m) : m = root := by
  induction hm with
  | root => rfl
  | child p c _ hc ih =>
    rw [ih, h] at hc
    exact absurd hc (List.not_mem_nil _)

/-- In a tree in which only leaves carry labels and some node carries a label that `hash_get`
finds, the root is unlabeled or carries a label that `hash_get` finds. -/
theorem root_passed_over (kept : hash) (s : store) (root : Nat)
    (hleaf : ∀ m, in_tree s root m → (s m).label ≠ "" → (s m).children = [])
    (hk : ∃ k, in_tree s root k ∧ (s k).label ≠ "" ∧
      ∃ v, hash_get kept (c_string (s k).label) = some v ∧ v ≠ NULL) :
    (s root).label = "" ∨ ∃ v, hash_get kept (c_string (s root).label) = some v ∧ v ≠ NULL := by
  by_cases hl : (s root).label = ""
  · exact Or.inl hl
  · right
    obtain ⟨k, hk1, _, hk3⟩ := hk
    have := in_tree_leaf_root s root k (hleaf root in_tree.root hl) hk1
    rw [this] at hk3
    exact hk3

/-- The loop of `prune_extra_labels`, for a node-removal operation that meets the contract, on
a tree in which only leaves carry labels and some node carries a label that `hash_get` finds;
the nodes still to come are nodes of the tree or unlabeled. -/
theorem prune_extra_labels_loop_spec (u : store → Nat → Option (store × Option Nat))
    (depth : Nat) (kept : hash) (hu : splicer_contract u depth)
    (rest : List Nat) (s : store) (root : Nat) (passed : List Nat)
    (ht : tree_ok s root depth)
    (hleaf : ∀ m, in_tree s root m → (s m).label ≠ "" → (s m).children = [])
    (hk : ∃ k, in_tree s root k ∧ (s k).label ≠ "" ∧
      ∃ v, hash_get kept (c_string (s k).label) = some v ∧ v ≠ NULL)
    (hg : ∀ m ∈ rest, (s m).label ≠ "" → ∃ v, hash_get kept (c_string (s m).label) = some v)
    (hr : ∀ m ∈ rest, in_tree s root m ∨ (s m).label = "")
    (hd : rest.Nodup) :
    ∃ s1 root1 passed1,
      prune_extra_labels_loop u kept s root rest passed = some (s1, root1, passed ++ passed1) ∧
      tree_ok s1 root1 depth ∧ (∀ m, (s1 m).label = (s m).label) ∧
      (∀ m, in_tree s1 root1 m → in_tree s root m) ∧
      (∀ m ∈ rest, in_tree s1 root1 m → m ≠ root1 → (s m).label ≠ "" →
        ∃ v, hash_get kept (c_string (s m).label) = some v ∧ v ≠ NULL) ∧
      (∀ n ∈ passed1, n ∈ rest ∧ (s n).label ≠ "" ∧
        hash_get kept (c_string (s n).label) = some NULL ∧ in_tree s root n ∧ n ≠ root ∧
        ¬ in_tree s1 root1 n) := by
  induction rest generalizing s root passed with
  | nil =>
    exact ⟨s, root, [], by simp [prune_extra_labels_loop], ht, fun _ => rfl, fun _ h => h,
      fun _ hm => absurd hm (List.not_mem_nil _),
      fun _ hn => absurd hn (List.not_mem_nil _)⟩
  | cons x rest ih =>
    have hrest : ∀ m ∈ rest, in_tree s root m ∨ (s m).label = "" :=
      fun m hm => hr m (List.mem_cons_of_mem _ hm)
    have hgrest : ∀ m ∈ rest, (s m).label ≠ "" →
        ∃ v, hash_get kept (c_string (s m).label) = some v :=
      fun m hm => hg m (List.mem_cons_of_mem _ hm)
    have hdrest : rest.Nodup := (List.nodup_cons.1 hd).2
    have hxrest : x ∉ rest := (List.nodup_cons.1 hd).1
    -- the three cases in which the node is passed over
    have skip : prune_extra_labels_loop u kept s root (x :: rest) passed =
          prune_extra_labels_loop u kept s root rest passed →
        (∀ s1 root1, (∀ m, in_tree s1 root1 m → in_tree s root m) →
          in_tree s1 root1 x → x ≠ root1 → (s x).label ≠ "" →
          ∃ v, hash_get kept (c_string (s x).label) = some v ∧ v ≠ NULL) →
        ∃ s1 root1 passed1,
          prune_extra_labels_loop u kept s root (x :: rest) passed =
            some (s1, root1, passed ++ passed1) ∧
          tree_ok s1 root1 depth ∧ (∀ m, (s1 m).label = (s m).label) ∧
          (∀ m, in_tree s1 root1 m → in_tree s root m) ∧
          (∀ m ∈ x :: rest, in_tree s1 root1 m → m ≠ root1 → (s m).label ≠ "" →
            ∃ v, hash_get kept (c_string (s m).label) = some v ∧ v ≠ NULL) ∧
          (∀ n ∈ passed1, n ∈ x :: rest ∧ (s n).label ≠ "" ∧
            hash_get kept (c_string (s n).label) = some NULL ∧ in_tree s root n ∧ n ≠ root ∧
            ¬ in_tree s1 root1 n) := by
      intro heq hx
      obtain ⟨s1, root1, passed1, g1, g2, g3, g4, g6, g7⟩ :=
        ih s root passed ht hleaf hk hgrest hrest hdrest
      refine ⟨s1, root1, passed1, by rw [heq, g1], g2, g3, g4, ?_, ?_⟩
      · intro m hm
        rcases List.mem_cons.1 hm with rfl | hm1
        · exact hx s1 root1 g4
        · exact g6 m hm1
      · intro n hn
        obtain ⟨a1, a2⟩ := g7 n hn
        exact ⟨List.mem_cons_of_mem _ a1, a2⟩
    by_cases hl : (s x).label = ""
    · apply skip
      · rw [prune_extra_labels_loop]
        simp only [hl, if_true]
      · intro _ _ _ _ _ hne
        exact absurd hl hne
    · cases hroot : is_root s x with
      | true =>
        apply skip
        · rw [prune_extra_labels_loop]
          simp only [hl, if_false, hroot, if_true]
        · intro s1 root1 hsub hin hne _
          -- a node of the tree without parent edge is the root, and a root that carries a
          -- label is the one node of the tree
          have hxr : x = root := by
            by_contra hxr
            have := in_tree_has_edge s root depth x ht (hsub x hin) hxr
            rw [hroot] at this
            exact absurd this (by simp)
          have h0 : (s root).children = [] := hleaf root in_tree.root (hxr ▸ hl)
          have h1 : root1 = root := in_tree_leaf_root s root root1 h0 (hsub root1 in_tree.root)
          exact absurd (hxr.trans h1.symm) hne
      | false =>
        obtain ⟨v, hv⟩ := hg x (List.mem_cons_self _ _) hl
        by_cases hnull : v = NULL
        · -- the node is passed to `unlink_rnode`
          subst hnull
          have hin : in_tree s root x := by
            rcases hr x (List.mem_cons_self _ _) with h1 | h1
            · exact h1
            · exact absurd h1 hl
          have hxroot : x ≠ root := by
            intro hxr
            rcases root_passed_over kept s root hleaf hk with h1 | ⟨w, h1, h2⟩
            · exact hl (hxr ▸ h1)
            · rw [← hxr, hv] at h1
              simp only [Option.some.injEq] at h1
              exact h2 h1.symm
          obtain ⟨s1, nr, c1, c2, c3, c4, c5, c7⟩ := hu s root x ht hin hxroot
          have hleaf1 : ∀ m, in_tree s1 (nr.getD root) m → (s1 m).label ≠ "" →
              (s1 m).children = [] := by
            intro m hm hlab
            rw [c3] at hlab
            exact c7 m hm (hleaf m (c4 m hm).1 hlab)
          have hk1 : ∃ k, in_tree s1 (nr.getD root) k ∧ (s1 k).label ≠ "" ∧
              ∃ v, hash_get kept (c_string (s1 k).label) = some v ∧ v ≠ NULL := by
            obtain ⟨k, k1, k2, w, k3, k4⟩ := hk
            refine ⟨k, ?_, by rwa [c3], w, by rwa [c3], k4⟩
            by_contra hout
            rcases c5 k k1 hout with h1 | h1
            · rw [h1, hv] at k3
              simp only [Option.some.injEq] at k3
              exact k4 k3.symm
            · exact h1 (hleaf k k1 k2)
          have hg1 : ∀ m ∈ rest, (s1 m).label ≠ "" →
              ∃ v, hash_get kept (c_string (s1 m).label) = some v := by
            intro m hm
            rw [c3]
            exact hgrest m hm
          have hrest1 : ∀ m ∈ rest, in_tree s1 (nr.getD root) m ∨ (s1 m).label = "" := by
            intro m hm
            rw [c3]
            rcases hrest m hm with h1 | h1
            · by_cases hin1 : in_tree s1 (nr.getD root) m
              · exact Or.inl hin1
              · right
                rcases c5 m h1 hin1 with h2 | h2
                · exact absurd (h2 ▸ hm) hxrest
                · by_contra hlab
                  exact h2 (hleaf m h1 hlab)
            · exact Or.inr h1
          obtain ⟨s2, root2, passed2, g1, g2, g3, g4, g6, g7⟩ :=
            ih s1 (nr.getD root) (passed ++ [x]) c2 hleaf1 hk1 hg1 hrest1 hdrest
          refine ⟨s2, root2, x :: passed2, ?_, g2, ?_, ?_, ?_, ?_⟩
          · rw [prune_extra_labels_loop]
            simp only [hl, if_false, hroot, Bool.false_eq_true, hv, if_true, c1]
            rw [g1]
            simp
          · intro m
            rw [g3, c3]
          · intro m hm
            exact (c4 m (g4 m hm)).1
          · intro m hm hin2 hne hlab
            rcases List.mem_cons.1 hm with rfl | hm1
            · exact absurd rfl (c4 m (g4 m hin2)).2
            · have := g6 m hm1 hin2 hne (by rw [c3]; exact hlab)
              rwa [c3] at this
          · intro n hn
            rcases List.mem_cons.1 hn with rfl | hn1
            · exact ⟨List.mem_cons_self _ _, hl, hv, hin, hxroot,
                fun h => (c4 n (g4 n h)).2 rfl⟩
            · obtain ⟨a1, a2, a3, a4, _, a6⟩ := g7 n hn1
              rw [c3] at a2 a3
              refine ⟨List.mem_cons_of_mem _ a1, a2, a3, (c4 n a4).1, ?_, a6⟩
              intro hnr
              rcases root_passed_over kept s root hleaf hk with h1 | ⟨w, h1, h2⟩
              · exact a2 (hnr ▸ h1)
              · rw [← hnr, a3] at h1
                simp only [Option.some.injEq] at h1
                exact h2 h1.symm
        · apply skip
          · rw [prune_extra_labels_loop]
            simp only [hl, if_false, hroot, Bool.false_eq_true, hv, hnull]
          · intro _ _ _ _ _ _
            exact ⟨v, hv, hnull⟩

theorem mem_replace_child (node : Nat) (kids l : List Nat) (c : Nat) :
    c ∈ replace_child node kids l ↔ (c ∈ l ∧ c ≠ node) ∨ (node ∈ l ∧ c ∈ kids) := by
  induction l with
  | nil => simp [replace_child]
  | cons x rest ih =>
    unfold replace_child
    by_cases hx : x = node
    · subst hx
      simp only [if_true, List.mem_append, ih, List.mem_cons, true_or, true_and]
      constructor
      · rintro (h | h | h)
        · exact Or.inr h
        · exact Or.inl ⟨Or.inr h.1, h.2⟩
        · exact Or.inr h.2
      · rintro (⟨h1 | h1, h2⟩ | h)
        · exact absurd h1 h2
        · exact Or.inr (Or.inl ⟨h1, h2⟩)
        · exact Or.inl h
    · simp only [hx, if_false, List.mem_cons, ih]
      constructor
      · rintro (h | h | h)
        · exact Or.inl ⟨Or.inl h, by rw [h]; exact hx⟩
        · exact Or.inl ⟨Or.inr h.1, h.2⟩
        · exact Or.inr ⟨Or.inr h.1, h.2⟩
      · rintro (⟨h1 | h1, h2⟩ | ⟨h1 | h1, h2⟩)
        · exact Or.inl h1
        · exact Or.inr (Or.inl ⟨h1, h2⟩)
        · exact absurd h1.symm hx
        · exact Or.inr (Or.inr ⟨h1, h2⟩)

/-! ## Lemmas on match.c: the node-removal operation modelled from the specification -/

theorem parent_of_write_same (s : store) (n : Nat) (r : rnode) :
    parent_of (s.write n r) n = r.parent_edge.map redge.parent_node := by
  unfold parent_of
  rw [store.write_same]

theorem parent_of_write_other (s : store) (n m : Nat) (r : rnode) (h : m ≠ n) :
    parent_of (s.write n r) m = parent_of s m := by
  unfold parent_of
  rw [store.write_other _ _ _ _ h]

theorem reparent_fields (p : Nat) (e : redge) (kids : List Nat) (s : store) (m : Nat) :
    (reparent p e s kids m).label = (s m).label ∧
      (reparent p e s kids m).children = (s m).children ∧
      parent_of (reparent p e s kids) m =
        (if m ∈ kids then (parent_of s m).map (fun _ => p) else parent_of s m) := by
  induction kids generalizing s with
  | nil => simp [reparent]
  | cons k rest ih =>
    unfold reparent
    obtain ⟨i1, i2, i3⟩ := ih (s.write k
      { (s k) with
        parent_edge := (s k).parent_edge.map (fun ke =>
          { parent_node := p, length := ke.length + e.length,
            length_as_string := add_lengths ke.length_as_string e.length_as_string }) })
    rw [i1, i2, i3]
    by_cases hm : m = k
    · subst hm
      simp only [store.write_same, List.mem_cons, true_or, if_true, true_and,
        parent_of_write_same]
      unfold parent_of
      cases (s m).parent_edge <;> simp
    · simp only [store.write_other _ _ _ _ hm, List.mem_cons, hm, false_or, true_and,
        parent_of_write_other _ _ _ _ hm]

/-- The fields of the nodes after one removal. -/
theorem splice_out_fields (s : store) (node : Nat) (e : redge) (m : Nat) :
    (splice_out s node e m).label = (s m).label ∧
      (splice_out s node e m).children =
        (if m = e.parent_node then
           replace_child node (s node).children (s e.parent_node).children
         else (s m).children) ∧
      parent_of (splice_out s node e) m =
        (if m ∈ (s node).children then (parent_of s m).map (fun _ => e.parent_node)
         else parent_of s m) := by
  obtain ⟨r1, r2, r3⟩ := reparent_fields e.parent_node e (s node).children s m
  obtain ⟨_, q2, _⟩ := reparent_fields e.parent_node e (s node).children s e.parent_node
  unfold splice_out
  simp only
  by_cases hmp : m = e.parent_node
  · subst hmp
    rw [parent_of_write_same, store.write_same]
    simp only [if_true]
    refine ⟨r1, by rw [r2], ?_⟩
    rw [← r3]
    rfl
  · rw [parent_of_write_other _ _ _ _ hmp, store.write_other _ _ _ _ hmp]
    simp only [hmp, if_false]
    exact ⟨r1, r2, r3⟩

/-- In a tree that meets the invariants the numbers of the nodes are larger than the number
of the root. -/
theorem in_tree_rank (s : store) (root depth : Nat) (rank : Nat → Nat)
    (ht : tree_ranked s root depth rank) (m : Nat) (hm : in_tree s root m) :
    m = root ∨ rank root < rank m := by
  induction hm with
  | root => exact Or.inl rfl
  | child p c hp hc ih =>
    right
    have := (ht.ranked p c hp hc).1
    rcases ih with h | h
    · rw [h] at this
      exact this
    · omega

/-- One removal, seen through the fields of the nodes: the tree that is left meets the
invariants, no node has entered it, and it has lost the node removed and no other. -/
theorem splice_step (s s1 : store) (root depth node p : Nat) (rank : Nat → Nat)
    (ht : tree_ranked s root depth rank) (hin : in_tree s root node) (hne : node ≠ root)
    (hpar : parent_of s node = some p)
    (hc : ∀ m, (s1 m).children =
      (if m = p then replace_child node (s node).children (s p).children
       else (s m).children))
    (hpo : ∀ m, parent_of s1 m =
      (if m ∈ (s node).children then some p else parent_of s m)) :
    tree_ranked s1 root depth rank ∧ (∀ m, in_tree s1 root m → in_tree s root m ∧ m ≠ node) ∧
      (∀ m, in_tree s root m → m ≠ node → in_tree s1 root m) ∧ in_tree s1 root p ∧
      node ∈ (s p).children := by
  obtain ⟨q, hq, f4q, hqp⟩ : ∃ q, in_tree s root q ∧ node ∈ (s q).children ∧
      parent_of s node = some q := by
    cases hin with
    | root => exact absurd rfl hne
    | child q c hq hc1 => exact ⟨q, hq, hc1, ht.child_parent q node hq hc1⟩
  have hqe : q = p := by
    rw [hpar] at hqp
    simp only [Option.some.injEq] at hqp
    exact hqp.symm
  subst hqe
  have f4 : node ∈ (s q).children := f4q
  have r1 : rank q < rank node := (ht.ranked q node hq f4).1
  have f1 : q ≠ node := by
    intro h
    rw [h] at r1
    omega
  have f6 : ∀ k ∈ (s node).children, parent_of s k = some node :=
    fun k hk => ht.child_parent node k hin hk
  have r2 : ∀ k ∈ (s node).children, rank node < rank k ∧ rank k ≤ depth :=
    fun k hk => ht.ranked node k hin hk
  have f2 : node ∉ (s node).children := by
    intro h
    have := (r2 node h).1
    omega
  have hsub : ∀ m, in_tree s1 root m → in_tree s root m ∧ m ≠ node := by
    intro m hm
    induction hm with
    | root => exact ⟨in_tree.root, hne.symm⟩
    | child x c _ hcx ih =>
      rw [hc] at hcx
      by_cases hxq : x = q
      · subst hxq
        simp only [if_true, mem_replace_child] at hcx
        rcases hcx with ⟨h1, h2⟩ | ⟨_, h2⟩
        · exact ⟨in_tree.child x c ih.1 h1, h2⟩
        · exact ⟨in_tree.child node c hin h2, fun h => f2 (h ▸ h2)⟩
      · simp only [hxq, if_false] at hcx
        refine ⟨in_tree.child x c ih.1 hcx, ?_⟩
        intro h
        have := ht.child_parent x c ih.1 hcx
        rw [h, hpar] at this
        simp only [Option.some.injEq] at this
        exact hxq this.symm
  have key : ∀ m, in_tree s root m →
      (m ≠ node → in_tree s1 root m) ∧ (m = node → in_tree s1 root q) := by
    intro m hm
    induction hm with
    | root => exact ⟨fun _ => in_tree.root, fun h => absurd h.symm hne⟩
    | child x c hx hcx ih =>
      constructor
      · intro hcn
        by_cases hxn : x = node
        · have hp1 := ih.2 hxn
          refine in_tree.child q c hp1 ?_
          rw [hc]
          simp only [if_true, mem_replace_child]
          exact Or.inr ⟨f4, hxn ▸ hcx⟩
        · have hx1 := ih.1 hxn
          refine in_tree.child x c hx1 ?_
          rw [hc]
          by_cases hxq : x = q
          · subst hxq
            simp only [if_true, mem_replace_child]
            exact Or.inl ⟨hcx, hcn⟩
          · simp only [hxq, if_false]
            exact hcx
      · intro hcn
        have := ht.child_parent x c hx hcx
        rw [hcn, hpar] at this
        simp only [Option.some.injEq] at this
        subst this
        exact ih.1 f1
  have ok : tree_ranked s1 root depth rank := by
    refine ⟨?_, ?_, ?_, ?_⟩
    · rw [hpo]
      split
      · next h =>
        -- the root is no child of the node
        have h1 := f6 root h
        rcases ht.root_edge with h2 | h2
        · rw [h2] at h1
          exact absurd h1 (by simp)
        · rw [h2] at h1
          simp only [Option.some.injEq] at h1
          exact absurd (h1 ▸ hin) ht.no_null
      · exact ht.root_edge
    · intro h
      exact ht.no_null (hsub _ h).1
    · intro x c hx hcx
      obtain ⟨hx0, hxn⟩ := hsub x hx
      rw [hc] at hcx
      rw [hpo]
      by_cases hxq : x = q
      · subst hxq
        simp only [if_true, mem_replace_child] at hcx
        rcases hcx with ⟨h1, _⟩ | ⟨_, h2⟩
        · split
          · rfl
          · exact ht.child_parent x c hx0 h1
        · simp only [h2, if_true]
      · simp only [hxq, if_false] at hcx
        have hpc := ht.child_parent x c hx0 hcx
        have hck : c ∉ (s node).children := by
          intro h
          rw [f6 c h] at hpc
          simp only [Option.some.injEq] at hpc
          exact hxn hpc.symm
        simp only [hck, if_false]
        exact hpc
    · intro x c hx hcx
      obtain ⟨hx0, _⟩ := hsub x hx
      rw [hc] at hcx
      by_cases hxq : x = q
      · subst hxq
        simp only [if_true, mem_replace_child] at hcx
        rcases hcx with ⟨h1, _⟩ | ⟨_, h2⟩
        · exact ht.ranked x c hx0 h1
        · have := r2 c h2
          exact ⟨by omega, this.2⟩
      · simp only [hxq, if_false] at hcx
        exact ht.ranked x c hx0 hcx
  exact ⟨ok, hsub, fun m hm hmn => (key m hm).1 hmn, (key q hq).1 f1, f4⟩

/-- The step that makes the one child `c` of the root the new root, seen through the fields of
the nodes. -/
theorem reroot_step (s1 s2 : store) (root depth c : Nat) (rank : Nat → Nat)
    (ht : tree_ranked s1 root depth rank) (hone : (s1 root).children = [c])
    (hc : ∀ m, (s2 m).children = (s1 m).children)
    (hpo : ∀ m, m ≠ c → parent_of s2 m = parent_of s1 m)
    (hpc : parent_of s2 c = none ∨ parent_of s2 c = some NULL) :
    tree_ranked s2 c depth rank ∧ (∀ m, in_tree s2 c m → in_tree s1 root m ∧ m ≠ root) ∧
      (∀ m, in_tree s1 root m → m ≠ root → in_tree s2 c m) := by
  have hcr : c ∈ (s1 root).children := by rw [hone]; exact List.mem_singleton.2 rfl
  have f1 : parent_of s1 c = some root := ht.child_parent root c in_tree.root hcr
  have hsub : ∀ m, in_tree s2 c m → in_tree s1 root m ∧ rank root < rank m := by
    intro m hm
    induction hm with
    | root => exact ⟨in_tree.child root c in_tree.root hcr, (ht.ranked root c in_tree.root hcr).1⟩
    | child q x _ hx ih =>
      rw [hc] at hx
      have := (ht.ranked q x ih.1 hx).1
      exact ⟨in_tree.child q x ih.1 hx, by omega⟩
  have hsub1 : ∀ m, in_tree s2 c m → in_tree s1 root m ∧ m ≠ root := by
    intro m hm
    obtain ⟨h1, h2⟩ := hsub m hm
    refine ⟨h1, ?_⟩
    intro h
    rw [h] at h2
    omega
  refine ⟨⟨hpc, ?_, ?_, ?_⟩, hsub1, ?_⟩
  · intro h
    exact ht.no_null (hsub _ h).1
  · intro q x hq hx
    obtain ⟨hq0, hqr⟩ := hsub1 q hq
    rw [hc] at hx
    have hp := ht.child_parent q x hq0 hx
    have hxc : x ≠ c := by
      intro h
      rw [h, f1] at hp
      simp only [Option.some.injEq] at hp
      exact hqr hp.symm
    rw [hpo x hxc]
    exact hp
  · intro q x hq hx
    rw [hc] at hx
    exact ht.ranked q x (hsub q hq).1 hx
  · intro m hm
    induction hm with
    | root => exact fun h => absurd rfl h
    | child q x _ hx ih =>
      intro _
      by_cases hq : q = root
      · rw [hq, hone] at hx
        rw [List.mem_singleton.1 hx]
        exact in_tree.root
      · refine in_tree.child q x (ih hq) ?_
        rw [hc]
        exact hx

/-- The removal operation modelled from the specification meets the contract: on a tree that
meets the invariants, for a node of the tree other than the root, with more fuel than the
number of the node. -/
theorem unlink_rnode_spec (k : Nat) :
    ∀ (fuel : Nat) (s : store) (root depth node : Nat) (rank : Nat → Nat), k < fuel →
      tree_ranked s root depth rank → in_tree s root node → node ≠ root → rank node ≤ k →
      ∃ s1 new_root, unlink_rnode fuel s node = some (s1, new_root) ∧
        tree_ranked s1 (new_root.getD root) depth rank ∧
        (∀ m, (s1 m).label = (s m).label) ∧
        (∀ m, in_tree s1 (new_root.getD root) m → in_tree s root m ∧ m ≠ node) ∧
        (∀ m, in_tree s root m → ¬ in_tree s1 (new_root.getD root) m →
          m = node ∨ (s m).children ≠ []) ∧
        (∀ m, in_tree s1 (new_root.getD root) m → (s m).children = [] →
          (s1 m).children = []) := by
  induction k with
  | zero =>
    intro fuel s root depth node rank _ ht hin hne hk
    rcases in_tree_rank s root depth rank ht node hin with h | h
    · exact absurd h hne
    · omega
  | succ k ih =>
    intro fuel s root depth node rank hf ht hin hne hk
    obtain ⟨fuel1, rfl⟩ : ∃ f, fuel = f + 1 := ⟨fuel - 1, by omega⟩
    obtain ⟨p, hp, hnp, hpar⟩ : ∃ p, in_tree s root p ∧ node ∈ (s p).children ∧
        parent_of s node = some p := by
      cases hin with
      | root => exact absurd rfl hne
      | child q c hq hc1 => exact ⟨q, hq, hc1, ht.child_parent q node hq hc1⟩
    have hpnull : p ≠ NULL := fun h => ht.no_null (h ▸ hp)
    have hrp : rank p < rank node := (ht.ranked p node hp hnp).1
    cases hedge : (s node).parent_edge with
    | none =>
      unfold parent_of at hpar
      rw [hedge] at hpar
      exact absurd hpar (by simp)
    | some e =>
      have hep : e.parent_node = p := by
        unfold parent_of at hpar
        rw [hedge] at hpar
        simpa using hpar
      have hlab : ∀ m, (splice_out s node e m).label = (s m).label :=
        fun m => (splice_out_fields s node e m).1
      have hch : ∀ m, (splice_out s node e m).children =
          (if m = p then replace_child node (s node).children (s p).children
           else (s m).children) := by
        intro m
        rw [(splice_out_fields s node e m).2.1, hep]
      have hpo : ∀ m, parent_of (splice_out s node e) m =
          (if m ∈ (s node).children then some p else parent_of s m) := by
        intro m
        rw [(splice_out_fields s node e m).2.2]
        by_cases hk1 : m ∈ (s node).children
        · simp only [hk1, if_true]
          rw [ht.child_parent node m hin hk1, hep]
          rfl
        · simp only [hk1, if_false]
      obtain ⟨t1, i1, i2, hpin, _⟩ :=
        splice_step s (splice_out s node e) root depth node p rank ht hin hne hpar hch hpo
      have hleft : ∀ m, in_tree s root m → ¬ in_tree (splice_out s node e) root m →
          m = node ∨ (s m).children ≠ [] := by
        intro m hm hout
        left
        by_contra hmn
        exact hout (i2 m hm hmn)
      have hpkids : (s p).children ≠ [] := by
        intro h
        rw [h] at hnp
        exact absurd hnp (List.not_mem_nil _)
      have hleaf : ∀ m, (s m).children = [] → (splice_out s node e m).children = [] := by
        intro m hm
        rw [hch]
        by_cases hmp : m = p
        · rw [hmp] at hm
          exact absurd hm hpkids
        · simp only [hmp, if_false]
          exact hm
      have hkids0 : ∀ m, (splice_out s node e m).children ≠ [] → (s m).children ≠ [] :=
        fun m h1 h2 => h1 (hleaf m h2)
      rw [unlink_rnode]
      simp only [hedge, hep, hpnull, if_false]
      cases hkids : (splice_out s node e p).children with
      | nil => exact ⟨_, none, rfl, t1, hlab, i1, hleft, fun m _ => hleaf m⟩
      | cons c rest =>
        cases rest with
        | cons c2 rest2 => exact ⟨_, none, rfl, t1, hlab, i1, hleft, fun m _ => hleaf m⟩
        | nil =>
          simp only
          have hcp1 : parent_of (splice_out s node e) c = some p :=
            t1.child_parent p c hpin (by rw [hkids]; exact List.mem_singleton.2 rfl)
          -- what is left to show when the parent is the root
          have atroot : ∀ s2, p = root → (∀ m, (s2 m).label = (splice_out s node e m).label) →
              (∀ m, (s2 m).children = (splice_out s node e m).children) →
              (∀ m, m ≠ c → parent_of s2 m = parent_of (splice_out s node e) m) →
              (parent_of s2 c = none ∨ parent_of s2 c = some NULL) →
              ∃ s1 new_root, some (s2, some c) = some (s1, new_root) ∧
                tree_ranked s1 (new_root.getD root) depth rank ∧
                (∀ m, (s1 m).label = (s m).label) ∧
                (∀ m, in_tree s1 (new_root.getD root) m → in_tree s root m ∧ m ≠ node) ∧
                (∀ m, in_tree s root m → ¬ in_tree s1 (new_root.getD root) m →
                  m = node ∨ (s m).children ≠ []) ∧
                (∀ m, in_tree s1 (new_root.getD root) m → (s m).children = [] →
                  (s1 m).children = []) := by
            intro s2 hroot h1 h2 h3 h4
            rw [hroot] at hkids
            obtain ⟨t2, j1, j2⟩ :=
              reroot_step (splice_out s node e) s2 root depth c rank t1 hkids h2 h3 h4
            refine ⟨s2, some c, rfl, t2, fun m => by rw [h1, hlab], ?_, ?_, ?_⟩
            · intro m hm
              exact i1 m (j1 m hm).1
            · intro m hm hout
              by_cases hmn : m = node
              · exact Or.inl hmn
              · right
                have hm1 := i2 m hm hmn
                have hmr : m = root := by
                  by_contra hmr
                  exact hout (j2 m hm1 hmr)
                rw [hmr, ← hroot]
                exact hpkids
            · intro m _ hm
              rw [h2]
              exact hleaf m hm
          cases hpe : (splice_out s node e p).parent_edge with
          | none =>
            simp only
            have hroot : p = root := by
              by_contra hpr
              obtain ⟨q, _, _, hq⟩ := in_tree_edge _ root depth p ⟨rank, t1⟩ hpin hpr
              unfold parent_of at hq
              rw [hpe] at hq
              exact absurd hq (by simp)
            have hcp : c ≠ p := by
              intro h
              rw [h] at hcp1
              unfold parent_of at hcp1
              rw [hpe] at hcp1
              exact absurd hcp1 (by simp)
            apply atroot _ hroot
            · intro m
              by_cases hmc : m = c
              · rw [hmc, store.write_same]
              · rw [store.write_other _ _ _ _ hmc]
            · intro m
              by_cases hmc : m = c
              · rw [hmc, store.write_same]
              · rw [store.write_other _ _ _ _ hmc]
            · intro m hmc
              rw [parent_of_write_other _ _ _ _ hmc]
            · left
              rw [parent_of_write_same]
              rfl
          | some ep =>
            simp only
            have hpp : parent_of (splice_out s node e) p = some ep.parent_node := by
              unfold parent_of
              rw [hpe]
              rfl
            by_cases hnull : ep.parent_node = NULL
            · simp only [hnull, if_true]
              have hroot : p = root := by
                by_contra hpr
                obtain ⟨q, hq1, _, hq⟩ := in_tree_edge _ root depth p ⟨rank, t1⟩ hpin hpr
                rw [hpp, hnull] at hq
                simp only [Option.some.injEq] at hq
                exact t1.no_null (hq ▸ hq1)
              have hfields := reparent_fields NULL ep [c] (splice_out s node e)
              apply atroot _ hroot
              · exact fun m => (hfields m).1
              · exact fun m => (hfields m).2.1
              · intro m hmc
                rw [(hfields m).2.2]
                simp [hmc]
              · right
                rw [(hfields c).2.2, hcp1]
                simp
            · simp only [hnull, if_false]
              have hpr : p ≠ root := by
                intro h
                rw [h] at hpp
                rcases t1.root_edge with h1 | h1
                · rw [h1] at hpp
                  exact absurd hpp (by simp)
                · rw [h1] at hpp
                  simp only [Option.some.injEq] at hpp
                  exact hnull hpp.symm
              obtain ⟨s2, nr, r1, r2, r3, r4, r5, r6⟩ :=
                ih fuel1 (splice_out s node e) root depth p rank (by omega) t1 hpin hpr
                  (by omega)
              refine ⟨s2, nr, r1, r2, ?_, ?_, ?_, ?_⟩
              · intro m
                rw [r3, hlab]
              · intro m hm
                exact i1 m (r4 m hm).1
              · intro m hm hout
                by_cases hmn : m = node
                · exact Or.inl hmn
                · right
                  rcases r5 m (i2 m hm hmn) hout with h1 | h1
                  · rw [h1]
                    exact hpkids
                  · exact hkids0 m h1
              · intro m hm h0
                exact r6 m hm (hleaf m h0)

/-- The removal operation modelled from the specification meets the contract for trees of a
depth below its fuel. -/
theorem unlink_rnode_contract (fuel depth : Nat) (h : depth < fuel) :
    splicer_contract (unlink_rnode fuel) depth := by
  intro s root n ⟨rank, ht⟩ hin hne
  have hk : rank n ≤ depth := by
    cases hin with
    | root => exact absurd rfl hne
    | child q c hq hc1 => exact (ht.ranked q n hq hc1).2
  obtain ⟨s1, nr, r1, r2, r3⟩ :=
    unlink_rnode_spec depth fuel s root depth n rank h ht hin hne hk
  exact ⟨s1, nr, r1, ⟨rank, r2⟩, r3⟩

/-- A store that passes `tree_check` on the nodes of a list meets the invariants of a tree,
and the nodes of the tree are the nodes of the list. -/
theorem tree_ok_of_check (s : store) (root depth : Nat) (rank : Nat → Nat) (nodes : List Nat)
    (hc : tree_check s root depth rank nodes = true) :
    tree_ok s root depth ∧ ∀ n, in_tree s root n ↔ n ∈ nodes := by
  unfold tree_check at hc
  simp only [Bool.and_eq_true, Bool.or_eq_true, decide_eq_true_eq, List.all_eq_true] at hc
  obtain ⟨⟨⟨⟨c1, c2⟩, c3⟩, c4⟩, c5⟩ := hc
  have hlist : ∀ n, in_tree s root n → n ∈ nodes := by
    intro n h
    induction h with
    | root => exact c1
    | child p c _ hc1 ih => exact (c4 p ih c hc1).1.1.1
  have hrank : ∀ r n, rank n ≤ r → n ∈ nodes → in_tree s root n := by
    intro r
    induction r with
    | zero =>
      intro n hr hn
      rcases c5 n hn with h | h
      · rw [h]
        exact in_tree.root
      · cases hp : parent_of s n with
        | none => rw [hp] at h; exact absurd h (by simp)
        | some p =>
          rw [hp] at h
          simp only [Bool.and_eq_true, decide_eq_true_eq] at h
          have := (c4 p h.1 n h.2).1.2
          omega
    | succ r ih =>
      intro n hr hn
      rcases c5 n hn with h | h
      · rw [h]
        exact in_tree.root
      · cases hp : parent_of s n with
        | none => rw [hp] at h; exact absurd h (by simp)
        | some p =>
          rw [hp] at h
          simp only [Bool.and_eq_true, decide_eq_true_eq] at h
          have := (c4 p h.1 n h.2).1.2
          exact in_tree.child p n (ih p (by omega) h.1) h.2
  refine ⟨⟨rank, ⟨c3, fun h => c2 (hlist _ h), ?_, ?_⟩⟩, fun n => ⟨hlist n, hrank _ n le_rfl⟩⟩
  · intro p c hp hc1
    exact (c4 p (hlist p hp) c hc1).1.1.2
  · intro p c hp hc1
    exact ⟨(c4 p (hlist p hp) c hc1).1.2, (c4 p (hlist p hp) c hc1).2⟩

theorem bins_check_from_spec (n : Nat) (bins : List (llist key_val_pair)) (i0 : Nat)
    (h : bins_check_from n i0 bins = true) (j : Nat) (bin : llist key_val_pair)
    (hb : bins[j]? = some bin) (p : key_val_pair) (hp : p ∈ bin) :
    ∃ k, p.key = some k ∧ hash_func k % n = i0 + j := by
  induction bins generalizing i0 j with
  | nil => simp at hb
  | cons b rest ih =>
    unfold bins_check_from at h
    simp only [Bool.and_eq_true, List.all_eq_true] at h
    cases j with
    | zero =>
      simp only [List.getElem?_cons_zero, Option.some.injEq] at hb
      subst hb
      have := h.1 p hp
      cases hk : p.key with
      | none => rw [hk] at this; exact absurd this (by simp)
      | some k =>
        rw [hk] at this
        exact ⟨k, rfl, by simpa using this⟩
    | succ j =>
      simp only [List.getElem?_cons_succ] at hb
      obtain ⟨k, e1, e2⟩ := ih (i0 + 1) h.2 j hb
      exact ⟨k, e1, by omega⟩

/-- A table that passes the checks is an index in order. -/
theorem index_ok_of_check (kept : hash) (h1 : 1 ≤ kept.size) (h2 : kept.size ≤ 2 ^ 31)
    (hc : bins_check_from kept.size 0 kept.bins = true)
    (hv : ∀ p ∈ kept.bins.flatten, p.value ≠ NULL) : index_ok kept := by
  refine ⟨h1, h2, ?_, ?_, hv⟩
  · intro p hp
    obtain ⟨bin, hbin, hpb⟩ := List.mem_flatten.1 hp
    obtain ⟨i, hi, hget⟩ := List.getElem_of_mem hbin
    have hb : kept.bins[i]? = some bin := by
      rw [List.getElem?_eq_getElem hi, hget]
    obtain ⟨k, e1, _⟩ := bins_check_from_spec _ _ 0 hc i bin hb p hpb
    rw [e1]
    simp
  · intro i bin hb p hp
    obtain ⟨k, e1, e2⟩ := bins_check_from_spec _ _ 0 hc i bin hb p hp
    exact ⟨k, e1, by omega⟩

/-! ## Lemmas on trim.c: the command line -/

/-- Whenever `get_params` of `trim.c` returns, the depth type it returns is `DEPTH_DISTANCE`. -/
theorem get_params_never_ancestors (fopen : String → Bool) (argv : List String)
    (r : parameters × Option String) (h : get_params fopen argv = outcome.returns r) :
    r.1.depth_type = depth_type.DEPTH_DISTANCE := by
  unfold get_params at h
  simp only at h
  split at h
  · next opt_char st heq =>
    unfold get_params_case_a get_params_case_h at h
    split at h
    · exact absurd h (by simp)
    · split at h <;> exact absurd h (by simp)
  · next st heq =>
    split at h
    · split at h
      · split at h
        · exact absurd h (by simp)
        · simp only [outcome.returns.injEq] at h
          rw [← h]
      · exact absurd h (by simp)
    · exact absurd h (by simp)

/-! ## Lemmas on match.c: the index of labels modelled from the specification -/

theorem bin_replace_mem (key : Key) (v : Value) (bin bin1 : llist key_val_pair)
    (h : bin_replace key v bin = some (some bin1)) :
    ∀ p ∈ bin1, p ∈ bin ∨ (p.key = some key ∧ p.value = v) := by
  induction bin generalizing bin1 with
  | nil => simp [bin_replace] at h
  | cons q rest ih =>
    cases hk : q.key with
    | none => simp [bin_replace, hk] at h
    | some k1 =>
      by_cases e : key = k1
      · simp only [bin_replace, hk, e, if_true, Option.some.injEq] at h
        subst h
        intro p hp
        rcases List.mem_cons.1 hp with h1 | h1
        · right
          rw [h1]
          exact ⟨by simp [e], rfl⟩
        · left
          exact List.mem_cons_of_mem _ h1
      · simp only [bin_replace, hk, e, if_false] at h
        cases hr : bin_replace key v rest with
        | none => simp [hr] at h
        | some r =>
          cases r with
          | none => simp [hr] at h
          | some r1 =>
            simp only [hr, Option.some.injEq] at h
            subst h
            intro p hp
            rcases List.mem_cons.1 hp with h1 | h1
            · left
              rw [h1]
              exact List.mem_cons_self _ _
            · rcases ih r1 hr p h1 with h2 | h2
              · left
                exact List.mem_cons_of_mem _ h2
              · right
                exact h2

theorem mem_flatten_set (bins : List (llist key_val_pair)) (i : Nat)
    (b1 : llist key_val_pair) (p : key_val_pair)
    (hp : p ∈ (bins.set i b1).flatten) : p ∈ b1 ∨ p ∈ bins.flatten := by
  obtain ⟨bin, hbin, hpb⟩ := List.mem_flatten.1 hp
  obtain ⟨j, hj, hget⟩ := List.getElem_of_mem hbin
  rw [List.getElem_set] at hget
  split at hget
  · left
    rw [hget]
    exact hpb
  · right
    rw [List.length_set] at hj
    exact List.mem_flatten.2 ⟨bin, by rw [← hget]; exact List.getElem_mem _, hpb⟩

/-- One `hash_set` of a value other than `NULL` in a fixed-size index that is in order: the
index stays in order, holds the key, and holds besides it the keys it held. -/
theorem hash_set_index (h : hash) (k : Key) (v : Value)
    (ht : h.type = hash_type.HASH_FIXED) (hi : index_ok h) (hv : v ≠ NULL) :
    ∃ h', hash_set [] h k v = some (status.SUCCESS, h', []) ∧
      h'.type = hash_type.HASH_FIXED ∧ h'.size = h.size ∧ index_ok h' ∧
      (∀ k1, some k1 ∈ stored_keys h' ↔ k1 = k ∨ some k1 ∈ stored_keys h) := by
  obtain ⟨h1, h2, hn, hp, hval⟩ := hi
  have hlt : hash_func k % h.size < h.size := Nat.mod_lt _ h1
  have hb : h.bins[hash_func k % h.size]? = some h.bins[hash_func k % h.size] :=
    List.getElem?_eq_getElem hlt
  have hok : bin_ok h.bins[hash_func k % h.size] :=
    fun p hp1 => hn p (mem_flatten_of_getElem? hb hp1)
  obtain ⟨r, hr⟩ := bin_replace_total k v _ hok
  have hrun : ∀ x, insert_at [] h ((hash_func k % h.size : Nat) : Int) k v = x →
      hash_set [] h k v = x := by
    intro x hx
    simp only [hash_set, hash_code_spec h k h1 h2, maybe_resize_fixed [] h ht]
    exact hx
  cases r with
  | some bin1 =>
    obtain ⟨_, _, g3, _, g5⟩ := bin_replace_some_get k v _ bin1 hr
    have gm := bin_replace_mem k v _ bin1 hr
    have hkeys := flatten_set_keys h.bins _ _ bin1 hb g3
    refine ⟨{ h with bins := h.bins.set (hash_func k % h.size) bin1 }, ?_, ht, ?_, ?_, ?_⟩
    · apply hrun
      rw [insert_at, get_bin_natCast, hb]
      simp only [hr, Int.toNat_ofNat]
    · simp [hash.size]
    · refine ⟨by simpa [hash.size] using h1, by simpa [hash.size] using h2, ?_, ?_, ?_⟩
      · intro p hp1
        rcases mem_flatten_set h.bins _ bin1 p hp1 with h3 | h3
        · rcases gm p h3 with h4 | h4
          · exact hok p h4
          · rw [h4.1]; simp
        · exact hn p h3
      · intro i bin hbi p hp1
        simp only [hash.size, List.length_set] at hbi ⊢
        rw [List.getElem?_set] at hbi
        split at hbi
        · next heq =>
          split at hbi
          · simp only [Option.some.injEq] at hbi
            subst hbi
            rcases gm p hp1 with h4 | h4
            · rw [← heq]
              exact hp _ _ hb p h4
            · exact ⟨k, h4.1, heq⟩
          · exact absurd hbi (by simp)
        · exact hp i bin hbi p hp1
      · intro p hp1
        rcases mem_flatten_set h.bins _ bin1 p hp1 with h3 | h3
        · rcases gm p h3 with h4 | h4
          · exact hval p (mem_flatten_of_getElem? hb h4)
          · rw [h4.2]; exact hv
        · exact hval p h3
    · intro k1
      have : stored_keys { h with bins := h.bins.set (hash_func k % h.size) bin1 } =
          stored_keys h := hkeys
      rw [this]
      constructor
      · exact fun h3 => Or.inr h3
      · rintro (h3 | h3)
        · rw [h3]
          obtain ⟨q, hq, hqk⟩ := List.mem_map.1 g5
          exact List.mem_map.2 ⟨q, mem_flatten_of_getElem? hb hq, hqk⟩
        · exact h3
  | none =>
    obtain ⟨_, g2, _, _⟩ := bin_replace_none_get k v _ hr
    have hperm := flatten_set_perm h.bins _ _ { key := some k, value := v } hb
    refine ⟨{ h with bins := h.bins.set (hash_func k % h.size)
                       (h.bins[hash_func k % h.size] ++ [{ key := some k, value := v }]),
                     count := h.count + 1 }, ?_, ht, ?_, ?_, ?_⟩
    · apply hrun
      rw [insert_at, get_bin_natCast, hb]
      simp only [hr, malloc, Int.toNat_ofNat, if_true]
    · simp [hash.size]
    · refine ⟨by simpa [hash.size] using h1, by simpa [hash.size] using h2, ?_, ?_, ?_⟩
      · intro p hp1
        have := hperm.mem_iff.1 hp1
        rcases List.mem_append.1 this with h3 | h3
        · exact hn p h3
        · rw [List.mem_singleton.1 h3]; simp
      · intro i bin hbi p hp1
        simp only [hash.size, List.length_set] at hbi ⊢
        rw [List.getElem?_set] at hbi
        split at hbi
        · next heq =>
          split at hbi
          · simp only [Option.some.injEq] at hbi
            subst hbi
            rcases List.mem_append.1 hp1 with h4 | h4
            · rw [← heq]
              exact hp _ _ hb p h4
            · rw [List.mem_singleton.1 h4]
              exact ⟨k, rfl, heq⟩
          · exact absurd hbi (by simp)
        · exact hp i bin hbi p hp1
      · intro p hp1
        have := hperm.mem_iff.1 hp1
        rcases List.mem_append.1 this with h3 | h3
        · exact hval p h3
        · rw [List.mem_singleton.1 h3]; exact hv
    · intro k1
      have hk := (hperm.map key_val_pair.key).mem_iff (a := some k1)
      simp only [List.map_append, List.map_cons, List.map_nil, List.mem_append,
        List.mem_singleton, Option.some.injEq] at hk
      show some k1 ∈ List.map key_val_pair.key _ ↔ _
      rw [hk]
      constructor
      · rintro (h3 | h3)
        · exact Or.inr h3
        · exact Or.inl h3
      · rintro (h3 | h3)
        · exact Or.inr h3
        · exact Or.inl h3

/-- A run of `hash_set` calls with values other than `NULL` in a fixed-size index that is in
order: the index stays in order and holds the keys set, besides the keys it held. -/
theorem hash_set_all_index (kvs : List (Key × Value)) (h : hash)
    (ht : h.type = hash_type.HASH_FIXED) (hi : index_ok h)
    (hv : ∀ kv ∈ kvs, kv.2 ≠ NULL) :
    ∃ h', hash_set_all h kvs = some h' ∧ h'.type = hash_type.HASH_FIXED ∧ index_ok h' ∧
      (∀ k1, some k1 ∈ stored_keys h' ↔ k1 ∈ kvs.map Prod.fst ∨ some k1 ∈ stored_keys h) := by
  induction kvs generalizing h with
  | nil => exact ⟨h, rfl, ht, hi, fun k1 => by simp⟩
  | cons kv rest ih =>
    obtain ⟨k, v⟩ := kv
    obtain ⟨ha, hset, hta, _, hia, hka⟩ :=
      hash_set_index h k v ht hi (hv (k, v) (List.mem_cons_self _ _))
    obtain ⟨hb, hrun, htb, hib, hkb⟩ :=
      ih ha hta hia (fun kv hkv => hv kv (List.mem_cons_of_mem _ hkv))
    refine ⟨hb, by simp [hash_set_all, hset, hrun], htb, hib, ?_⟩
    intro k1
    rw [hkb, hka]
    simp only [List.map_cons, List.mem_cons]
    tauto

/-- The index modelled from the specification, built from a list of at least 1 and at most
`2^31` nodes none of which is at the address `NULL`: it is in order, and the labels it holds
are the labels of the nodes of the list. -/
theorem create_label2node_map_spec (s : store) (nodes : llist Nat) (h1 : 1 ≤ nodes.length)
    (h2 : nodes.length ≤ 2 ^ 31) (h0 : ∀ n ∈ nodes, n ≠ NULL) :
    ∃ kept, create_label2node_map s nodes = some kept ∧ index_ok kept ∧
      ∀ k, some k ∈ stored_keys kept ↔ ∃ n ∈ nodes, k = c_string (s n).label := by
  have hi0 : index_ok
      { bins := List.replicate nodes.length [], count := 0, type := hash_type.HASH_FIXED,
        load_threshold := 0, resize_factor := 0 } := by
    refine ⟨by simpa [hash.size] using h1, by simpa [hash.size] using h2,
      no_null_key_replicate _ _ _ _ _, ?_, ?_⟩
    · simpa [hash.size] using bins_placed_replicate nodes.length nodes.length
    · simp [flatten_replicate_nil]
  obtain ⟨kept, hrun, _, hik, hkeys⟩ := hash_set_all_index
    (nodes.map (fun n => (c_string (s n).label, n))) _ rfl hi0
    (by
      intro kv hkv
      obtain ⟨n, hn, rfl⟩ := List.mem_map.1 hkv
      exact h0 n hn)
  refine ⟨kept, ?_, hik, ?_⟩
  · unfold create_label2node_map
    rw [create_hash_nil]
    exact hrun
  · intro k
    rw [hkeys]
    simp only [List.map_map, List.mem_map, Function.comp, stored_keys_replicate]
    constructor
    · rintro (⟨n, hn, rfl⟩ | h3)
      · exact ⟨n, hn, rfl⟩
      · exact absurd h3 (List.not_mem_nil _)
    · rintro ⟨n, hn, rfl⟩
      exact Or.inl ⟨n, hn, rfl⟩

/-- The index modelled from the specification finds the label of every node of the list it is
built from, with a node other than `NULL`. -/
theorem create_label2node_map_finds (s : store) (nodes : llist Nat) (h1 : 1 ≤ nodes.length)
    (h2 : nodes.length ≤ 2 ^ 31) (h0 : ∀ n ∈ nodes, n ≠ NULL) :
    ∃ kept, create_label2node_map s nodes = some kept ∧
      ∀ n ∈ nodes, ∃ v, hash_get kept (c_string (s n).label) = some v ∧ v ≠ NULL := by
  obtain ⟨kept, hrun, hi, hk⟩ := create_label2node_map_spec s nodes h1 h2 h0
  refine ⟨kept, hrun, ?_⟩
  intro n hn
  obtain ⟨v, hv, hnull⟩ := hash_get_index kept (c_string (s n).label) hi
  refine ⟨v, hv, ?_⟩
  intro h
  exact (hnull.1 h) ((hk _).2 ⟨n, hn, rfl⟩)

/-! ## Lemmas on trim.c: the calls of `trim` -/

/-- The three ways of the loop body of `process_tree`: the node inherits the mark of its
parent; `trim` is applied to it; or it is kept as it is, with its depths. -/
theorem node_result_cases (params : parameters) (r0 r : rnode) (e : redge) (pd : node_data)
    (h : node_result params r0 e pd = some r) :
    (pd.trimmed = true ∧
      r = { r0 with
            data := some { trimmed := true, ancestry_depth := none,
                           distance_depth := none } }) ∨
    (pd.trimmed = false ∧ ∃ d a, pd.distance_depth = some d ∧ pd.ancestry_depth = some a ∧
      ((to_trim params (atof e.length_as_string + d) (1 + a) = true ∧
        r = { label := r0.label, children := [],
              parent_edge := some
                { parent_node := e.parent_node, length := atof e.length_as_string,
                  length_as_string :=
                    masprintf_g (atof e.length_as_string -
                      (atof e.length_as_string + d - params.threshold)) },
              data := some { trimmed := true, ancestry_depth := some (1 + a),
                             distance_depth := some (atof e.length_as_string + d) } }) ∨
       (to_trim params (atof e.length_as_string + d) (1 + a) = false ∧
        r = { r0 with
              parent_edge := some { e with length := atof e.length_as_string },
              data := some { trimmed := false, ancestry_depth := some (1 + a),
                             distance_depth := some (atof e.length_as_string + d) } }))) := by
  unfold node_result at h
  cases ht : pd.trimmed with
  | true =>
    simp only [ht, if_true, Option.some.injEq] at h
    exact Or.inl ⟨rfl, h.symm⟩
  | false =>
    simp only [ht, Bool.false_eq_true, if_false] at h
    cases hd : pd.distance_depth with
    | none => simp [hd] at h
    | some d =>
      cases ha : pd.ancestry_depth with
      | none => simp [hd, ha] at h
      | some a =>
        simp only [hd, ha] at h
        refine Or.inr ⟨rfl, d, a, rfl, rfl, ?_⟩
        cases hx : to_trim params (atof e.length_as_string + d) (1 + a) with
        | true =>
          simp only [hx, if_true, Option.some.injEq] at h
          exact Or.inl ⟨rfl, h.symm⟩
        | false =>
          simp only [hx, Bool.false_eq_true, if_false, Option.some.injEq] at h
          exact Or.inr ⟨rfl, h.symm⟩

theorem trim_frame (params : parameters) (s s1 : store) (node : Nat)
    (h : trim s node params = some s1) : ∀ m, m ≠ node → s1 m = s m := by
  unfold trim at h
  cases hd : (s node).data with
  | none => simp [hd] at h
  | some nd =>
    cases hdd : nd.distance_depth with
    | none => simp [hd, hdd] at h
    | some dd =>
      cases he : (s node).parent_edge with
      | none => simp [hd, hdd, he] at h
      | some e =>
        simp only [hd, hdd, he, Option.some.injEq] at h
        intro m hm
        rw [← h, store.write_other _ _ _ _ hm]

/-- The loop body of `process_tree` writes to the node visited only. -/
theorem visit_frame (params : parameters) (s s1 : store) (node : Nat)
    (h : visit params s node = some s1) : ∀ m, m ≠ node → s1 m = s m := by
  cases he : (s node).parent_edge with
  | none => simp [visit, he] at h
  | some e =>
    cases hp : (s e.parent_node).data with
    | none => simp [visit, he, hp] at h
    | some pd =>
      rw [visit_eq params s node e pd he hp] at h
      cases hr : node_result params (s node) e pd with
      | none => simp [hr] at h
      | some r =>
        simp only [hr, Option.map_some', Option.some.injEq] at h
        intro m hm
        rw [← h, store.write_other _ _ _ _ hm]

theorem visit_all_frame (params : parameters) (l : List Nat) :
    ∀ (s s1 : store), visit_all params s l = some s1 → ∀ m, m ∉ l → s1 m = s m := by
  induction l with
  | nil =>
    intro s s1 h m _
    simp only [visit_all, Option.some.injEq] at h
    rw [h]
  | cons x rest ih =>
    intro s s1 h m hm
    simp only [List.mem_cons, not_or] at hm
    cases hv : visit params s x with
    | none => simp [visit_all, hv] at h
    | some s2 =>
      simp only [visit_all, hv] at h
      rw [ih s2 s1 h m hm.2, visit_frame params s s2 x hv m hm.1]

theorem calls_trim_iff (params : parameters) (s : store) (node : Nat) (e : redge)
    (pd : node_data) (he : (s node).parent_edge = some e)
    (hp : (s e.parent_node).data = some pd) :
    calls_trim params s node = true ↔
      pd.trimmed = false ∧ ∃ d a, pd.distance_depth = some d ∧ pd.ancestry_depth = some a ∧
        to_trim params (atof e.length_as_string + d) (1 + a) = true := by
  unfold calls_trim
  simp only [he, hp]
  cases ht : pd.trimmed with
  | true => simp
  | false =>
    cases hd : pd.distance_depth with
    | none => simp
    | some d =>
      cases ha : pd.ancestry_depth with
      | none => simp
      | some a => simp

/-- The calls of `trim` in the loop of `process_tree`: the nodes `A`, visited last to first
after the nodes `D`; `trim` is called for the nodes of `A` that meet `trim_applies`. -/
theorem trim_calls_spec (params : parameters) (s0 : store) (root : Nat) (A : List Nat) :
    ∀ (D : List Nat) (s : store), root ∈ D → (A ++ D).Nodup →
      parents_later s0 (A ++ D) = true → visited_inv params s0 root D s →
      ∃ s1 calls, visit_all params s A.reverse = some s1 ∧
        trim_calls params s A.reverse = some calls ∧
        ∀ n, n ∈ calls ↔ n ∈ A ∧ trim_applies params s0 s1 n := by
  induction A using List.reverseRecOn with
  | nil =>
    intro D s _ _ _ _
    exact ⟨s, [], rfl, rfl, by simp⟩
  | append_singleton A x ih =>
    intro D s hroot hnd hpl hinv
    have hD : D ≠ [] := List.ne_nil_of_mem hroot
    rw [List.append_assoc] at hnd hpl
    have hnd2 : (x :: D).Nodup := (List.nodup_append.1 hnd).2.1
    have hx : x ∉ D := (List.nodup_cons.1 hnd2).1
    have hxA : x ∉ A := fun h =>
      (List.nodup_append.1 hnd).2.2 h (List.mem_cons_self _ _)
    obtain ⟨e, he, hp⟩ := parents_later_head s0 x D (parents_later_suffix s0 A _ hpl) hD
    obtain ⟨s1, hv, hinv1⟩ := visited_inv_step params s0 s root x D hroot hx e he hp hinv
    obtain ⟨s2, calls, hv2, hc2, hmem⟩ :=
      ih (x :: D) s1 (List.mem_cons_of_mem _ hroot) hnd hpl hinv1
    obtain ⟨pd, hpd, _⟩ := hinv.data_ok _ hp
    have hsx : (s x).parent_edge = some e := by rw [hinv.frame x hx]; exact he
    have hpA : e.parent_node ∉ A := fun h =>
      (List.nodup_append.1 hnd).2.2 h (List.mem_cons_of_mem _ hp)
    have hpx : e.parent_node ≠ x := fun h => hx (h ▸ hp)
    have hp2 : (s2 e.parent_node).data = some pd := by
      rw [visit_all_frame params _ s1 s2 hv2 _ (by simpa using hpA),
        visit_frame params s s1 x hv _ hpx]
      exact hpd
    have hcx : calls_trim params s x = true ↔ trim_applies params s0 s2 x := by
      rw [calls_trim_iff params s x e pd hsx hpd]
      constructor
      · rintro ⟨h1, d, a, h2, h3, h4⟩
        exact ⟨e, pd, d, a, he, hp2, h1, h2, h3, h4⟩
      · rintro ⟨e1, pd1, d, a, g1, g2, g3, g4, g5, g6⟩
        rw [he] at g1
        simp only [Option.some.injEq] at g1
        subst g1
        rw [hp2] at g2
        simp only [Option.some.injEq] at g2
        subst g2
        exact ⟨g3, d, a, g4, g5, g6⟩
    refine ⟨s2, if calls_trim params s x then x :: calls else calls, ?_, ?_, ?_⟩
    · rw [List.reverse_append]
      simp only [List.reverse_cons, List.reverse_nil, List.nil_append, List.singleton_append,
        visit_all, hv]
      exact hv2
    · rw [List.reverse_append]
      simp only [List.reverse_cons, List.reverse_nil, List.nil_append, List.singleton_append,
        trim_calls, hv]
      have hc3 : trim_calls params s1 ([].append A.reverse) = some calls := hc2
      rw [hc3]
    · intro n
      by_cases hc : calls_trim params s x = true
      · rw [if_pos hc, List.mem_cons, hmem n, List.mem_append, List.mem_singleton]
        constructor
        · rintro (h | h)
          · exact ⟨Or.inr h, h ▸ hcx.1 hc⟩
          · exact ⟨Or.inl h.1, h.2⟩
        · rintro ⟨h | h, h2⟩
          · exact Or.inr ⟨h, h2⟩
          · exact Or.inl h
      · rw [if_neg hc, hmem n, List.mem_append, List.mem_singleton]
        constructor
        · rintro h
          exact ⟨Or.inl h.1, h.2⟩
        · rintro ⟨h | h, h2⟩
          · exact ⟨h, h2⟩
          · exact absurd (hcx.2 (h ▸ h2)) hc

/-- The C function `process_tree` on a well-formed tree, with the calls of `trim`: it is
defined, the store it leaves satisfies the invariant, and `trim` has been called for the
nodes of the order-listing, other than the root, that meet `trim_applies`. -/
theorem process_tree_trims_spec (params : parameters) (s : store) (t : rooted_tree)
    (hwf : well_formed s t) :
    ∃ s1 calls, process_tree s t params = some s1 ∧
      process_tree_trims s t params = some calls ∧
      visited_inv params s t.root t.nodes_in_order s1 ∧
      ∀ n, n ∈ calls ↔ n ∈ t.nodes_in_order ∧ n ≠ t.root ∧ trim_applies params s s1 n := by
  obtain ⟨s1, hp, hinv0⟩ := process_tree_spec params s t hwf
  obtain ⟨hnd, hlast, hpl, _⟩ := hwf
  obtain ⟨A, hA⟩ : ∃ A, t.nodes_in_order = A ++ [t.root] := by
    rcases List.eq_nil_or_concat t.nodes_in_order with h | ⟨A, b, h⟩
    · rw [h] at hlast; simp at hlast
    · rw [h] at hlast
      simp at hlast
      exact ⟨A, by rw [h, hlast]; simp⟩
  rw [hA] at hnd hpl
  have hinit : visited_inv params s t.root [t.root]
      (s.write t.root { (s t.root) with
        data := some { trimmed := false, ancestry_depth := some 0,
                       distance_depth := some 0 } }) := by
    refine ⟨?_, ?_, ?_, ?_⟩
    · intro n hn
      exact store.write_other _ _ _ _ (by simpa using hn)
    · exact store.write_same _ _ _
    · intro n hn hne
      exact absurd (List.mem_singleton.1 hn) hne
    · intro n hn
      rw [List.mem_singleton.1 hn, store.write_same]
      exact ⟨_, rfl, fun _ => ⟨_, _, rfl, rfl⟩⟩
  obtain ⟨s2, calls, hv, hc, hmem⟩ := trim_calls_spec params s t.root A [t.root] _
    (List.mem_singleton_self _) hnd hpl hinit
  have hp2 : process_tree s t params = some s2 := by
    unfold process_tree
    rw [hA, List.reverse_append]
    simpa using hv
  have hs : s2 = s1 := by
    rw [hp] at hp2
    exact (Option.some.inj hp2).symm
  subst hs
  refine ⟨s2, calls, hp, ?_, hinv0, ?_⟩
  · unfold process_tree_trims
    rw [hA, List.reverse_append]
    simpa using hc
  · intro n
    have hrA : t.root ∉ A := fun h =>
      (List.nodup_append.1 hnd).2.2 h (List.mem_singleton_self _)
    rw [hmem n, hA, List.mem_append, List.mem_singleton]
    constructor
    · rintro ⟨h1, h2⟩
      exact ⟨Or.inl h1, fun h => hrA (h ▸ h1), h2⟩
    · rintro ⟨h1 | h1, h2, h3⟩
      · exact ⟨h1, h3⟩
      · exact absurd h1 h2

/-- No label is changed by `process_tree`. -/
theorem visited_label (params : parameters) (s0 s1 : store) (root : Nat) (L : List Nat)
    (hinv : visited_inv params s0 root L s1) (n : Nat) : (s1 n).label = (s0 n).label := by
  by_cases hn : n ∈ L
  · by_cases hr : n = root
    · subst hr
      rw [hinv.root_rec]
    · obtain ⟨e, pd, _, _, _, g4⟩ := hinv.node_rec n hn hr
      rcases node_result_cases params _ _ e pd g4 with ⟨_, h⟩ | ⟨_, d, a, _, _, ⟨_, h⟩ | ⟨_, h⟩⟩ <;>
        rw [h]
  · rw [hinv.frame n hn]

/-- A node to which `trim` is applied: it is marked trimmed and has no children. -/
theorem visited_applied (params : parameters) (s0 s1 : store) (root : Nat) (L : List Nat)
    (hinv : visited_inv params s0 root L s1) (n : Nat) (hn : n ∈ L) (hr : n ≠ root)
    (ha : trim_applies params s0 s1 n) :
    (s1 n).children = [] ∧ ∃ nd, (s1 n).data = some nd ∧ nd.trimmed = true := by
  obtain ⟨e1, pd1, d1, a1, h1, h2, h3, h4, h5, h6⟩ := ha
  obtain ⟨e, pd, g1, _, g3, g4⟩ := hinv.node_rec n hn hr
  rw [h1] at g1
  simp only [Option.some.injEq] at g1
  subst g1
  rw [h2] at g3
  simp only [Option.some.injEq] at g3
  subst g3
  rcases node_result_cases params _ _ e1 pd1 g4 with ⟨ht, _⟩ | ⟨_, d, a, hd, ha, ⟨_, h⟩ | ⟨hx, _⟩⟩
  · rw [h3] at ht
    exact absurd ht (by decide)
  · rw [h]
    exact ⟨rfl, _, rfl, rfl⟩
  · rw [h4] at hd
    rw [h5] at ha
    simp only [Option.some.injEq] at hd ha
    subst hd
    subst ha
    rw [h6] at hx
    exact absurd hx (by decide)

/-- A node to which `trim` is not applied keeps its children and the text of its edge. -/
theorem visited_kept (params : parameters) (s0 s1 : store) (root : Nat) (L : List Nat)
    (hinv : visited_inv params s0 root L s1) (n : Nat)
    (ha : ¬ (n ∈ L ∧ n ≠ root ∧ trim_applies params s0 s1 n)) :
    (s1 n).children = (s0 n).children ∧
      (s1 n).parent_edge.map redge.length_as_string =
        (s0 n).parent_edge.map redge.length_as_string := by
  by_cases hn : n ∈ L
  · by_cases hr : n = root
    · subst hr
      rw [hinv.root_rec]
      exact ⟨rfl, rfl⟩
    · obtain ⟨e, pd, g1, _, g3, g4⟩ := hinv.node_rec n hn hr
      rcases node_result_cases params _ _ e pd g4 with
        ⟨_, h⟩ | ⟨ht, d, a, hd, had, ⟨hx, _⟩ | ⟨_, h⟩⟩
      · rw [h]
        exact ⟨rfl, rfl⟩
      · exact absurd ⟨hn, hr, e, pd, d, a, g1, g3, ht, hd, had, hx⟩ ha
      · rw [h, g1]
        exact ⟨rfl, rfl⟩
  · rw [hinv.frame n hn]
    exact ⟨rfl, rfl⟩

/-- A node whose parent is marked trimmed: only the mark is written to it, and `trim` is not
applied to it. -/
theorem visited_inherits (params : parameters) (s0 s1 : store) (root : Nat) (L : List Nat)
    (hinv : visited_inv params s0 root L s1) (n : Nat) (hn : n ∈ L) (hr : n ≠ root)
    (e : redge) (pd : node_data) (he : (s0 n).parent_edge = some e)
    (hpd : (s1 e.parent_node).data = some pd) (ht : pd.trimmed = true) :
    s1 n = { (s0 n) with
             data := some { trimmed := true, ancestry_depth := none,
                            distance_depth := none } } ∧
      ¬ trim_applies params s0 s1 n := by
  obtain ⟨e1, pd1, g1, _, g3, g4⟩ := hinv.node_rec n hn hr
  rw [he] at g1
  simp only [Option.some.injEq] at g1
  subst g1
  rw [hpd] at g3
  simp only [Option.some.injEq] at g3
  subst g3
  refine ⟨?_, ?_⟩
  · rcases node_result_cases params _ _ e pd g4 with ⟨_, h⟩ | ⟨hf, _⟩
    · exact h
    · rw [ht] at hf
      exact absurd hf (by decide)
  · rintro ⟨e2, pd2, d, a, h1, h2, h3, _⟩
    rw [he] at h1
    simp only [Option.some.injEq] at h1
    subst h1
    rw [hpd] at h2
    simp only [Option.some.injEq] at h2
    subst h2
    rw [ht] at h3
    exact absurd h3 (by decide)

/-- The depths that `process_tree` leaves in a node: if the node is not marked trimmed, or if
its parent is not, they are the length and the number of edges of the way up to the root. -/
theorem depth_of_data (params : parameters) (s0 s1 : store) (root : Nat) (L : List Nat)
    (hinv : visited_inv params s0 root L s1) (n : Nat) (d : ℚ) (a : Nat)
    (h : depth_of s0 root n d a) :
    n ∈ L → ∃ nd, (s1 n).data = some nd ∧
      (nd.trimmed = false →
        nd.distance_depth = some d ∧ nd.ancestry_depth = some (a : Int)) ∧
      (n ≠ root → ∀ e pd, (s0 n).parent_edge = some e →
        (s1 e.parent_node).data = some pd → pd.trimmed = false →
        nd.distance_depth = some d ∧ nd.ancestry_depth = some (a : Int)) := by
  induction h with
  | root =>
    intro _
    refine ⟨_, by rw [hinv.root_rec], fun _ => ⟨rfl, rfl⟩, fun h => absurd rfl h⟩
  | edge n e d a hne he _ ih =>
    intro hn
    obtain ⟨e1, pd, g1, g2, g3, g4⟩ := hinv.node_rec n hn hne
    rw [he] at g1
    simp only [Option.some.injEq] at g1
    subst g1
    obtain ⟨pnd, hpnd, hun, _⟩ := ih g2
    rw [g3] at hpnd
    simp only [Option.some.injEq] at hpnd
    subst hpnd
    have e1 : ∀ (x : ℚ), atof e.length_as_string + x = x + atof e.length_as_string :=
      fun x => add_comm _ _
    have e2 : (1 : Int) + (a : Int) = ((a + 1 : Nat) : Int) := by push_cast; ring
    rcases node_result_cases params _ _ e pd g4 with
      ⟨ht, h⟩ | ⟨ht, d1, a1, hd, had, ⟨_, h⟩ | ⟨_, h⟩⟩
    · refine ⟨_, by rw [h], fun hf => by simp at hf, ?_⟩
      intro _ e2 pd2 h1 h2 h3
      rw [he] at h1
      simp only [Option.some.injEq] at h1
      subst h1
      rw [g3] at h2
      simp only [Option.some.injEq] at h2
      subst h2
      rw [ht] at h3
      exact absurd h3 (by decide)
    · obtain ⟨k1, k2⟩ := hun ht
      rw [k1] at hd
      rw [k2] at had
      simp only [Option.some.injEq] at hd had
      subst hd
      subst had
      rw [h]
      refine ⟨_, rfl, fun _ => ⟨by rw [e1], by rw [e2]⟩, fun _ _ _ _ _ _ => ⟨by rw [e1], by rw [e2]⟩⟩
    · obtain ⟨k1, k2⟩ := hun ht
      rw [k1] at hd
      rw [k2] at had
      simp only [Option.some.injEq] at hd had
      subst hd
      subst had
      rw [h]
      refine ⟨_, rfl, fun _ => ⟨by rw [e1], by rw [e2]⟩, fun _ _ _ _ _ _ => ⟨by rw [e1], by rw [e2]⟩⟩

/-- Every node of a listing in which the parents come later, and which ends with the root, has
its way up to the root. -/
theorem depth_of_exists (s : store) (root : Nat) (l : List Nat) :
    parents_later s l = true → l.getLast? = some root →
      ∀ n ∈ l, ∃ d a, depth_of s root n d a := by
  induction l with
  | nil =>
    intro _ _ n hn
    exact absurd hn (List.not_mem_nil _)
  | cons x rest ih =>
    intro hpl hlast n hn
    by_cases hnr : n = root
    · subst hnr
      exact ⟨0, 0, depth_of.root⟩
    · by_cases hrest : rest = []
      · subst hrest
        simp only [List.getLast?_singleton, Option.some.injEq] at hlast
        simp only [List.mem_singleton] at hn
        exact absurd (hn.trans hlast) hnr
      · have hpl2 : parents_later s rest = true := parents_later_suffix s [x] rest hpl
        have hlast2 : rest.getLast? = some root := by
          obtain ⟨y, ys, hy⟩ := List.exists_cons_of_ne_nil hrest
          rw [← hlast, hy, List.getLast?_cons_cons]
        rcases List.mem_cons.1 hn with rfl | hn
        · obtain ⟨e, he, hp⟩ := parents_later_head s n rest hpl hrest
          obtain ⟨d, a, hd⟩ := ih hpl2 hlast2 _ hp
          exact ⟨_, _, depth_of.edge n e d a hnr he hd⟩
        · exact ih hpl2 hlast2 n hn
theorem well_formed_root_mem (s : store) (t : rooted_tree) (hwf : well_formed s t) :
    t.root ∈ t.nodes_in_order :=
  List.mem_of_getLast?_eq_some hwf.2.1

/-- In a well-formed tree a node is among the children of one listed node at most. -/
theorem child_parent_unique (s : store) (t : rooted_tree) (hwf : well_formed s t)
    (p q c : Nat) (hp : p ∈ t.nodes_in_order) (hq : q ∈ t.nodes_in_order)
    (hcp : c ∈ (s p).children) (hcq : c ∈ (s q).children) : p = q := by
  have h1 := (hwf.2.2.2 p hp c hcp).2.2
  have h2 := (hwf.2.2.2 q hq c hcq).2.2
  rw [h1] at h2
  exact Option.some.inj h2

theorem descends_inv (s : store) (m n : Nat) (h : descends s m n) :
    ∃ p, n ∈ (s p).children ∧ (p = m ∨ descends s m p) := by
  cases h with
  | child _ hc => exact ⟨m, hc, Or.inl rfl⟩
  | step p _ hp hc => exact ⟨p, hc, Or.inr hp⟩

theorem descends_listed (s : store) (t : rooted_tree) (hwf : well_formed s t) (m n : Nat)
    (hm : m ∈ t.nodes_in_order) (h : descends s m n) :
    n ∈ t.nodes_in_order ∧ n ≠ t.root := by
  induction h with
  | child c hc =>
    obtain ⟨h1, h2, _⟩ := hwf.2.2.2 m hm c hc
    exact ⟨h1, h2⟩
  | step p c _ hc ih =>
    obtain ⟨h1, h2, _⟩ := hwf.2.2.2 p ih.1 c hc
    exact ⟨h1, h2⟩

theorem descends_trans_child (s : store) (m p c : Nat) (h : p = m ∨ descends s m p)
    (hc : c ∈ (s p).children) : descends s m c := by
  rcases h with rfl | h
  · exact descends.child c hc
  · exact descends.step p c h hc

/-- Two proper ancestors of a node of a well-formed tree: they are the same node, or one is a
proper ancestor of the other. -/
theorem descends_comparable (s : store) (t : rooted_tree) (hwf : well_formed s t)
    (a b n : Nat) (ha : a ∈ t.nodes_in_order) (hb : b ∈ t.nodes_in_order)
    (h1 : descends s a n) :
    descends s b n → a = b ∨ descends s a b ∨ descends s b a := by
  induction h1 with
  | child c hc =>
    intro h2
    obtain ⟨q, hq, hqb⟩ := descends_inv s b c h2
    have hqL : q ∈ t.nodes_in_order := by
      rcases hqb with rfl | hqb
      · exact hb
      · exact (descends_listed s t hwf b q hb hqb).1
    have := child_parent_unique s t hwf a q c ha hqL hc hq
    subst this
    rcases hqb with rfl | hqb
    · exact Or.inl rfl
    · exact Or.inr (Or.inr hqb)
  | step p c hp hc ih =>
    intro h2
    have hpL : p ∈ t.nodes_in_order := (descends_listed s t hwf a p ha hp).1
    obtain ⟨q, hq, hqb⟩ := descends_inv s b c h2
    have hqL : q ∈ t.nodes_in_order := by
      rcases hqb with rfl | hqb
      · exact hb
      · exact (descends_listed s t hwf b q hb hqb).1
    have := child_parent_unique s t hwf p q c hpL hqL hc hq
    subst this
    rcases hqb with rfl | hqb
    · exact Or.inr (Or.inl hp)
    · exact ih hqb

/-- Below a node that is marked trimmed every node is marked trimmed: only the mark is written
to it, and `trim` is not applied to it. -/
theorem descends_trimmed (params : parameters) (s0 s1 : store) (t : rooted_tree)
    (hwf : well_formed s0 t) (hinv : visited_inv params s0 t.root t.nodes_in_order s1)
    (m n : Nat) (hm : m ∈ t.nodes_in_order) (md : node_data) (hmd : (s1 m).data = some md)
    (hmt : md.trimmed = true) (h : descends s0 m n) :
    s1 n = { (s0 n) with
             data := some { trimmed := true, ancestry_depth := none,
                            distance_depth := none } } ∧
      ¬ trim_applies params s0 s1 n := by
  have key : ∀ p c, p ∈ t.nodes_in_order → (∃ pd, (s1 p).data = some pd ∧ pd.trimmed = true) →
      c ∈ (s0 p).children →
      s1 c = { (s0 c) with
               data := some { trimmed := true, ancestry_depth := none,
                              distance_depth := none } } ∧
        ¬ trim_applies params s0 s1 c := by
    intro p c hp ⟨pd, hpd, hpt⟩ hc
    obtain ⟨hcL, hcr, hcp⟩ := hwf.2.2.2 p hp c hc
    cases he : (s0 c).parent_edge with
    | none => simp [parent_of, he] at hcp
    | some e =>
      have hpn : e.parent_node = p := by simpa [parent_of, he] using hcp
      exact visited_inherits params s0 s1 _ _ hinv c hcL hcr e pd he (by rw [hpn]; exact hpd) hpt
  induction h with
  | child c hc => exact key m c hm ⟨md, hmd, hmt⟩ hc
  | step p c hp hc ih =>
    have hpL : p ∈ t.nodes_in_order := (descends_listed s0 t hwf m p hm hp).1
    exact key p c hpL ⟨_, by rw [ih.1], rfl⟩ hc

theorem in_tree_listed (s : store) (t : rooted_tree) (hwf : well_formed s t) (n : Nat)
    (h : in_tree s t.root n) : n ∈ t.nodes_in_order := by
  induction h with
  | root => exact well_formed_root_mem s t hwf
  | child p c _ hc ih => exact (hwf.2.2.2 p ih c hc).1

/-- The nodes that can be reached from the root after `process_tree`: the nodes that could be
reached before and have no proper ancestor to which `trim` was applied. -/
theorem in_tree_after_iff (params : parameters) (s0 s1 : store) (t : rooted_tree)
    (hwf : well_formed s0 t) (hinv : visited_inv params s0 t.root t.nodes_in_order s1)
    (n : Nat) :
    in_tree s1 t.root n ↔
      in_tree s0 t.root n ∧
        ∀ m, m ∈ t.nodes_in_order → m ≠ t.root → trim_applies params s0 s1 m →
          ¬ descends s0 m n := by
  constructor
  · intro h
    induction h with
    | root =>
      refine ⟨in_tree.root, ?_⟩
      intro m hm _ _ hd
      exact (descends_listed s0 t hwf m _ hm hd).2 rfl
    | child p c _ hc ih =>
      obtain ⟨hr, hno⟩ := ih
      have hpL := in_tree_listed s0 t hwf p hr
      have hc0 := visited_children params s0 s1 _ _ hinv p hpL c hc
      refine ⟨in_tree.child p c hr hc0, ?_⟩
      intro m hm hmr hma hd
      obtain ⟨q, hq, hqm⟩ := descends_inv s0 m c hd
      have hqL : q ∈ t.nodes_in_order := by
        rcases hqm with rfl | hqm
        · exact hm
        · exact (descends_listed s0 t hwf m q hm hqm).1
      have := child_parent_unique s0 t hwf p q c hpL hqL hc0 hq
      subst this
      rcases hqm with rfl | hqm
      · rw [(visited_applied params s0 s1 _ _ hinv p hm hmr hma).1] at hc
        exact absurd hc (List.not_mem_nil _)
      · exact hno m hm hmr hma hqm
  · rintro ⟨h, hno⟩
    induction h with
    | root => exact in_tree.root
    | child p c hr hc ih =>
      have hpL := in_tree_listed s0 t hwf p hr
      have hp1 : in_tree s1 t.root p := by
        apply ih
        intro m hm hmr hma hd
        exact hno m hm hmr hma (descends.step p c hd hc)
      have hnot : ¬ (p ∈ t.nodes_in_order ∧ p ≠ t.root ∧ trim_applies params s0 s1 p) := by
        rintro ⟨h1, h2, h3⟩
        exact hno p h1 h2 h3 (descends.child c hc)
      refine in_tree.child p c hp1 ?_
      rw [(visited_kept params s0 s1 _ _ hinv p hnot).1]
      exact hc

/-- The condition `trim_applies` in terms of the depth of the node itself: the parent is not
marked trimmed, and the depth of the node, measured on its way up to the root, is above the
threshold. -/
theorem trim_applies_iff_depth (params : parameters) (s0 s1 : store) (t : rooted_tree)
    (hwf : well_formed s0 t) (hinv : visited_inv params s0 t.root t.nodes_in_order s1)
    (n : Nat) (hn : n ∈ t.nodes_in_order) (hr : n ≠ t.root) :
    trim_applies params s0 s1 n ↔
      ∃ e pd, (s0 n).parent_edge = some e ∧ (s1 e.parent_node).data = some pd ∧
        pd.trimmed = false ∧
        ∃ d a, depth_of s0 t.root n d a ∧ to_trim params d (a : Int) = true := by
  obtain ⟨e0, pd0, g1, g2, g3, _⟩ := hinv.node_rec n hn hr
  have e1 : ∀ (x : ℚ), atof e0.length_as_string + x = x + atof e0.length_as_string :=
    fun x => add_comm _ _
  have e2 : ∀ (a : Nat), (1 : Int) + (a : Int) = ((a + 1 : Nat) : Int) := by
    intro a; push_cast; ring
  constructor
  · rintro ⟨e, pd, d, a, h1, h2, h3, h4, h5, h6⟩
    rw [g1] at h1
    simp only [Option.some.injEq] at h1
    subst h1
    obtain ⟨dp, ap, hdep⟩ := depth_of_exists s0 t.root t.nodes_in_order hwf.2.2.1 hwf.2.1 _ g2
    obtain ⟨pnd, hpnd, hun, _⟩ := depth_of_data params s0 s1 _ _ hinv _ dp ap hdep g2
    rw [h2] at hpnd
    simp only [Option.some.injEq] at hpnd
    subst hpnd
    obtain ⟨k1, k2⟩ := hun h3
    rw [h4] at k1
    rw [h5] at k2
    simp only [Option.some.injEq] at k1 k2
    subst k1
    subst k2
    refine ⟨e0, pd, g1, h2, h3, _, _, depth_of.edge n e0 d ap hr g1 hdep, ?_⟩
    rw [← e1, ← e2]
    exact h6
  · rintro ⟨e, pd, h1, h2, h3, d, a, hdep, hx⟩
    rw [g1] at h1
    simp only [Option.some.injEq] at h1
    subst h1
    cases hdep with
    | root => exact absurd rfl hr
    | edge _ e d a _ he hdep =>
      rw [g1] at he
      simp only [Option.some.injEq] at he
      subst he
      obtain ⟨pnd, hpnd, hun, _⟩ := depth_of_data params s0 s1 _ _ hinv _ d a hdep g2
      rw [h2] at hpnd
      simp only [Option.some.injEq] at hpnd
      subst hpnd
      obtain ⟨k1, k2⟩ := hun h3
      refine ⟨e0, pd, d, a, g1, h2, h3, k1, k2, ?_⟩
      rw [e1, e2]
      exact hx

/-! ## Lemmas on match.c: `remove_branch_lengths` -/

/-- A listed node without parent edge: the loop of `remove_branch_lengths` reads the missing
edge. -/
theorem remove_branch_lengths_loop_none (r : Nat) (l : List Nat) :
    ∀ (s : store), r ∈ l → (s r).parent_edge = none →
      remove_branch_lengths_loop s l = none := by
  induction l with
  | nil =>
    intro s hr _
    exact absurd hr (List.not_mem_nil _)
  | cons x rest ih =>
    intro s hr he
    unfold remove_branch_lengths_loop
    cases hx : (s x).parent_edge with
    | none => rfl
    | some e =>
      have hxr : r ≠ x := by
        intro h
        rw [h, hx] at he
        exact absurd he (by simp)
      have hrest : r ∈ rest := by
        rcases List.mem_cons.1 hr with h | h
        · exact absurd h hxr
        · exact h
      simp only
      split
      · exact ih _ hrest (by rw [store.write_other _ _ _ _ hxr]; exact he)
      · exact ih s hrest he

/-- Where every listed node has a parent edge, the loop of `remove_branch_lengths` returns: the
text of the edge of every listed node is empty afterwards, and nothing else is changed. -/
theorem remove_branch_lengths_loop_spec (l : List Nat) :
    ∀ (s : store), (∀ n ∈ l, (s n).parent_edge ≠ none) →
      ∃ s1, remove_branch_lengths_loop s l = some s1 ∧
        (∀ n ∈ l, ∃ e, (s1 n).parent_edge = some e ∧
          e.length_as_string = length_text.empty) ∧
        (∀ n, n ∉ l → s1 n = s n) ∧
        ∀ n, (s1 n).label = (s n).label ∧ (s1 n).children = (s n).children ∧
          (s1 n).data = (s n).data ∧
          (s1 n).parent_edge.map (fun e => (e.parent_node, e.length)) =
            (s n).parent_edge.map (fun e => (e.parent_node, e.length)) ∧
          ((s n).parent_edge.map redge.length_as_string = some length_text.empty →
            s1 n = s n) := by
  induction l with
  | nil =>
    intro s _
    exact ⟨s, rfl, fun n hn => absurd hn (List.not_mem_nil _), fun _ _ => rfl,
      fun _ => ⟨rfl, rfl, rfl, rfl, fun _ => rfl⟩⟩
  | cons x rest ih =>
    intro s hall
    unfold remove_branch_lengths_loop
    cases hx : (s x).parent_edge with
    | none => exact absurd hx (hall x (List.mem_cons_self _ _))
    | some e =>
      simp only
      by_cases hne : e.length_as_string ≠ length_text.empty
      · rw [if_pos hne]
        have hall2 : ∀ n ∈ rest,
            ((s.write x { (s x) with
              parent_edge := some { e with length_as_string := length_text.empty } })
                n).parent_edge ≠ none := by
          intro n hn
          by_cases hnx : n = x
          · rw [hnx, store.write_same]
            simp
          · rw [store.write_other _ _ _ _ hnx]
            exact hall n (List.mem_cons_of_mem _ hn)
        obtain ⟨s1, h1, h2, h3, h4⟩ := ih _ hall2
        refine ⟨s1, h1, ?_, ?_, ?_⟩
        · intro n hn
          rcases List.mem_cons.1 hn with rfl | hn
          · by_cases hin : n ∈ rest
            · exact h2 n hin
            · rw [h3 n hin, store.write_same]
              exact ⟨_, rfl, rfl⟩
          · exact h2 n hn
        · intro n hn
          simp only [List.mem_cons, not_or] at hn
          rw [h3 n hn.2, store.write_other _ _ _ _ hn.1]
        · intro n
          obtain ⟨k1, k2, k3, k4, k5⟩ := h4 n
          by_cases hnx : n = x
          · subst hnx
            rw [store.write_same] at k1 k2 k3 k4 k5
            refine ⟨k1, k2, k3, by rw [k4, hx]; rfl, ?_⟩
            intro h
            rw [hx] at h
            simp only [Option.map_some', Option.some.injEq] at h
            exact absurd h hne
          · rw [store.write_other _ _ _ _ hnx] at k1 k2 k3 k4 k5
            exact ⟨k1, k2, k3, k4, k5⟩
      · rw [if_neg hne]
        obtain ⟨s1, h1, h2, h3, h4⟩ := ih s (fun n hn => hall n (List.mem_cons_of_mem _ hn))
        refine ⟨s1, h1, ?_, ?_, h4⟩
        · intro n hn
          rcases List.mem_cons.1 hn with rfl | hn
          · by_cases hin : n ∈ rest
            · exact h2 n hin
            · rw [h3 n hin]
              exact ⟨e, hx, not_not.1 hne⟩
          · exact h2 n hn
        · intro n hn
          simp only [List.mem_cons, not_or] at hn
          exact h3 n hn.2

/-- The C function `remove_branch_lengths` on a tree every listed node of which, the root
included, has a parent edge: it returns, and the text of the edge of every listed node is
empty afterwards. -/
theorem remove_branch_lengths_spec (s : store) (tree : rooted_tree)
    (h : ∀ n ∈ tree.nodes_in_order, (s n).parent_edge ≠ none) :
    ∃ s1, remove_branch_lengths s tree = some s1 ∧
      (∀ n ∈ tree.nodes_in_order, ∃ e, (s1 n).parent_edge = some e ∧
        e.length_as_string = length_text.empty) ∧
      ∀ n, n ∉ tree.nodes_in_order → s1 n = s n := by
  obtain ⟨s1, h1, h2, h3, _⟩ := remove_branch_lengths_loop_spec tree.nodes_in_order s h
  exact ⟨s1, h1, h2, h3⟩

/-! ## Lemmas on hash.c: any outcome of the allocations -/

theorem create_bins_some (n : Nat) :
    ∀ (a a1 : Alloc) (bs : List (llist key_val_pair)),
      create_bins n a = (some bs, a1) → bs = List.replicate n [] := by
  induction n with
  | zero =>
    intro a a1 bs h
    simp only [create_bins, Prod.mk.injEq, Option.some.injEq] at h
    rw [← h.1]
    rfl
  | succ n ih =>
    intro a a1 bs h
    unfold create_bins at h
    cases hm : malloc a with
    | mk ok a2 =>
      rw [hm] at h
      cases ok with
      | false => simp at h
      | true =>
        simp only at h
        cases hc : create_bins n a2 with
        | mk ob a3 =>
          rw [hc] at h
          cases ob with
          | none => simp at h
          | some bs1 =>
            simp only [Prod.mk.injEq, Option.some.injEq] at h
            rw [← h.1, ih a2 a3 bs1 hc]
            rfl

/-- The copying loop of `resize_hash`, whatever the allocations do: if it comes to its end, every
pair has been moved, none is lost or doubled. -/
theorem rehash_pairs_some (new_size : Nat) (ps : List key_val_pair) :
    ∀ (nb : List (llist key_val_pair)) (a a1 : Alloc) (nb1 : List (llist key_val_pair)),
      nb.length = new_size → rehash_pairs new_size ps nb a = some (some nb1, a1) →
      nb1.length = new_size ∧ nb1.flatten.Perm (nb.flatten ++ ps) := by
  induction ps with
  | nil =>
    intro nb a a1 nb1 hl h
    simp only [rehash_pairs, Option.some.injEq, Prod.mk.injEq] at h
    rw [← h.1]
    exact ⟨hl, by simp⟩
  | cons p rest ih =>
    intro nb a a1 nb1 hl h
    unfold rehash_pairs at h
    cases hp : p.key with
    | none => simp [hp] at h
    | some k =>
      simp only [hp] at h
      by_cases h0 : new_size = 0
      · simp [h0] at h
      · rw [if_neg h0] at h
        cases hm : malloc a with
        | mk ok a2 =>
          rw [hm] at h
          cases ok with
          | false => simp at h
          | true =>
            simp only at h
            have hi : hash_func k % new_size < nb.length := by
              rw [hl]; exact Nat.mod_lt _ (Nat.pos_of_ne_zero h0)
            obtain ⟨u1, u2⟩ := update_bin_spec nb _ p hi
            obtain ⟨r1, r2⟩ := ih _ a2 a1 nb1 (by rw [u1, hl]) h
            refine ⟨r1, r2.trans ?_⟩
            have := u2.append_right rest
            simpa using this

/-- The copying loop of `resize_hash` is defined, whatever the allocations do, when the new
size is not 0 and no key is `NULL`. -/
theorem rehash_pairs_defined (new_size : Nat) (h0 : new_size ≠ 0) (ps : List key_val_pair) :
    ∀ (nb : List (llist key_val_pair)) (a : Alloc), (∀ p ∈ ps, p.key ≠ none) →
      ∃ r, rehash_pairs new_size ps nb a = some r := by
  induction ps with
  | nil =>
    intro nb a _
    exact ⟨_, rfl⟩
  | cons p rest ih =>
    intro nb a hk
    unfold rehash_pairs
    cases hp : p.key with
    | none => exact absurd hp (hk p (List.mem_cons_self _ _))
    | some k =>
      simp only [if_neg h0]
      cases hm : malloc a with
      | mk ok a2 =>
        cases ok with
        | false => exact ⟨_, rfl⟩
        | true => exact ih _ a2 (fun q hq => hk q (List.mem_cons_of_mem _ hq))

/-- The C function `resize_hash`, whatever the allocations do: if it returns, the table is as
before, or it has the new number of bins and holds the same pairs; the other fields are as
before. -/
theorem resize_hash_some (a : Alloc) (h : hash) (new_size : Nat) (r : ℚ) (h1 : hash)
    (a1 : Alloc) (hr : resize_hash a h new_size = some (r, h1, a1)) :
    h1 = h ∨ ∃ nb1, h1 = { h with bins := nb1 } ∧ nb1.length = new_size ∧
      nb1.flatten.Perm h.bins.flatten := by
  unfold resize_hash at hr
  cases hm : malloc a with
  | mk ok a2 =>
    rw [hm] at hr
    cases ok with
    | false =>
      simp only [Option.some.injEq, Prod.mk.injEq] at hr
      exact Or.inl hr.2.1.symm
    | true =>
      simp only at hr
      cases hc : create_bins new_size a2 with
      | mk ob a3 =>
        rw [hc] at hr
        cases ob with
        | none =>
          simp only [Option.some.injEq, Prod.mk.injEq] at hr
          exact Or.inl hr.2.1.symm
        | some nb =>
          simp only at hr
          have hnb := create_bins_some new_size a2 a3 nb hc
          cases hp : rehash_pairs new_size h.bins.flatten nb a3 with
          | none => simp [hp] at hr
          | some res =>
            obtain ⟨ob2, a4⟩ := res
            rw [hp] at hr
            cases ob2 with
            | none =>
              simp only [Option.some.injEq, Prod.mk.injEq] at hr
              exact Or.inl hr.2.1.symm
            | some nb2 =>
              simp only [Option.some.injEq, Prod.mk.injEq] at hr
              obtain ⟨r1, r2⟩ := rehash_pairs_some new_size _ nb a3 a4 nb2
                (by rw [hnb]; simp) hp
              refine Or.inr ⟨nb2, hr.2.1.symm, r1, ?_⟩
              rw [hnb] at r2
              simpa [flatten_replicate_nil] using r2

/-- The C function `resize_hash` is defined, whatever the allocations do, when the new size is
not 0 and no key of the table is `NULL`. -/
theorem resize_hash_defined (a : Alloc) (h : hash) (new_size : Nat) (h0 : new_size ≠ 0)
    (hn : no_null_key h) : ∃ res, resize_hash a h new_size = some res := by
  unfold resize_hash
  cases hm : malloc a with
  | mk ok a2 =>
    cases ok with
    | false => exact ⟨_, rfl⟩
    | true =>
      simp only
      cases hc : create_bins new_size a2 with
      | mk ob a3 =>
        cases ob with
        | none => exact ⟨_, rfl⟩
        | some nb =>
          simp only
          obtain ⟨res, hres⟩ := rehash_pairs_defined new_size h0 h.bins.flatten nb a3 hn
          rw [hres]
          obtain ⟨ob2, a4⟩ := res
          cases ob2 with
          | none => exact ⟨_, rfl⟩
          | some nb2 => exact ⟨_, rfl⟩

/-- The resize step of `hash_set`, whatever the allocations do: if it returns, the table is as
before, or it is a table in dynamic mode that now has `resize_factor * size` bins (as an
`unsigned int`) and holds the same pairs. -/
theorem maybe_resize_some (a : Alloc) (h h1 : hash) (a1 : Alloc)
    (hr : maybe_resize a h = some (h1, a1)) :
    h1 = h ∨ (h.type = hash_type.HASH_DYNAMIC ∧
      ∃ nb1, h1 = { h with bins := nb1 } ∧
        nb1.length = (h.resize_factor * h.size) % 2 ^ 32 ∧
        nb1.flatten.Perm h.bins.flatten) := by
  unfold maybe_resize at hr
  by_cases hc : h.type = hash_type.HASH_DYNAMIC ∧ load_factor h ≥ h.load_threshold
  · rw [if_pos hc] at hr
    cases hres : resize_hash a h ((h.resize_factor * h.size) % 2 ^ 32) with
    | none =>
      rw [hres] at hr
      exact absurd hr (by simp)
    | some res =>
      obtain ⟨r, h2, a2⟩ := res
      rw [hres] at hr
      simp only [Option.some.injEq, Prod.mk.injEq] at hr
      rw [← hr.1]
      rcases resize_hash_some a h _ r h2 a2 hres with g | g
      · exact Or.inl g
      · exact Or.inr ⟨hc.1, g⟩
  · rw [if_neg hc] at hr
    simp only [Option.some.injEq, Prod.mk.injEq] at hr
    exact Or.inl hr.1.symm

/-- The resize step of `hash_set` is defined, whatever the allocations do, on a table without
`NULL` key that is in fixed mode or whose new size is not 0. -/
theorem maybe_resize_defined (a : Alloc) (h : hash) (hn : no_null_key h)
    (h0 : h.type = hash_type.HASH_DYNAMIC → (h.resize_factor * h.size) % 2 ^ 32 ≠ 0) :
    ∃ h1 a1, maybe_resize a h = some (h1, a1) := by
  unfold maybe_resize
  by_cases hc : h.type = hash_type.HASH_DYNAMIC ∧ load_factor h ≥ h.load_threshold
  · rw [if_pos hc]
    obtain ⟨res, hres⟩ := resize_hash_defined a h _ (h0 hc.1) hn
    obtain ⟨r, h2, a2⟩ := res
    rw [hres]
    exact ⟨h2, a2, rfl⟩
  · rw [if_neg hc]
    exact ⟨h, a, rfl⟩

/-- On a table of more than `2^31` bins made by `create_hash`, a key whose remainder is `2^31`
or more gets a negative bin index: the bin is read outside the array, by `hash_get` and by
`hash_set`. -/
theorem large_table_index (n : Nat) (k : Key) (h0 : n ≠ 0) (h1 : 2 ^ 31 ≤ hash_func k % n)
    (h2 : n < 2 ^ 32) :
    ∃ t code, create_hash [] n = (some t, []) ∧ t.size = n ∧
      t.type = hash_type.HASH_FIXED ∧ hash_code t k = some code ∧
      code = ((hash_func k % n : Nat) : Int) - 2 ^ 32 ∧ code < 0 ∧ get_bin t code = none ∧
      hash_get t k = none ∧ ∀ v, hash_set [] t k v = none := by
  have hlt : hash_func k % n < 2 ^ 32 := lt_trans (Nat.mod_lt _ (Nat.pos_of_ne_zero h0)) h2
  have hval : toInt32 ((hash_func k % n : Nat) : Int) =
      ((hash_func k % n : Nat) : Int) - 2 ^ 32 := by
    unfold toInt32
    norm_num at h1 hlt ⊢
    omega
  have hneg : ((hash_func k % n : Nat) : Int) - 2 ^ 32 < 0 := by
    norm_num at hlt ⊢
    omega
  have hs : ({ bins := List.replicate n [], count := 0, type := hash_type.HASH_FIXED,
               load_threshold := 0, resize_factor := 0 } : hash).size = n := by
    simp [hash.size]
  refine ⟨_, _, create_hash_nil n, hs, rfl, ?_, rfl, hneg, ?_, ?_, ?_⟩
  · rw [hash_code_of_size_ne_zero _ _ (by rw [hs]; exact h0), hs, hval]
  · simp only [get_bin, hneg, if_true]
  · exact hash_get_large_table _ _ (by rw [hs]; exact h0) (by rw [hs]; exact h1)
      (by rw [hs]; exact h2)
  · intro v
    exact hash_set_large_table _ _ _ (by rw [hs]; exact h0) (by rw [hs]; exact h1)
      (by rw [hs]; exact h2)

theorem toInt32_le (x : Int) (h0 : 0 ≤ x) : toInt32 x ≤ x := by
  unfold toInt32
  omega

/-- The index of a table of between 1 and `2^31` bins (in dynamic mode, with a
`resize_factor` of 1 or more and `resize_factor * size` at most `2^31`): it is inside the
array of bins, when `hash_get` reads the bin and when `hash_set` does, after the resize step,
whatever the allocations do. -/
theorem bin_index_in_bounds (a : Alloc) (h : hash) (key : Key)
    (h1 : 1 ≤ h.size) (h2 : h.size ≤ 2 ^ 31)
    (hd : h.type = hash_type.HASH_DYNAMIC →
      1 ≤ h.resize_factor ∧ h.resize_factor * h.size ≤ 2 ^ 31) :
    ∃ code, hash_code h key = some code ∧ 0 ≤ code ∧ (∃ bin, get_bin h code = some bin) ∧
      ∀ ht a1, maybe_resize a h = some (ht, a1) → ∃ bin, get_bin ht code = some bin := by
  have hlt : hash_func key % h.size < h.size := Nat.mod_lt _ h1
  have hbin : ∀ (t : hash), h.size ≤ t.size →
      ∃ bin, get_bin t ((hash_func key % h.size : Nat) : Int) = some bin := by
    intro t ht
    rw [get_bin_natCast]
    exact ⟨_, List.getElem?_eq_getElem (lt_of_lt_of_le hlt ht)⟩
  refine ⟨_, hash_code_spec h key h1 h2, Int.ofNat_nonneg _, hbin h (le_refl _), ?_⟩
  intro ht a1 hr
  apply hbin
  rcases maybe_resize_some a h ht a1 hr with g | ⟨gt, nb1, g1, g2, _⟩
  · rw [g]
  · obtain ⟨k1, k2⟩ := hd gt
    rw [g1]
    show h.size ≤ nb1.length
    rw [g2, Nat.mod_eq_of_lt (lt_of_le_of_lt k2 (by norm_num))]
    exact Nat.le_mul_of_pos_left _ k1

/-! ## Lemmas on hash.c: the field `count` -/

theorem flatten_length_set (bins : List (llist key_val_pair)) (i : Nat)
    (b b1 : llist key_val_pair) (hb : bins[i]? = some b) :
    (bins.set i b1).flatten.length + b.length = bins.flatten.length + b1.length := by
  induction bins generalizing i with
  | nil => simp at hb
  | cons c rest ih =>
    cases i with
    | zero =>
      simp only [List.getElem?_cons_zero, Option.some.injEq] at hb
      subst hb
      simp only [List.set_cons_zero, List.flatten_cons, List.length_append]
      omega
    | succ j =>
      simp only [List.getElem?_cons_succ] at hb
      have := ih j hb
      simp only [List.set_cons_succ, List.flatten_cons, List.length_append]
      omega

theorem bin_replace_length (key : Key) (v : Value) (bin : llist key_val_pair) :
    ∀ bin1, bin_replace key v bin = some (some bin1) → bin1.length = bin.length := by
  induction bin with
  | nil =>
    intro bin1 h
    simp [bin_replace] at h
  | cons p rest ih =>
    intro bin1 h
    unfold bin_replace at h
    cases hp : p.key with
    | none => simp [hp] at h
    | some k =>
      simp only [hp] at h
      by_cases hk : key = k
      · rw [if_pos hk] at h
        simp only [Option.some.injEq] at h
        rw [← h]
        rfl
      · rw [if_neg hk] at h
        cases hr : bin_replace key v rest with
        | none => simp [hr] at h
        | some r =>
          cases r with
          | none => simp [hr] at h
          | some rest1 =>
            simp only [hr, Option.some.injEq] at h
            rw [← h, List.length_cons, List.length_cons, ih rest1 hr]

/-- The part of `hash_set` after the resize step keeps `count` equal to the number of pairs,
whatever the allocations do. -/
theorem insert_at_count (a1 : Alloc) (h1 : hash) (code : Int) (key : Key) (value : Value)
    (st : status) (h2 : hash) (a2 : Alloc) (hc : h1.count = h1.bins.flatten.length)
    (hr : insert_at a1 h1 code key value = some (st, h2, a2)) :
    h2.count = h2.bins.flatten.length := by
  unfold insert_at at hr
  cases hb : get_bin h1 code with
  | none => simp [hb] at hr
  | some bin =>
    have hget : h1.bins[code.toNat]? = some bin := by
      unfold get_bin at hb
      by_cases hneg : code < 0
      · simp [hneg] at hb
      · simpa [hneg] using hb
    simp only [hb] at hr
    cases hrep : bin_replace key value bin with
    | none => simp [hrep] at hr
    | some r =>
      cases r with
      | some bin1 =>
        simp only [hrep, Option.some.injEq, Prod.mk.injEq] at hr
        rw [← hr.2.1]
        have := flatten_length_set h1.bins code.toNat bin bin1 hget
        have hl := bin_replace_length key value bin bin1 hrep
        show h1.count = (h1.bins.set code.toNat bin1).flatten.length
        omega
      | none =>
        simp only [hrep] at hr
        cases hm : malloc a1 with
        | mk ok a3 =>
          rw [hm] at hr
          cases ok with
          | false =>
            simp only [Option.some.injEq, Prod.mk.injEq] at hr
            rw [← hr.2.1]
            exact hc
          | true =>
            simp only at hr
            cases hm2 : malloc (malloc a3).2 with
            | mk ok2 a4 =>
              rw [hm2] at hr
              cases ok2 with
              | false =>
                simp only [Option.some.injEq, Prod.mk.injEq] at hr
                rw [← hr.2.1]
                exact hc
              | true =>
                simp only [Option.some.injEq, Prod.mk.injEq] at hr
                rw [← hr.2.1]
                have := flatten_length_set h1.bins code.toNat bin
                  (bin ++ [{ key := if (malloc a3).1 then some key else none,
                             value := value }]) hget
                simp only [List.length_append, List.length_singleton] at this
                show h1.count + 1 = (h1.bins.set code.toNat _).flatten.length
                omega

theorem maybe_resize_count (a : Alloc) (h h1 : hash) (a1 : Alloc)
    (hc : h.count = h.bins.flatten.length) (hr : maybe_resize a h = some (h1, a1)) :
    h1.count = h1.bins.flatten.length := by
  rcases maybe_resize_some a h h1 a1 hr with g | ⟨_, nb1, g1, _, g3⟩
  · rw [g]
    exact hc
  · rw [g1]
    show h.count = nb1.flatten.length
    rw [g3.length_eq]
    exact hc

/-- The C function `hash_set` keeps `count` equal to the number of pairs, whatever the allocations
do. -/
theorem hash_set_count (a : Alloc) (h : hash) (key : Key) (value : Value) (st : status)
    (h1 : hash) (a1 : Alloc) (hc : h.count = h.bins.flatten.length)
    (hr : hash_set a h key value = some (st, h1, a1)) :
    h1.count = h1.bins.flatten.length := by
  unfold hash_set at hr
  cases hcode : hash_code h key with
  | none => simp [hcode] at hr
  | some code =>
    simp only [hcode] at hr
    cases hm : maybe_resize a h with
    | none => simp [hm] at hr
    | some res =>
      obtain ⟨h2, a2⟩ := res
      simp only [hm] at hr
      exact insert_at_count a2 h2 code key value st h1 a1
        (maybe_resize_count a h h2 a2 hc hm) hr

theorem resize_hash_count (a : Alloc) (h : hash) (new_size : Nat) (r : ℚ) (h1 : hash)
    (a1 : Alloc) (hc : h.count = h.bins.flatten.length)
    (hr : resize_hash a h new_size = some (r, h1, a1)) :
    h1.count = h1.bins.flatten.length := by
  rcases resize_hash_some a h new_size r h1 a1 hr with g | ⟨nb1, g1, _, g3⟩
  · rw [g]
    exact hc
  · rw [g1]
    show h.count = nb1.flatten.length
    rw [g3.length_eq]
    exact hc

theorem create_hash_count (a : Alloc) (n : Nat) (h : hash) (a1 : Alloc)
    (hr : create_hash a n = (some h, a1)) : h.count = h.bins.flatten.length := by
  unfold create_hash at hr
  cases hm : malloc a with
  | mk ok a2 =>
    rw [hm] at hr
    cases ok with
    | false => simp at hr
    | true =>
      simp only at hr
      cases hm2 : malloc a2 with
      | mk ok2 a3 =>
        rw [hm2] at hr
        cases ok2 with
        | false => simp at hr
        | true =>
          simp only at hr
          cases hcb : create_bins n a3 with
          | mk ob a4 =>
            rw [hcb] at hr
            cases ob with
            | none => simp at hr
            | some bs =>
              simp only [Prod.mk.injEq, Option.some.injEq] at hr
              rw [← hr.1, create_bins_some n a3 a4 bs hcb]
              simp [flatten_replicate_nil]

theorem create_dynamic_hash_count (a : Alloc) (n : Nat) (t : ℚ) (r : Nat) (h : hash)
    (a1 : Alloc) (hr : create_dynamic_hash a n t r = (some h, a1)) :
    h.count = h.bins.flatten.length := by
  unfold create_dynamic_hash at hr
  cases hc : create_hash a n with
  | mk oh a2 =>
    rw [hc] at hr
    cases oh with
    | none => simp at hr
    | some h0 =>
      simp only [Prod.mk.injEq, Option.some.injEq] at hr
      rw [← hr.1]
      exact create_hash_count a n h0 a2 hc

/-- In every table that can be reached, `count` is the number of pairs in the bins. -/
theorem reachable_count (h : hash) (hr : reachable h) : h.count = h.bins.flatten.length := by
  induction hr with
  | created a n h a1 hc => exact create_hash_count a n h a1 hc
  | created_dynamic a n t r h a1 hc => exact create_dynamic_hash_count a n t r h a1 hc
  | set a h key value st h1 a1 _ hs ih => exact hash_set_count a h key value st h1 a1 ih hs
  | resized a h new_size r h1 a1 _ hs ih => exact resize_hash_count a h new_size r h1 a1 ih hs

theorem append_keys_some (ps : List key_val_pair) :
    ∀ (list : llist (Option Key)) (a a1 : Alloc) (keys : llist (Option Key)),
      append_keys ps list a = (some keys, a1) →
      keys = list ++ ps.map key_val_pair.key := by
  induction ps with
  | nil =>
    intro list a a1 keys h
    simp only [append_keys, Prod.mk.injEq, Option.some.injEq] at h
    simp [h.1]
  | cons p rest ih =>
    intro list a a1 keys h
    unfold append_keys at h
    cases hm : malloc a with
    | mk ok a2 =>
      rw [hm] at h
      cases ok with
      | false => simp at h
      | true =>
        simp only at h
        rw [ih _ a2 a1 keys h]
        simp

/-- The C function `hash_keys`, whatever the allocations do: the list it returns, if it
returns one, holds the key of every pair of the bins, in the order of the bins. -/
theorem hash_keys_some (a : Alloc) (h : hash) (keys : llist (Option Key)) (a1 : Alloc)
    (hr : hash_keys a h = (some keys, a1)) : keys = stored_keys h := by
  unfold hash_keys at hr
  cases hm : malloc a with
  | mk ok a2 =>
    rw [hm] at hr
    cases ok with
    | false => simp at hr
    | true =>
      simp only at hr
      rw [append_keys_some _ [] a2 a1 keys hr]
      simp [stored_keys]

/-! ## Lemmas on trim.c in double arithmetic -/

namespace ieee

theorem rounded_visit_eq (params : parameters) (s : store) (node : Nat) (e : redge) (pd : node_data)
    (he : (s node).parent_edge = some e) (hp : (s e.parent_node).data = some pd) :
    visit params s node = (node_result params (s node) e pd).map (s.write node) := by
  unfold visit node_result
  simp only [he, hp]
  by_cases ht : pd.trimmed = true
  · simp [ht]
  · simp only [ht]
    cases hd : pd.distance_depth with
    | none => simp
    | some d =>
      cases ha : pd.ancestry_depth with
      | none => simp
      | some a =>
        by_cases hx : to_trim params (round_double (atof e.length_as_string + d)) (1 + a)
            = true
        · simp [hx, trim, store.write_same, store.write_write]
        · simp [hx]

/-- The three ways of the loop body of `process_tree`, in double arithmetic. -/
theorem rounded_node_result_cases (params : parameters) (r0 r : rnode) (e : redge) (pd : node_data)
    (h : node_result params r0 e pd = some r) :
    (pd.trimmed = true ∧
      r = { r0 with
            data := some { trimmed := true, ancestry_depth := none,
                           distance_depth := none } }) ∨
    (pd.trimmed = false ∧ ∃ d a, pd.distance_depth = some d ∧ pd.ancestry_depth = some a ∧
      ((to_trim params (round_double (atof e.length_as_string + d)) (1 + a) = true ∧
        r = { label := r0.label, children := [],
              parent_edge := some
                { parent_node := e.parent_node, length := atof e.length_as_string,
                  length_as_string :=
                    masprintf_g (round_double (atof e.length_as_string -
                      round_double (round_double (atof e.length_as_string + d) -
                        params.threshold))) },
              data := some { trimmed := true, ancestry_depth := some (1 + a),
                             distance_depth :=
                               some (round_double (atof e.length_as_string + d)) } }) ∨
       (to_trim params (round_double (atof e.length_as_string + d)) (1 + a) = false ∧
        r = { r0 with
              parent_edge := some { e with length := atof e.length_as_string },
              data := some { trimmed := false, ancestry_depth := some (1 + a),
                             distance_depth :=
                               some (round_double (atof e.length_as_string + d)) } }))) := by
  unfold node_result at h
  cases ht : pd.trimmed with
  | true =>
    simp only [ht, if_true, Option.some.injEq] at h
    exact Or.inl ⟨rfl, h.symm⟩
  | false =>
    simp only [ht, Bool.false_eq_true, if_false] at h
    cases hd : pd.distance_depth with
    | none => simp [hd] at h
    | some d =>
      cases ha : pd.ancestry_depth with
      | none => simp [hd, ha] at h
      | some a =>
        simp only [hd, ha] at h
        refine Or.inr ⟨rfl, d, a, rfl, rfl, ?_⟩
        cases hx : to_trim params (round_double (atof e.length_as_string + d)) (1 + a) with
        | true =>
          simp only [hx, if_true, Option.some.injEq] at h
          exact Or.inl ⟨rfl, h.symm⟩
        | false =>
          simp only [hx, Bool.false_eq_true, if_false, Option.some.injEq] at h
          exact Or.inr ⟨rfl, h.symm⟩

theorem rounded_node_result_data (params : parameters) (r0 r : rnode) (e : redge) (pd : node_data)
    (h : node_result params r0 e pd = some r) :
    ∃ nd, r.data = some nd ∧
      (nd.trimmed = false → ∃ d a, nd.distance_depth = some d ∧ nd.ancestry_depth = some a) := by
  rcases rounded_node_result_cases params r0 r e pd h with ⟨_, h⟩ | ⟨_, d, a, _, _, ⟨_, h⟩ | ⟨_, h⟩⟩
  · rw [h]
    exact ⟨_, rfl, by simp⟩
  · rw [h]
    exact ⟨_, rfl, by simp⟩
  · rw [h]
    exact ⟨_, rfl, fun _ => ⟨_, _, rfl, rfl⟩⟩

theorem rounded_node_result_defined (params : parameters) (r0 : rnode) (e : redge) (pd : node_data)
    (h : pd.trimmed = false → ∃ d a, pd.distance_depth = some d ∧ pd.ancestry_depth = some a) :
    ∃ r, node_result params r0 e pd = some r := by
  unfold node_result
  cases ht : pd.trimmed with
  | true => exact ⟨_, by simp only [if_true]; rfl⟩
  | false =>
    obtain ⟨d, a, hd, ha⟩ := h ht
    simp only [Bool.false_eq_true, if_false, hd, ha]
    cases hx : to_trim params (round_double (atof e.length_as_string + d)) (1 + a) with
    | true => exact ⟨_, by simp only [if_true]; rfl⟩
    | false => exact ⟨_, by simp only [Bool.false_eq_true, if_false]; rfl⟩

/-- One more node visited: the invariant goes from `D` to `x :: D`. -/
theorem rounded_visited_inv_step (params : parameters) (s0 s : store) (root x : Nat) (D : List Nat)
    (hroot : root ∈ D) (hx : x ∉ D) (e : redge) (he : (s0 x).parent_edge = some e)
    (hp : e.parent_node ∈ D) (hinv : visited_inv params s0 root D s) :
    ∃ s1, visit params s x = some s1 ∧ visited_inv params s0 root (x :: D) s1 := by
  have hsx : s x = s0 x := hinv.frame x hx
  obtain ⟨pd, hpd, hpf⟩ := hinv.data_ok _ hp
  obtain ⟨r, hr⟩ := rounded_node_result_defined params (s0 x) e pd hpf
  have hne : ∀ n ∈ D, n ≠ x := fun n hn h => hx (h ▸ hn)
  refine ⟨s.write x r, ?_, ?_, ?_, ?_, ?_⟩
  · rw [rounded_visit_eq params s x e pd (by rw [hsx]; exact he) hpd, hsx, hr]
    rfl
  · intro n hn
    simp only [List.mem_cons, not_or] at hn
    rw [store.write_other _ _ _ _ hn.1]
    exact hinv.frame n hn.2
  · rw [store.write_other _ _ _ _ (hne root hroot)]
    exact hinv.root_rec
  · intro n hn hnr
    rcases List.mem_cons.1 hn with rfl | hn
    · refine ⟨e, pd, he, List.mem_cons_of_mem _ hp, ?_, ?_⟩
      · rw [store.write_other _ _ _ _ (hne _ hp)]
        exact hpd
      · rw [store.write_same]
        exact hr
    · obtain ⟨e1, pd1, g1, g2, g3, g4⟩ := hinv.node_rec n hn hnr
      refine ⟨e1, pd1, g1, List.mem_cons_of_mem _ g2, ?_, ?_⟩
      · rw [store.write_other _ _ _ _ (hne _ g2)]
        exact g3
      · rw [store.write_other _ _ _ _ (hne _ hn)]
        exact g4
  · intro n hn
    rcases List.mem_cons.1 hn with rfl | hn
    · rw [store.write_same]
      exact rounded_node_result_data params _ r e pd hr
    · rw [store.write_other _ _ _ _ (hne _ hn)]
      exact hinv.data_ok n hn

/-- The loop of `process_tree` in double arithmetic: the nodes `A`, visited last to first
after the nodes `D`. -/
theorem rounded_visit_all_inv (params : parameters) (s0 : store) (root : Nat) (A : List Nat) :
    ∀ (D : List Nat) (s : store), root ∈ D → (A ++ D).Nodup →
      parents_later s0 (A ++ D) = true → visited_inv params s0 root D s →
      ∃ s1, visit_all params s A.reverse = some s1 ∧ visited_inv params s0 root (A ++ D) s1 := by
  induction A using List.reverseRecOn with
  | nil =>
    intro D s _ _ _ hinv
    exact ⟨s, rfl, hinv⟩
  | append_singleton A x ih =>
    intro D s hroot hnd hpl hinv
    have hD : D ≠ [] := List.ne_nil_of_mem hroot
    rw [List.append_assoc] at hnd hpl
    have hnd2 : (x :: D).Nodup := (List.nodup_append.1 hnd).2.1
    have hx : x ∉ D := (List.nodup_cons.1 hnd2).1
    obtain ⟨e, he, hp⟩ := parents_later_head s0 x D (parents_later_suffix s0 A _ hpl) hD
    obtain ⟨s1, hv, hinv1⟩ := rounded_visited_inv_step params s0 s root x D hroot hx e he hp hinv
    obtain ⟨s2, hv2, hinv2⟩ := ih (x :: D) s1 (List.mem_cons_of_mem _ hroot) hnd hpl hinv1
    refine ⟨s2, ?_, ?_⟩
    · rw [List.reverse_append]
      simp only [List.reverse_cons, List.reverse_nil, List.nil_append, List.singleton_append,
        visit_all, hv]
      exact hv2
    · rw [List.append_assoc]
      exact hinv2

/-- The C function `process_tree` in double arithmetic, on a well-formed tree: it is defined,
and the store it leaves satisfies the invariant for all the nodes of the order-listing. -/
theorem rounded_process_tree_spec (params : parameters) (s : store) (t : rooted_tree)
    (hwf : well_formed s t) :
    ∃ s1, process_tree s t params = some s1 ∧
      visited_inv params s t.root t.nodes_in_order s1 := by
  obtain ⟨hnd, hlast, hpl, _⟩ := hwf
  obtain ⟨A, hA⟩ : ∃ A, t.nodes_in_order = A ++ [t.root] := by
    rcases List.eq_nil_or_concat t.nodes_in_order with h | ⟨A, b, h⟩
    · rw [h] at hlast; simp at hlast
    · rw [h] at hlast
      simp at hlast
      exact ⟨A, by rw [h, hlast]; simp⟩
  rw [hA] at hnd hpl
  have hinit : visited_inv params s t.root [t.root]
      (s.write t.root { (s t.root) with
        data := some { trimmed := false, ancestry_depth := some 0,
                       distance_depth := some 0 } }) := by
    refine ⟨?_, ?_, ?_, ?_⟩
    · intro n hn
      exact store.write_other _ _ _ _ (by simpa using hn)
    · exact store.write_same _ _ _
    · intro n hn hne
      exact absurd (List.mem_singleton.1 hn) hne
    · intro n hn
      rw [List.mem_singleton.1 hn, store.write_same]
      exact ⟨_, rfl, fun _ => ⟨_, _, rfl, rfl⟩⟩
  obtain ⟨s1, hv, hinv⟩ := rounded_visit_all_inv params s t.root A [t.root] _
    (List.mem_singleton_self _) hnd hpl hinit
  refine ⟨s1, ?_, by rw [hA]; exact hinv⟩
  unfold process_tree
  rw [hA, List.reverse_append]
  simpa using hv

/-- Where nothing is rounded, the loop body in double arithmetic makes of a node what the loop
body in exact arithmetic makes of it. -/
theorem node_result_exact (params : parameters) (r0 : rnode) (e : redge) (pd : node_data)
    (h : ∀ dp a, pd.trimmed = false → pd.distance_depth = some dp →
      pd.ancestry_depth = some a → exact_at params (nw.atof e.length_as_string) dp a) :
    node_result params r0 e pd = nw.node_result params r0 e pd := by
  unfold node_result nw.node_result
  cases ht : pd.trimmed with
  | true => rfl
  | false =>
    simp only [Bool.false_eq_true, if_false]
    cases hd : pd.distance_depth with
    | none => rfl
    | some d =>
      cases ha : pd.ancestry_depth with
      | none => rfl
      | some a =>
        obtain ⟨h1, h2, h3⟩ := h d a ht hd ha
        have e1 : atof e.length_as_string = nw.atof e.length_as_string := h1.1
        simp only [e1, h2.1]
        cases hx : to_trim params (nw.atof e.length_as_string + d) (1 + a) with
        | false => rfl
        | true =>
          obtain ⟨h4, h5⟩ := h3 hx
          simp only [if_true, h4.1, h5.1]

/-- Where nothing is rounded in the run, the store that `process_tree` leaves in double
arithmetic satisfies the invariant of the run in exact arithmetic. -/
theorem visited_inv_exact (params : parameters) (s s1 : store) (t : rooted_tree)
    (hinv : visited_inv params s t.root t.nodes_in_order s1)
    (hex : exact_run params s s1 t) :
    nw.visited_inv params s t.root t.nodes_in_order s1 := by
  refine ⟨hinv.frame, hinv.root_rec, ?_, hinv.data_ok⟩
  intro n hn hnr
  obtain ⟨e, pd, g1, g2, g3, g4⟩ := hinv.node_rec n hn hnr
  refine ⟨e, pd, g1, g2, g3, ?_⟩
  rw [← node_result_exact params (s n) e pd
    (fun dp a k1 k2 k3 => hex n hn hnr e pd dp a g1 g3 k1 k2 k3)]
  exact g4

end ieee

namespace ieee

/-- Nothing is rounded in a run on the tree `((A:la)B:lb)R;` when nothing is rounded at B and
at A. -/
theorem exact_run_chain (params : parameters) (lb la : ℚ) (s1 : store)
    (hB : ∀ pd dp a, (s1 0).data = some pd → pd.trimmed = false →
      pd.distance_depth = some dp → pd.ancestry_depth = some a → exact_at params lb dp a)
    (hA : ∀ pd dp a, (s1 1).data = some pd → pd.trimmed = false →
      pd.distance_depth = some dp → pd.ancestry_depth = some a → exact_at params la dp a) :
    exact_run params (chain_store lb la) s1 chain_tree := by
  intro m hm hmr e pd dp a he hpd ht hd ha
  have hm2 : m = 2 ∨ m = 1 := by
    simp only [chain_tree, List.mem_cons, List.mem_singleton, List.not_mem_nil, or_false] at hm
    rcases hm with h | h | h
    · exact Or.inl h
    · exact Or.inr h
    · exact absurd h hmr
  rcases hm2 with rfl | rfl
  · simp only [chain_store, Option.some.injEq] at he
    subst he
    exact hA pd dp a hpd ht hd ha
  · simp only [chain_store, Option.some.injEq] at he
    subst he
    exact hB pd dp a hpd ht hd ha

end ieee

/-! ## The claims -/

/-- C1, as amended: for every fixed-size table created by `create_hash(n)` with
`1 ≤ n ≤ 2^31` and every sequence of `hash_set` calls (no allocation failing, keys possibly
repeated or colliding in one bin), `hash_get(h, k)` returns, for every key `k` that was set, the
value most recently set for `k`: if `(k, v)` is a call of the sequence after which `k` is not set
again, `hash_get` returns `v`. -/
theorem C1_fixed_get_returns_latest (n : Nat) (pre post : List (Key × Value)) (k : Key)
    (v : Value) (hn1 : 1 ≤ n) (hn2 : n ≤ 2 ^ 31) (hk : k ∉ post.map Prod.fst) :
    ∃ h0 h, create_hash [] n = (some h0, []) ∧
      hash_set_all h0 (pre ++ (k, v) :: post) = some h ∧ hash_get h k = some v := by
  obtain ⟨h, e1, e2⟩ := hash_get_latest_fixed
    { bins := List.replicate n [], count := 0, type := hash_type.HASH_FIXED,
      load_threshold := 0, resize_factor := 0 } pre post k v rfl
    (by simpa [hash.size] using hn1) (by simpa [hash.size] using hn2)
    (no_null_key_replicate n 0 _ 0 0) hk
  exact ⟨_, h, create_hash_nil n, e1, e2⟩

/-- C1, witness: a table of 4 bins in which the keys "one", "two" and "five" fall into the same
bin; "one" is set to 1, "two" to 5, "one" again, to 2, and "five" to 3. -/
theorem C1_fixed_get_returns_latest_witness :
    ∃ h0 h, create_hash [] 4 = (some h0, []) ∧
      hash_set_all h0 ([([111, 110, 101], 1), ([116, 119, 111], 5)] ++
          ([111, 110, 101], 2) :: [([102, 105, 118, 101], 3)]) = some h ∧
      hash_get h [111, 110, 101] = some 2 :=
  C1_fixed_get_returns_latest 4 [([111, 110, 101], 1), ([116, 119, 111], 5)]
    [([102, 105, 118, 101], 3)] [111, 110, 101] 2 (by decide) (by decide) (by decide)

/-- C1, as stated, fails for a table of more than `2^31` bins: in a table created by
`create_hash(4000000000)` the key "Tamias" has the remainder 3406442143, which the `int`
`hash_code` holds as a negative number, so that `hash_set` reads outside the array of bins. -/
theorem C1_counterexample_large_table :
    ¬ ∃ h0 h, create_hash [] 4000000000 = (some h0, []) ∧
      hash_set_all h0 [([84, 97, 109, 105, 97, 115], 1)] = some h ∧
      hash_get h [84, 97, 109, 105, 97, 115] = some 1 :=
  hash_set_all_large_table 4000000000 [84, 97, 109, 105, 97, 115] 1 (by norm_num)
    (by rw [hash_func_Tamias]; norm_num) (by norm_num)

/-- C2, the code at the failing input: in the dynamic table created by
`create_dynamic_hash(1, 0.5, 2)` the keys "a" and "c" are set to 1 and 2. The second call
computes the bin index 0 from the old size 1, resizes the table to 2 bins and appends "c" to
bin 0, whereas `hash_get` looks for "c" in bin `99 % 2 = 1`: it returns `NULL`, not 2. -/
theorem C2_dynamic_get_misses_key_after_resize :
    ∃ h0 h, create_dynamic_hash [] 1 (1 / 2) 2 = (some h0, []) ∧
      hash_set_all h0 [([97], 1), ([99], 2)] = some h ∧
      h.bins = [[{ key := some [99], value := 2 }], [{ key := some [97], value := 1 }]] ∧
      hash_get h [97] = some 1 ∧ hash_get h [99] = some NULL :=
  ⟨{ bins := [[]], count := 0, type := hash_type.HASH_DYNAMIC, load_threshold := 1 / 2,
     resize_factor := 2 },
   { bins := [[{ key := some [99], value := 2 }], [{ key := some [97], value := 1 }]],
     count := 2, type := hash_type.HASH_DYNAMIC, load_threshold := 1 / 2, resize_factor := 2 },
   by decide!, by decide!, rfl, by decide!, by decide!⟩

/-- C3, the code at the failing input: in the dynamic table created by
`create_dynamic_hash(1, 0.5, 2)` the key "a" is set to 1 and then set again, to 2. The second
call resizes the table, which moves the pair of "a" to bin 1, and then searches bin 0: it
appends a second pair with key "a"; `count` becomes 2 and `hash_get` still returns 1. -/
theorem C3_dynamic_set_existing_key_duplicates :
    ∃ h0 h1 h2, create_dynamic_hash [] 1 (1 / 2) 2 = (some h0, []) ∧
      hash_set [] h0 [97] 1 = some (status.SUCCESS, h1, []) ∧
      h1.count = 1 ∧ hash_get h1 [97] = some 1 ∧
      hash_set [] h1 [97] 2 = some (status.SUCCESS, h2, []) ∧
      h2.count = 2 ∧
      h2.bins = [[{ key := some [97], value := 2 }], [{ key := some [97], value := 1 }]] ∧
      hash_get h2 [97] = some 1 :=
  ⟨{ bins := [[]], count := 0, type := hash_type.HASH_DYNAMIC, load_threshold := 1 / 2,
     resize_factor := 2 },
   { bins := [[{ key := some [97], value := 1 }]], count := 1,
     type := hash_type.HASH_DYNAMIC, load_threshold := 1 / 2, resize_factor := 2 },
   { bins := [[{ key := some [97], value := 2 }], [{ key := some [97], value := 1 }]],
     count := 2, type := hash_type.HASH_DYNAMIC, load_threshold := 1 / 2, resize_factor := 2 },
   by decide!, by decide!, rfl, by decide!, by decide!, rfl, rfl, by decide!⟩

/-- C4, as amended: for every table, fixed (created by `create_hash(n)`, `1 ≤ n ≤ 2^31`) or dynamic
(created by `create_dynamic_hash(n, t, r)` with `1 ≤ n`, `1 ≤ r` and parameters that let `N`
keys be set within `2^31` bins, `dynamic_fits`), also with fewer bins than keys, and every
sequence of `hash_set` calls on `N` pairwise distinct keys, `hash_keys` returns a list of
exactly `N` entries in which each inserted key occurs exactly once (each key set is in the list,
and no entry of the list occurs twice). -/
theorem C4_hash_keys_each_key_once (kvs : List (Key × Value))
    (hd : (kvs.map Prod.fst).Nodup) :
    (∀ n, 1 ≤ n → n ≤ 2 ^ 31 →
      ∃ h0 h l, create_hash [] n = (some h0, []) ∧ hash_set_all h0 kvs = some h ∧
        hash_keys [] h = (some l, []) ∧ l.length = kvs.length ∧ l.Nodup ∧
        ∀ kv ∈ kvs, some kv.1 ∈ l) ∧
    (∀ n t r, 1 ≤ n → 1 ≤ r → dynamic_fits n t r kvs.length →
      ∃ h0 h l, create_dynamic_hash [] n t r = (some h0, []) ∧ hash_set_all h0 kvs = some h ∧
        hash_keys [] h = (some l, []) ∧ l.length = kvs.length ∧ l.Nodup ∧
        ∀ kv ∈ kvs, some kv.1 ∈ l) := by
  constructor
  · intro n h1 h2
    obtain ⟨h, l, g1, g2, g3, g4, g5⟩ := hash_keys_after_sets kvs
      { bins := List.replicate n [], count := 0, type := hash_type.HASH_FIXED,
        load_threshold := 0, resize_factor := 0 } hd (stored_keys_replicate _ _ _ _ _)
      (room_for_create_hash n _ h1 h2)
    exact ⟨_, h, l, create_hash_nil n, g1, g2, g3, g4, g5⟩
  · intro n t r h1 h2 h3
    obtain ⟨h, l, g1, g2, g3, g4, g5⟩ := hash_keys_after_sets kvs
      { bins := List.replicate n [], count := 0, type := hash_type.HASH_DYNAMIC,
        load_threshold := t, resize_factor := r } hd (stored_keys_replicate _ _ _ _ _)
      (room_for_create_dynamic_hash n t r _ h1 h2 h3)
    exact ⟨_, h, l, create_dynamic_hash_nil n t r, g1, g2, g3, g4, g5⟩

/-- C4, witness: the five keys of `test_keys` ("one", "two", "three", "four", "five"), in the
fixed table of 4 bins of that test and in a dynamic table that starts from 1 bin and doubles. -/
theorem C4_hash_keys_each_key_once_witness :
    (∃ h0 h l, create_hash [] 4 = (some h0, []) ∧
        hash_set_all h0 [([111, 110, 101], 1), ([116, 119, 111], 2),
          ([116, 104, 114, 101, 101], 3), ([102, 111, 117, 114], 4),
          ([102, 105, 118, 101], 5)] = some h ∧
        hash_keys [] h = (some l, []) ∧ l.length = 5 ∧ l.Nodup ∧
        ∀ kv ∈ [(([111, 110, 101] : Key), 1), ([116, 119, 111], 2),
          ([116, 104, 114, 101, 101], 3), ([102, 111, 117, 114], 4),
          ([102, 105, 118, 101], 5)], some kv.1 ∈ l) ∧
    (∃ h0 h l, create_dynamic_hash [] 1 (1 / 2) 2 = (some h0, []) ∧
        hash_set_all h0 [([111, 110, 101], 1), ([116, 119, 111], 2),
          ([116, 104, 114, 101, 101], 3), ([102, 111, 117, 114], 4),
          ([102, 105, 118, 101], 5)] = some h ∧
        hash_keys [] h = (some l, []) ∧ l.length = 5 ∧ l.Nodup ∧
        ∀ kv ∈ [(([111, 110, 101] : Key), 1), ([116, 119, 111], 2),
          ([116, 104, 114, 101, 101], 3), ([102, 111, 117, 114], 4),
          ([102, 105, 118, 101], 5)], some kv.1 ∈ l) :=
  ⟨(C4_hash_keys_each_key_once _ (by decide)).1 4 (by decide) (by decide),
   (C4_hash_keys_each_key_once _ (by decide)).2 1 (1 / 2) 2 (by decide) (by decide)
     (Or.inr ⟨by decide, by decide!, by norm_num⟩)⟩

/-- C4, as stated, fails for tables whose parameters are out of range; in each of these runs a
`hash_set` is undefined, so that no list of keys is returned. First: the dynamic table created
by `create_dynamic_hash(1, 0.5, 0)`; the second `hash_set` resizes the table to `0 * 1 = 0`
bins and takes a remainder by 0. Second: the fixed table created by `create_hash(4000000000)`;
the key "Tamias" gets a negative bin index. Third: the table created by `create_hash(0)`;
`hash_set` takes a remainder by 0. -/
theorem C4_counterexample_parameters_out_of_range :
    (∃ h0, create_dynamic_hash [] 1 (1 / 2) 0 = (some h0, []) ∧
      hash_set_all h0 [([97], 1), ([98], 2)] = none) ∧
    (∃ h0, create_hash [] 4000000000 = (some h0, []) ∧
      hash_set_all h0 [([84, 97, 109, 105, 97, 115], 1)] = none) ∧
    (∃ h0, create_hash [] 0 = (some h0, []) ∧ hash_set_all h0 [([97], 1)] = none) :=
  ⟨⟨{ bins := [[]], count := 0, type := hash_type.HASH_DYNAMIC, load_threshold := 1 / 2,
      resize_factor := 0 }, by decide!, by decide!⟩,
   hash_set_all_large_table_none 4000000000 [84, 97, 109, 105, 97, 115] 1 (by norm_num)
     (by rw [hash_func_Tamias]; norm_num) (by norm_num),
   ⟨{ bins := [], count := 0, type := hash_type.HASH_FIXED, load_threshold := 0,
      resize_factor := 0 }, by decide!, by decide!⟩⟩

/-- C5, as amended: for every table, fixed (`1 ≤ n ≤ 2^31` bins) or dynamic (parameters that let
the keys be set within `2^31` bins, `dynamic_fits`), and every key `k` that was never set,
`hash_get(h, k)` returns `NULL`. In a fixed-size table the result for a key
that has been set is the value most recently stored for it, so that the two results differ
exactly when that value is not `NULL`. -/
theorem C5_absent_key_returns_NULL (k : Key) :
    (∀ n pre post k1 v, 1 ≤ n → n ≤ 2 ^ 31 → k1 ∉ post.map Prod.fst →
      k ∉ (pre ++ (k1, v) :: post).map Prod.fst →
      ∃ h0 h, create_hash [] n = (some h0, []) ∧
        hash_set_all h0 (pre ++ (k1, v) :: post) = some h ∧
        hash_get h k = some NULL ∧ hash_get h k1 = some v ∧
        (hash_get h k1 ≠ hash_get h k ↔ v ≠ NULL)) ∧
    (∀ n t r kvs, 1 ≤ n → 1 ≤ r → dynamic_fits n t r kvs.length → k ∉ kvs.map Prod.fst →
      ∃ h0 h, create_dynamic_hash [] n t r = (some h0, []) ∧
        hash_set_all h0 kvs = some h ∧ hash_get h k = some NULL) := by
  constructor
  · intro n pre post k1 v h1 h2 hk1 hk
    obtain ⟨h, e1, e2⟩ := hash_get_latest_fixed
      { bins := List.replicate n [], count := 0, type := hash_type.HASH_FIXED,
        load_threshold := 0, resize_factor := 0 } pre post k1 v rfl
      (by simpa [hash.size] using h1) (by simpa [hash.size] using h2)
      (no_null_key_replicate n 0 _ 0 0) hk1
    obtain ⟨h', e3, e4⟩ := hash_get_never_set (pre ++ (k1, v) :: post)
      { bins := List.replicate n [], count := 0, type := hash_type.HASH_FIXED,
        load_threshold := 0, resize_factor := 0 } k (stored_keys_replicate _ _ _ _ _)
      (room_for_create_hash n _ h1 h2) hk
    rw [e1] at e3
    simp only [Option.some.injEq] at e3
    subst e3
    refine ⟨_, h, create_hash_nil n, e1, e4, e2, ?_⟩
    rw [e2, e4]
    simp
  · intro n t r kvs h1 h2 h3 hk
    obtain ⟨h, e1, e2⟩ := hash_get_never_set kvs
      { bins := List.replicate n [], count := 0, type := hash_type.HASH_DYNAMIC,
        load_threshold := t, resize_factor := r } k (stored_keys_replicate _ _ _ _ _)
      (room_for_create_dynamic_hash n t r _ h1 h2 h3) hk
    exact ⟨_, h, create_dynamic_hash_nil n t r, e1, e2⟩

/-- C5, witness: the fixed table of 4 bins and the dynamic table of 1 bin in which "one" and
"two" were set; the key "six" was never set. -/
theorem C5_absent_key_returns_NULL_witness :
    (∃ h0 h, create_hash [] 4 = (some h0, []) ∧
        hash_set_all h0 ([([111, 110, 101], 1)] ++ ([116, 119, 111], 2) :: []) = some h ∧
        hash_get h [115, 105, 120] = some NULL ∧ hash_get h [116, 119, 111] = some 2 ∧
        (hash_get h [116, 119, 111] ≠ hash_get h [115, 105, 120] ↔ (2 : Value) ≠ NULL)) ∧
    (∃ h0 h, create_dynamic_hash [] 1 (1 / 2) 2 = (some h0, []) ∧
        hash_set_all h0 [([111, 110, 101], 1), ([116, 119, 111], 2)] = some h ∧
        hash_get h [115, 105, 120] = some NULL) :=
  ⟨(C5_absent_key_returns_NULL [115, 105, 120]).1 4 [([111, 110, 101], 1)] []
      [116, 119, 111] 2 (by decide) (by decide) (by decide) (by decide),
   (C5_absent_key_returns_NULL [115, 105, 120]).2 1 (1 / 2) 2
      [([111, 110, 101], 1), ([116, 119, 111], 2)] (by decide) (by decide)
      (Or.inr ⟨by decide, by decide!, by norm_num⟩) (by decide)⟩

/-- C5, as stated, fails when `NULL` is the value stored: in the table created by
`create_hash(4)` the key "a" is set to `NULL`; `hash_get` returns `NULL` for "a" and `NULL` for
the key "b", which was never set. It also fails for tables whose size is out of range: in the
table created by `create_hash(4000000000)` the lookup of "Tamias", never set, reads outside the
array of bins, and in the table created by `create_hash(0)` a lookup takes a remainder by 0. -/
theorem C5_counterexample_stored_NULL :
    (∃ h0 h, create_hash [] 4 = (some h0, []) ∧ hash_set_all h0 [([97], NULL)] = some h ∧
      h.count = 1 ∧ hash_get h [97] = some NULL ∧ hash_get h [98] = hash_get h [97]) ∧
    (∃ h0, create_hash [] 4000000000 = (some h0, []) ∧
      hash_get h0 [84, 97, 109, 105, 97, 115] = none) ∧
    (∃ h0, create_hash [] 0 = (some h0, []) ∧ hash_get h0 [98] = none) :=
  ⟨⟨{ bins := [[], [], [], []], count := 0, type := hash_type.HASH_FIXED, load_threshold := 0,
      resize_factor := 0 },
    { bins := [[], [{ key := some [97], value := NULL }], [], []], count := 1,
      type := hash_type.HASH_FIXED, load_threshold := 0, resize_factor := 0 },
    by decide!, by decide!, rfl, by decide!, by decide!⟩,
   hash_get_large_table_none 4000000000 [84, 97, 109, 105, 97, 115] (by norm_num)
     (by rw [hash_func_Tamias]; norm_num) (by norm_num),
   ⟨{ bins := [], count := 0, type := hash_type.HASH_FIXED, load_threshold := 0,
      resize_factor := 0 }, by decide!, by decide!⟩⟩

/-- C6, the code at two failing inputs. First: a dynamic table of 1 bin that holds "a" and is
due for a resize; the first allocation of `resize_hash` fails, `hash_set` does not look at the
result, inserts "c" into the table that was not resized and returns `SUCCESS`. Second: a fixed
table of 4 bins; the `malloc` of the pair succeeds and the `strdup` of the key fails; `hash_set`
stores the pair with a `NULL` key and returns `SUCCESS`. -/
theorem C6_hash_set_success_despite_failed_allocation :
    hash_set [false]
        { bins := [[{ key := some [97], value := 1 }]], count := 1,
          type := hash_type.HASH_DYNAMIC, load_threshold := 1 / 2, resize_factor := 2 }
        [99] 2 =
      some (status.SUCCESS,
        { bins := [[{ key := some [97], value := 1 }, { key := some [99], value := 2 }]],
          count := 2, type := hash_type.HASH_DYNAMIC, load_threshold := 1 / 2,
          resize_factor := 2 }, []) ∧
    hash_set [true, false]
        { bins := [[], [], [], []], count := 0, type := hash_type.HASH_FIXED,
          load_threshold := 0, resize_factor := 0 }
        [97] 1 =
      some (status.SUCCESS,
        { bins := [[], [{ key := none, value := 1 }], [], []], count := 1,
          type := hash_type.HASH_FIXED, load_threshold := 0, resize_factor := 0 }, []) :=
  ⟨by decide!, by decide!⟩

/-- C9, the code at the failing input: the tree `((A:0.1)B:0.1)R;` trimmed at 1 ancestor. A has
2 ancestors, so `trim()` is applied to it; the excess is computed from its distance,
`0.2 - 1 = -0.8`, and the edge of A, of length 0.1 before, gets the length `0.1 + 0.8 = 0.9`. -/
theorem C9_ancestor_mode_lengthens_edge :
    well_formed (chain_store (1 / 10) (1 / 10)) chain_tree ∧
    (chain_store (1 / 10) (1 / 10) 2).parent_edge
      = some { parent_node := 1, length := 0,
               length_as_string := length_text.numeral (1 / 10) } ∧
    (process_tree (chain_store (1 / 10) (1 / 10)) chain_tree
        { depth_type := depth_type.DEPTH_ANCESTORS, threshold := 1 }).map
      (fun s1 => ((s1 2).data, (s1 2).parent_edge))
      = some (some { trimmed := true, ancestry_depth := some 2,
                     distance_depth := some (2 / 10) },
              some { parent_node := 1, length := 1 / 10,
                     length_as_string := length_text.numeral (9 / 10) }) ∧
    (1 / 10 : ℚ) < 9 / 10 :=
  ⟨by decide, rfl, by decide!, by norm_num⟩

/-- C10, the code at the failing input: the tree `((A:0.1)B:0.1)R;` trimmed at 1 ancestor. The
node A, which has the 2 ancestors B and R, is marked trimmed and stays in the tree: it can still
be reached from the root, through 2 edges. -/
theorem C10_ancestor_mode_keeps_deeper_node :
    well_formed (chain_store (1 / 10) (1 / 10)) chain_tree ∧
    ∃ s1 d, process_tree (chain_store (1 / 10) (1 / 10)) chain_tree
        { depth_type := depth_type.DEPTH_ANCESTORS, threshold := 1 } = some s1 ∧
      path_to s1 chain_tree.root 2 d 2 ∧ ¬ ((2 : ℚ) ≤ 1) := by
  refine ⟨by decide, ?_⟩
  have hfacts : (process_tree (chain_store (1 / 10) (1 / 10)) chain_tree
      { depth_type := depth_type.DEPTH_ANCESTORS, threshold := 1 }).map
      (fun s1 => ((s1 0).children, (s1 1).children, (s1 1).parent_edge, (s1 2).parent_edge))
      = some ([1], [2],
          some { parent_node := 0, length := 1 / 10,
                 length_as_string := length_text.numeral (1 / 10) },
          some { parent_node := 1, length := 1 / 10,
                 length_as_string := length_text.numeral (9 / 10) }) := by
    decide!
  cases hp : process_tree (chain_store (1 / 10) (1 / 10)) chain_tree
      { depth_type := depth_type.DEPTH_ANCESTORS, threshold := 1 } with
  | none =>
    rw [hp] at hfacts
    exact absurd hfacts (by simp)
  | some s1 =>
    simp only [hp, Option.map_some', Option.some.injEq, Prod.mk.injEq] at hfacts
    obtain ⟨h0, h1, he1, he2⟩ := hfacts
    exact ⟨s1, _, rfl, chain_path s1 _ _ h0 h1 he1 he2, by norm_num⟩

/-- C11, the code at the failing input: for every argument vector that consists of the name of
the program, the option `-a`, an input argument and a depth, as in the example `-a
data/catarrhini 3` of the help text, `get_params` of `trim.c` does not return: after `case 'a'`
control falls through to `case 'h'`, and the program exits with `EXIT_SUCCESS`. Without the
option the parameters are returned; and no argument vector at all makes `get_params` return
the depth type `DEPTH_ANCESTORS`. -/
theorem C11_option_a_exits (fopen : String → Bool) (prog input depth : String) :
    get_params fopen [prog, "-a", input, depth] = outcome.exits exit_status.EXIT_SUCCESS ∧
      get_params fopen [prog, "-", "3"] =
        outcome.returns ({ depth_type := depth_type.DEPTH_DISTANCE, threshold := 3 }, none) ∧
      ∀ argv threshold source,
        get_params fopen argv ≠
          outcome.returns
            ({ depth_type := depth_type.DEPTH_ANCESTORS, threshold := threshold }, source) := by
  refine ⟨rfl, ?_, ?_⟩
  · have h : atof_string "3" = 3 := by decide!
    simp [get_params, getopt, h]
  · intro argv threshold source h
    have h1 := get_params_never_ancestors fopen argv _ h
    simp at h1

/-- C12, the code at the failing input: `process_tree` of `prune.c` returns every tree as it
was given, whatever the labels and the mode; in the tree `((A:1)B:0.5)R;` with the label `A`
passed on the command line, in direct mode, the node labelled `A` is still in the tree
afterwards, as the child of `B`. -/
theorem C12_prune_leaves_tree_unchanged :
    (∀ s tree cl_labels mode, nw_prune.process_tree s tree cl_labels mode = (s, tree)) ∧
      let r := nw_prune.process_tree (chain_store (1 / 2) 1) chain_tree ["A"]
        nw_prune.prune_mode.PRUNE_DIRECT
      in_tree r.1 r.2.root 2 ∧ 2 ≠ r.2.root ∧ (r.1 2).label = "A" ∧ (r.1 2).label ∈ ["A"] := by
  refine ⟨fun _ _ _ _ => rfl, ?_⟩
  refine ⟨?_, by decide, rfl, by decide⟩
  exact in_tree.child 1 2 (in_tree.child 0 1 in_tree.root (by decide)) (by decide)

/-- C13: for every pattern text and every target tree, whatever the collaborators, the final
value of `match` with `reverse` false is the negation of its value with `reverse` true: both
are got from the same text `processed_newick`, which `reduce` computes without looking at
`reverse`, the one as the comparison with the pattern and the other as its negation (and where
the reduction has no result, neither run has). -/
theorem C13_reverse_negates_decision (c : collaborators) (pattern_newick : newick_text)
    (pattern_labels : hash) (s : store) (tree : rooted_tree) :
    (∀ reverse, (nw_match.main_loop_body c reverse pattern_newick pattern_labels s tree).map
        Prod.fst =
      ((c.to_newick s tree.root).bind (fun _ => nw_match.reduce c pattern_labels s tree)).map
        (fun processed_newick =>
          nw_match.decide_match reverse processed_newick pattern_newick)) ∧
    (∀ processed_newick, nw_match.decide_match false processed_newick pattern_newick =
      !nw_match.decide_match true processed_newick pattern_newick) ∧
    (nw_match.main_loop_body c false pattern_newick pattern_labels s tree).map Prod.fst =
      (nw_match.main_loop_body c true pattern_newick pattern_labels s tree).map
        (fun r => !r.1) := by
  have h1 : ∀ reverse,
      (nw_match.main_loop_body c reverse pattern_newick pattern_labels s tree).map Prod.fst =
      ((c.to_newick s tree.root).bind (fun _ => nw_match.reduce c pattern_labels s tree)).map
        (fun processed_newick =>
          nw_match.decide_match reverse processed_newick pattern_newick) := by
    intro reverse
    unfold nw_match.main_loop_body
    cases c.to_newick s tree.root with
    | none => rfl
    | some o =>
      cases nw_match.reduce c pattern_labels s tree with
      | none => rfl
      | some p => rfl
  have h2 : ∀ processed_newick, nw_match.decide_match false processed_newick pattern_newick =
      !nw_match.decide_match true processed_newick pattern_newick := by
    intro p
    simp [nw_match.decide_match]
  refine ⟨h1, h2, ?_⟩
  have e1 := h1 false
  have e2 := h1 true
  rw [e1]
  cases hm : nw_match.main_loop_body c true pattern_newick pattern_labels s tree with
  | none =>
    rw [hm] at e2
    cases hb : (c.to_newick s tree.root).bind
        (fun _ => nw_match.reduce c pattern_labels s tree) with
    | none => rfl
    | some p => rw [hb] at e2; simp at e2
  | some r =>
    rw [hm] at e2
    cases hb : (c.to_newick s tree.root).bind
        (fun _ => nw_match.reduce c pattern_labels s tree) with
    | none => rw [hb] at e2; simp at e2
    | some p =>
      rw [hb] at e2
      simp only [Option.map_some', Option.some.injEq] at e2 ⊢
      rw [e2, h2 p]

/-- C14: whenever the loop of `main` prints a target tree, in either mode, the line printed is
`original_newick`, the text that `to_newick` returned for the tree as parsed, before
`remove_inner_node_labels`, `prune_extra_labels`, `remove_branch_lengths` and `order_tree` were
applied; it is printed exactly when the final value of `match` is true. -/
theorem C14_printed_text_is_original (c : collaborators) (reverse : Bool)
    (pattern_newick : newick_text) (pattern_labels : hash) (s : store) (tree : rooted_tree)
    (m : Bool) (printed : List newick_text)
    (h : nw_match.main_loop_body c reverse pattern_newick pattern_labels s tree =
      some (m, printed)) :
    ∃ original_newick, c.to_newick s tree.root = some original_newick ∧
      printed = (if m then [original_newick] else []) ∧
      ∀ line ∈ printed, line = original_newick := by
  unfold nw_match.main_loop_body at h
  cases ho : c.to_newick s tree.root with
  | none => simp [ho] at h
  | some o =>
    cases hr : nw_match.reduce c pattern_labels s tree with
    | none => simp [ho, hr] at h
    | some p =>
      simp only [ho, hr, Option.some.injEq, Prod.mk.injEq] at h
      obtain ⟨h1, h2⟩ := h
      refine ⟨o, rfl, ?_, ?_⟩
      · rw [← h2, h1]
      · intro line hl
        rw [← h2] at hl
        split at hl
        · simpa using hl
        · exact absurd hl (List.not_mem_nil _)

/-- C14, witness: the target `(B:1,A:1)R;` is matched against the pattern `(A,B);`; the line
printed is the text of the target as parsed, with its label `R`, its lengths and its order. -/
theorem C14_printed_text_is_original_witness :
    ∃ original_newick,
      (spec_collaborators (parser_of "" (two_leaf_store "" none length_text.empty false,
          two_leaf_tree false)) 5).to_newick
        (two_leaf_store "R" (some root_edge) (length_text.numeral 1) true)
        (two_leaf_tree true).root = some original_newick ∧
      [[token.lparen, token.label "B", token.colon, token.length (length_text.numeral 1),
        token.comma, token.label "A", token.colon, token.length (length_text.numeral 1),
        token.rparen, token.label "R", token.semicolon]] =
        (if true then [original_newick] else []) ∧
      ∀ line ∈ [[token.lparen, token.label "B", token.colon,
          token.length (length_text.numeral 1), token.comma, token.label "A", token.colon,
          token.length (length_text.numeral 1), token.rparen, token.label "R",
          token.semicolon]], line = original_newick :=
  C14_printed_text_is_original
    (spec_collaborators (parser_of "" (two_leaf_store "" none length_text.empty false,
      two_leaf_tree false)) 5) false
    [token.lparen, token.label "A", token.comma, token.label "B", token.rparen,
      token.semicolon]
    { bins := [[{ key := some [66], value := 3 }], [{ key := some [65], value := 2 }]],
      count := 2, type := hash_type.HASH_FIXED, load_threshold := 0, resize_factor := 0 }
    (two_leaf_store "R" (some root_edge) (length_text.numeral 1) true) (two_leaf_tree true)
    true _ (by decide!)

/-- C15, as amended: for every tree `T` without inner-node labels and without branch lengths,
all of whose listed nodes, the root too, have a parent edge, matching `T` against the pattern
given by `T`'s own text reports a match and prints `T`, provided that the collaborators return
on the pattern (it is ordered, rendered and indexed) and the index finds every label of `T`
with a node that is not `NULL`. The pattern is ordered only: its inner-node labels and its
branch lengths are not removed. -/
theorem C15_tree_matches_own_text (c : collaborators) (text : String) (s : store)
    (t : rooted_tree) (so : store) (t_o : rooted_tree) (pattern_newick : newick_text)
    (pattern_labels : hash) (original_newick : newick_text)
    (hparse : c.parse_tree text = some (s, t))
    (hedge : ∀ n ∈ t.nodes_in_order,
      ∃ e, (s n).parent_edge = some e ∧ e.length_as_string = length_text.empty)
    (hinner : ∀ n ∈ t.nodes_in_order, is_leaf s n = false → (s n).label = "")
    (horder : c.order_tree s t = some (so, t_o))
    (hpattern : c.to_newick so t_o.root = some pattern_newick)
    (hindex : c.create_label2node_map so t_o.nodes_in_order = some pattern_labels)
    (hfound : ∀ n ∈ t.nodes_in_order, (s n).label ≠ "" →
      ∃ v, hash_get pattern_labels (c_string (s n).label) = some v ∧ v ≠ NULL)
    (horiginal : c.to_newick s t.root = some original_newick) :
    nw_match.main_loop_body c false pattern_newick pattern_labels s t =
        some (true, [original_newick]) ∧
      nw_match.main c { pattern := text, target_trees := [text], reverse := false } =
        some (outcome.returns [original_newick]) := by
  have hred : nw_match.reduce c pattern_labels s t = some pattern_newick := by
    unfold nw_match.reduce
    have h1 : remove_inner_node_labels s t = s :=
      remove_inner_node_labels_loop_id s _ hinner
    have h2 : prune_extra_labels c.unlink_rnode s t pattern_labels = some (s, t, []) := by
      unfold prune_extra_labels
      rw [prune_extra_labels_loop_id c.unlink_rnode pattern_labels s t.root t.nodes_in_order []
        (fun n hn hl _ => hfound n hn hl)]
    have h3 : remove_branch_lengths s t = some s := remove_branch_lengths_loop_id s _ hedge
    simp only [h1, h2, h3, horder, hpattern]
  have hbody : nw_match.main_loop_body c false pattern_newick pattern_labels s t =
      some (true, [original_newick]) := by
    unfold nw_match.main_loop_body
    simp [horiginal, hred, nw_match.decide_match]
  refine ⟨hbody, ?_⟩
  simp [nw_match.main, nw_match.get_ordered_pattern_tree, hparse, horder, hpattern, hindex,
    nw_match.main_loop, hbody]

/-- C15, witness: the tree `(B,A);`, whose root has a parent edge, against its own text. -/
theorem C15_tree_matches_own_text_witness :
    nw_match.main_loop_body
        (spec_collaborators (parser_of "(B,A);"
          (two_leaf_store "" (some root_edge) length_text.empty true, two_leaf_tree true)) 5)
        false
        [token.lparen, token.label "A", token.comma, token.label "B", token.rparen,
          token.semicolon]
        { bins := [[{ key := some [66], value := 3 }, { key := some [], value := 1 }], [],
                   [{ key := some [65], value := 2 }]],
          count := 3, type := hash_type.HASH_FIXED, load_threshold := 0, resize_factor := 0 }
        (two_leaf_store "" (some root_edge) length_text.empty true) (two_leaf_tree true) =
        some (true, [[token.lparen, token.label "B", token.comma, token.label "A",
          token.rparen, token.semicolon]]) ∧
      nw_match.main
        (spec_collaborators (parser_of "(B,A);"
          (two_leaf_store "" (some root_edge) length_text.empty true, two_leaf_tree true)) 5)
        { pattern := "(B,A);", target_trees := ["(B,A);"], reverse := false } =
        some (outcome.returns [[token.lparen, token.label "B", token.comma, token.label "A",
          token.rparen, token.semicolon]]) :=
  C15_tree_matches_own_text
    (spec_collaborators (parser_of "(B,A);"
      (two_leaf_store "" (some root_edge) length_text.empty true, two_leaf_tree true)) 5)
    "(B,A);" (two_leaf_store "" (some root_edge) length_text.empty true) (two_leaf_tree true)
    (order_tree_loop 5 (two_leaf_store "" (some root_edge) length_text.empty true) [3, 2, 1])
    (two_leaf_tree true)
    [token.lparen, token.label "A", token.comma, token.label "B", token.rparen,
      token.semicolon]
    { bins := [[{ key := some [66], value := 3 }, { key := some [], value := 1 }], [],
               [{ key := some [65], value := 2 }]],
      count := 3, type := hash_type.HASH_FIXED, load_threshold := 0, resize_factor := 0 }
    [token.lparen, token.label "B", token.comma, token.label "A", token.rparen,
      token.semicolon]
    rfl (by decide!) (by decide!) rfl (by decide!) (by decide!) (by decide!)
    (by decide!)

/-- C15, as stated, fails. The tree `(A:1,B:1);` against its own text: the pattern keeps its
branch lengths, the target loses them, and no line is printed. The tree `(A,B)R;` against its
own text: the pattern keeps the label `R` of its inner node, the target loses it, and no line
is printed. In both trees the root has a parent edge; in the tree `(A,B);` whose root has none
`remove_branch_lengths` reads the missing edge, and the run has no result at all. -/
theorem C15_counterexample_pattern_not_reduced :
    nw_match.main
        (spec_collaborators (parser_of "(A:1,B:1);"
          (two_leaf_store "" (some root_edge) (length_text.numeral 1) false,
            two_leaf_tree false)) 5)
        { pattern := "(A:1,B:1);", target_trees := ["(A:1,B:1);"], reverse := false } =
        some (outcome.returns []) ∧
      nw_match.main
        (spec_collaborators (parser_of "(A,B)R;"
          (two_leaf_store "R" (some root_edge) length_text.empty false,
            two_leaf_tree false)) 5)
        { pattern := "(A,B)R;", target_trees := ["(A,B)R;"], reverse := false } =
        some (outcome.returns []) ∧
      nw_match.main
        (spec_collaborators (parser_of "(A,B);"
          (two_leaf_store "" none length_text.empty false, two_leaf_tree false)) 5)
        { pattern := "(A,B);", target_trees := ["(A,B);"], reverse := false } = none := by
  decide!

/-- C17: for every table `h` (no allocation failing, so that no stored key is `NULL`) and every
`new_size ≥ 1`, `resize_hash(h, new_size)` leaves a table of `new_size` bins, with `count`
and the other fields unchanged, holding the same multiset of (key, value) pairs, each pair in
the bin `hash_func(key) % new_size`; the value returned is `count / new_size`. -/
theorem C17_resize_hash_redistributes (h : hash) (new_size : Nat) (h1 : 1 ≤ new_size)
    (hn : no_null_key h) :
    ∃ h', resize_hash [] h new_size = some ((h.count : ℚ) / (new_size : ℚ), h', []) ∧
      h'.size = new_size ∧ h'.count = h.count ∧ h'.type = h.type ∧
      h'.load_threshold = h.load_threshold ∧ h'.resize_factor = h.resize_factor ∧
      h'.bins.flatten.Perm h.bins.flatten ∧
      ∀ i bin, h'.bins[i]? = some bin → ∀ p ∈ bin,
        ∃ k, p.key = some k ∧ i = hash_func k % new_size := by
  obtain ⟨nb1, r1, r2, r3, r4⟩ := resize_hash_placed h new_size (by omega) hn
  refine ⟨{ h with bins := nb1 }, r1, r2, rfl, rfl, rfl, rfl, r3, ?_⟩
  intro i bin hb p hp
  obtain ⟨k, e1, e2⟩ := r4 i bin hb p hp
  exact ⟨k, e1, e2.symm⟩

/-- C17, witness: the fixed table of 1 bin that holds "a" and "c" is resized to 2 bins. -/
theorem C17_resize_hash_redistributes_witness :
    ∃ h', resize_hash []
        { bins := [[{ key := some [97], value := 1 }, { key := some [99], value := 2 }]],
          count := 2, type := hash_type.HASH_FIXED, load_threshold := 0, resize_factor := 0 }
        2 = some (((2 : Nat) : ℚ) / ((2 : Nat) : ℚ), h', []) ∧
      h'.size = 2 ∧ h'.count = 2 ∧ h'.type = hash_type.HASH_FIXED ∧
      h'.load_threshold = 0 ∧ h'.resize_factor = 0 ∧
      h'.bins.flatten.Perm
        [{ key := some [97], value := 1 }, { key := some [99], value := 2 }] ∧
      ∀ i bin, h'.bins[i]? = some bin → ∀ p ∈ bin,
        ∃ k, p.key = some k ∧ i = hash_func k % 2 :=
  C17_resize_hash_redistributes
    { bins := [[{ key := some [97], value := 1 }, { key := some [99], value := 2 }]],
      count := 2, type := hash_type.HASH_FIXED, load_threshold := 0, resize_factor := 0 }
    2 (by decide) (by simp [no_null_key])

/-- C19: if `resize_hash` fails, that is returns -1, the table is exactly as before the call:
its bins, and so its size and every stored pair, its count and its other fields. -/
theorem C19_failed_resize_leaves_table (a : Alloc) (h : hash) (new_size : Nat) (h' : hash)
    (a' : Alloc) (hr : resize_hash a h new_size = some (-1, h', a')) : h' = h := by
  unfold resize_hash at hr
  cases hm : malloc a with
  | mk ok a1 =>
    rw [hm] at hr
    cases ok with
    | false =>
      simp only [Option.some.injEq, Prod.mk.injEq] at hr
      exact hr.2.1.symm
    | true =>
      simp only at hr
      cases hc : create_bins new_size a1 with
      | mk ob a2 =>
        rw [hc] at hr
        cases ob with
        | none =>
          simp only [Option.some.injEq, Prod.mk.injEq] at hr
          exact hr.2.1.symm
        | some nb =>
          simp only at hr
          cases hp : rehash_pairs new_size h.bins.flatten nb a2 with
          | none => simp [hp] at hr
          | some res =>
            obtain ⟨ob2, a3⟩ := res
            rw [hp] at hr
            cases ob2 with
            | none =>
              simp only [Option.some.injEq, Prod.mk.injEq] at hr
              exact hr.2.1.symm
            | some nb2 =>
              simp only [Option.some.injEq, Prod.mk.injEq] at hr
              have h2 : (0 : ℚ) ≤ load_factor { h with bins := nb2 } := by
                unfold load_factor
                positivity
              rw [hr.1] at h2
              norm_num at h2

/-- C19, witness: the table of 1 bin that holds "a" and "c" is resized to 2 bins; the array and
the two new bins are allocated and "a" is appended, then the `append_element` of "c" fails. -/
theorem C19_failed_resize_leaves_table_witness :
    ∃ h', resize_hash [true, true, true, true, false]
        { bins := [[{ key := some [97], value := 1 }, { key := some [99], value := 2 }]],
          count := 2, type := hash_type.HASH_FIXED, load_threshold := 0, resize_factor := 0 }
        2 = some (-1, h', []) ∧
      h' = { bins := [[{ key := some [97], value := 1 }, { key := some [99], value := 2 }]],
             count := 2, type := hash_type.HASH_FIXED, load_threshold := 0,
             resize_factor := 0 } :=
  ⟨{ bins := [[{ key := some [97], value := 1 }, { key := some [99], value := 2 }]],
     count := 2, type := hash_type.HASH_FIXED, load_threshold := 0, resize_factor := 0 },
   by decide!, C19_failed_resize_leaves_table [true, true, true, true, false]
    { bins := [[{ key := some [97], value := 1 }, { key := some [99], value := 2 }]],
      count := 2, type := hash_type.HASH_FIXED, load_threshold := 0, resize_factor := 0 }
    2 { bins := [[{ key := some [97], value := 1 }, { key := some [99], value := 2 }]],
        count := 2, type := hash_type.HASH_FIXED, load_threshold := 0, resize_factor := 0 }
    [] (by decide!)⟩

/-- C20, the code at the failing input: the key of the one byte `0xE9`, which a signed `char`
holds as -23. Bernstein's hash of the byte 233 is 233; `hash_func` adds -23 to the `int` and
returns 4294967273, so that in a table of 11 bins the key is looked up in bin 3, not in bin
`233 % 11 = 2`. -/
theorem C20_hash_func_signed_char :
    byte_of (-23) = 233 ∧ bernstein_hash [byte_of (-23)] = 233 ∧
      hash_func [-23] = 4294967273 ∧ hash_func [-23] ≠ bernstein_hash [byte_of (-23)] ∧
      hash_func [-23] % 11 = 3 ∧ bernstein_hash [byte_of (-23)] % 11 = 2 ∧
      hash_code { bins := List.replicate 11 [], count := 0, type := hash_type.HASH_FIXED,
                  load_threshold := 0, resize_factor := 0 } [-23] = some 3 := by
  decide!

/-- C22: in `process_tree` on a well-formed tree, a node whose parent is marked trimmed is
marked trimmed itself, nothing else is written to it (no depth is computed, no test is made),
and `trim` is not applied to it; hence every proper descendant of a node to which `trim` was
applied is marked trimmed and `trim` is applied to none of them; and of the nodes on one
branch, a node and its ancestors, `trim` is applied to one at most. -/
theorem C22_trimmed_mark_is_inherited (params : parameters) (s : store) (t : rooted_tree)
    (hwf : well_formed s t) :
    ∃ s1 calls, process_tree s t params = some s1 ∧
      process_tree_trims s t params = some calls ∧
      (∀ n ∈ t.nodes_in_order, n ≠ t.root → ∀ e pd, (s n).parent_edge = some e →
        (s1 e.parent_node).data = some pd → pd.trimmed = true →
        s1 n = { (s n) with
                 data := some { trimmed := true, ancestry_depth := none,
                                distance_depth := none } } ∧
          n ∉ calls) ∧
      (∀ m ∈ calls, ∀ n, descends s m n →
        (∃ nd, (s1 n).data = some nd ∧ nd.trimmed = true) ∧ n ∉ calls) ∧
      (∀ a ∈ calls, ∀ b ∈ calls, ∀ n, (a = n ∨ descends s a n) → (b = n ∨ descends s b n) →
        a = b) := by
  obtain ⟨s1, calls, hp, hc, hinv, hmem⟩ := process_tree_trims_spec params s t hwf
  have hdesc : ∀ m ∈ calls, ∀ n, descends s m n →
      (∃ nd, (s1 n).data = some nd ∧ nd.trimmed = true) ∧ n ∉ calls := by
    intro m hm n hd
    obtain ⟨hmL, hmr, hma⟩ := (hmem m).1 hm
    obtain ⟨_, md, hmd, hmt⟩ := visited_applied params s s1 _ _ hinv m hmL hmr hma
    obtain ⟨h1, h2⟩ := descends_trimmed params s s1 t hwf hinv m n hmL md hmd hmt hd
    exact ⟨⟨_, by rw [h1], rfl⟩, fun h => h2 ((hmem n).1 h).2.2⟩
  refine ⟨s1, calls, hp, hc, ?_, hdesc, ?_⟩
  · intro n hn hr e pd he hpd ht
    obtain ⟨h1, h2⟩ := visited_inherits params s s1 _ _ hinv n hn hr e pd he hpd ht
    exact ⟨h1, fun h => h2 ((hmem n).1 h).2.2⟩
  · intro a ha b hb n han hbn
    have haL := ((hmem a).1 ha).1
    have hbL := ((hmem b).1 hb).1
    rcases han with rfl | han
    · rcases hbn with rfl | hbn
      · rfl
      · exact absurd ha (hdesc b hb _ hbn).2
    · rcases hbn with rfl | hbn
      · exact absurd hb (hdesc a ha _ han).2
      · rcases descends_comparable s t hwf a b n haL hbL han hbn with h | h | h
        · exact h
        · exact absurd hb (hdesc a ha _ h).2
        · exact absurd ha (hdesc b hb _ h).2

/-- C22, witness: the tree `((A:1)B:0.5)R;` trimmed at distance 1/4; `trim` is applied to B,
and A below it inherits the mark. -/
theorem C22_trimmed_mark_is_inherited_witness :
    ∃ s1 calls, process_tree (chain_store (1 / 2) 1) chain_tree
        { depth_type := depth_type.DEPTH_DISTANCE, threshold := 1 / 4 } = some s1 ∧
      process_tree_trims (chain_store (1 / 2) 1) chain_tree
        { depth_type := depth_type.DEPTH_DISTANCE, threshold := 1 / 4 } = some calls ∧
      (∀ n ∈ chain_tree.nodes_in_order, n ≠ chain_tree.root → ∀ e pd,
        (chain_store (1 / 2) 1 n).parent_edge = some e →
        (s1 e.parent_node).data = some pd → pd.trimmed = true →
        s1 n = { (chain_store (1 / 2) 1 n) with
                 data := some { trimmed := true, ancestry_depth := none,
                                distance_depth := none } } ∧
          n ∉ calls) ∧
      (∀ m ∈ calls, ∀ n, descends (chain_store (1 / 2) 1) m n →
        (∃ nd, (s1 n).data = some nd ∧ nd.trimmed = true) ∧ n ∉ calls) ∧
      (∀ a ∈ calls, ∀ b ∈ calls, ∀ n, (a = n ∨ descends (chain_store (1 / 2) 1) a n) →
        (b = n ∨ descends (chain_store (1 / 2) 1) b n) → a = b) :=
  C22_trimmed_mark_is_inherited
    { depth_type := depth_type.DEPTH_DISTANCE, threshold := 1 / 4 } (chain_store (1 / 2) 1)
    chain_tree (by decide)

/-- C23: after `process_tree` on a well-formed tree the nodes that can be reached from the root
are the nodes of the tree that have no proper ancestor to which `trim` was applied; a node to
which `trim` was applied can still be reached, has no children and has the label it had. -/
theorem C23_reachable_after_process_tree (params : parameters) (s : store) (t : rooted_tree)
    (hwf : well_formed s t) :
    ∃ s1 calls, process_tree s t params = some s1 ∧
      process_tree_trims s t params = some calls ∧
      (∀ n, in_tree s1 t.root n ↔ in_tree s t.root n ∧ ∀ m ∈ calls, ¬ descends s m n) ∧
      (∀ m ∈ calls, in_tree s t.root m → in_tree s1 t.root m) ∧
      (∀ m ∈ calls, (s1 m).children = [] ∧ (s1 m).label = (s m).label) := by
  obtain ⟨s1, calls, hp, hc, hinv, hmem⟩ := process_tree_trims_spec params s t hwf
  have hiff : ∀ n, in_tree s1 t.root n ↔
      in_tree s t.root n ∧ ∀ m ∈ calls, ¬ descends s m n := by
    intro n
    rw [in_tree_after_iff params s s1 t hwf hinv n]
    constructor
    · rintro ⟨h1, h2⟩
      refine ⟨h1, fun m hm => ?_⟩
      obtain ⟨k1, k2, k3⟩ := (hmem m).1 hm
      exact h2 m k1 k2 k3
    · rintro ⟨h1, h2⟩
      exact ⟨h1, fun m k1 k2 k3 => h2 m ((hmem m).2 ⟨k1, k2, k3⟩)⟩
  refine ⟨s1, calls, hp, hc, hiff, ?_, ?_⟩
  · intro m hm hr
    refine (hiff m).2 ⟨hr, ?_⟩
    intro a ha hd
    obtain ⟨haL, har, haa⟩ := (hmem a).1 ha
    obtain ⟨_, ad, had, hat⟩ := visited_applied params s s1 _ _ hinv a haL har haa
    exact (descends_trimmed params s s1 t hwf hinv a m haL ad had hat hd).2
      ((hmem m).1 hm).2.2
  · intro m hm
    obtain ⟨hmL, hmr, hma⟩ := (hmem m).1 hm
    exact ⟨(visited_applied params s s1 _ _ hinv m hmL hmr hma).1,
      visited_label params s s1 _ _ hinv m⟩

/-- C23, witness: the tree `((A:1)B:0.5)R;` trimmed at distance 1/4; `trim` is applied to B. -/
theorem C23_reachable_after_process_tree_witness :
    ∃ s1 calls, process_tree (chain_store (1 / 2) 1) chain_tree
        { depth_type := depth_type.DEPTH_DISTANCE, threshold := 1 / 4 } = some s1 ∧
      process_tree_trims (chain_store (1 / 2) 1) chain_tree
        { depth_type := depth_type.DEPTH_DISTANCE, threshold := 1 / 4 } = some calls ∧
      (∀ n, in_tree s1 chain_tree.root n ↔
        in_tree (chain_store (1 / 2) 1) chain_tree.root n ∧
          ∀ m ∈ calls, ¬ descends (chain_store (1 / 2) 1) m n) ∧
      (∀ m ∈ calls, in_tree (chain_store (1 / 2) 1) chain_tree.root m →
        in_tree s1 chain_tree.root m) ∧
      (∀ m ∈ calls, (s1 m).children = [] ∧
        (s1 m).label = (chain_store (1 / 2) 1 m).label) :=
  C23_reachable_after_process_tree
    { depth_type := depth_type.DEPTH_DISTANCE, threshold := 1 / 4 } (chain_store (1 / 2) 1)
    chain_tree (by decide)

/-- C24, as amended: for every tree each listed node of which, the root included, has a parent
edge, `remove_branch_lengths` returns, having read no missing parent edge; afterwards the
text of the length of the edge of every listed node is the empty string, and nothing else is
changed: every node has its label, its children, its data, and the parent and the numeric
length of its edge, and a node that is not listed is as it was. -/
theorem C24_remove_branch_lengths_empties_texts (s : store) (tree : rooted_tree)
    (h : ∀ n ∈ tree.nodes_in_order, (s n).parent_edge ≠ none) :
    ∃ s1, remove_branch_lengths s tree = some s1 ∧
      (∀ n ∈ tree.nodes_in_order, ∃ e, (s1 n).parent_edge = some e ∧
        e.length_as_string = length_text.empty) ∧
      (∀ n, (s1 n).label = (s n).label ∧ (s1 n).children = (s n).children ∧
        (s1 n).data = (s n).data ∧
        (s1 n).parent_edge.map (fun e => (e.parent_node, e.length)) =
          (s n).parent_edge.map (fun e => (e.parent_node, e.length))) ∧
      ∀ n, n ∉ tree.nodes_in_order → s1 n = s n := by
  obtain ⟨s1, h1, h2, h3, h4⟩ := remove_branch_lengths_loop_spec tree.nodes_in_order s h
  exact ⟨s1, h1, h2, fun n => ⟨(h4 n).1, (h4 n).2.1, (h4 n).2.2.1, (h4 n).2.2.2.1⟩, h3⟩

/-- C24, witness: the tree `(A:1,B:1);` whose root has a parent edge, which leads to no
node. -/
theorem C24_remove_branch_lengths_empties_texts_witness :
    ∃ s1, remove_branch_lengths
        (two_leaf_store "" (some root_edge) (length_text.numeral 1) false)
        (two_leaf_tree false) = some s1 ∧
      (∀ n ∈ (two_leaf_tree false).nodes_in_order, ∃ e, (s1 n).parent_edge = some e ∧
        e.length_as_string = length_text.empty) ∧
      (∀ n, (s1 n).label =
          (two_leaf_store "" (some root_edge) (length_text.numeral 1) false n).label ∧
        (s1 n).children =
          (two_leaf_store "" (some root_edge) (length_text.numeral 1) false n).children ∧
        (s1 n).data =
          (two_leaf_store "" (some root_edge) (length_text.numeral 1) false n).data ∧
        (s1 n).parent_edge.map (fun e => (e.parent_node, e.length)) =
          (two_leaf_store "" (some root_edge) (length_text.numeral 1) false n).parent_edge.map
            (fun e => (e.parent_node, e.length))) ∧
      ∀ n, n ∉ (two_leaf_tree false).nodes_in_order →
        s1 n = two_leaf_store "" (some root_edge) (length_text.numeral 1) false n :=
  C24_remove_branch_lengths_empties_texts
    (two_leaf_store "" (some root_edge) (length_text.numeral 1) false) (two_leaf_tree false)
    (by decide)

/-- C24, as stated, fails: the tree `((A,B)X,C)R;` with the order-listing A, B, X, C, R, in
which the root R is the one listed node without parent edge. `remove_branch_lengths` reads the
parent edge of every listed node, the root included: it reads the missing edge of the root. -/
theorem C24_counterexample_root_without_edge :
    five_node_tree.nodes_in_order.getLast? = some five_node_tree.root ∧
      (∀ n ∈ five_node_tree.nodes_in_order,
        (five_node_store n).parent_edge = none ↔ n = five_node_tree.root) ∧
      remove_branch_lengths five_node_store five_node_tree = none :=
  ⟨by decide, by decide,
    remove_branch_lengths_loop_none five_node_tree.root _ five_node_store (by decide)
      (by decide)⟩

/-- C25: for every table with at least 1 bin (and, in dynamic mode, with a `resize_factor` of 1
or more and `resize_factor * size` below `2^31`) and every key, the index `hash_code` is
computed without a remainder by 0 and is smaller than the number of bins of the table, which
is the table in which `hash_get` reads the bin; whatever the allocations do, when the resize
step of `hash_set` returns, the table has a bin and the index is smaller than the number of
bins it has then, which is the table in which `hash_set` reads the bin; the new size of a
resize is not 0, and the resize step does return when no key stored is `NULL`. -/
theorem C25_bin_index_below_size (a : Alloc) (h : hash) (key : Key) (h1 : 1 ≤ h.size)
    (hd : h.type = hash_type.HASH_DYNAMIC →
      1 ≤ h.resize_factor ∧ h.resize_factor * h.size < 2 ^ 31) :
    ∃ code, hash_code h key = some code ∧ code < (h.size : Int) ∧
      (∀ ht a1, maybe_resize a h = some (ht, a1) → 1 ≤ ht.size ∧ code < (ht.size : Int)) ∧
      (h.type = hash_type.HASH_DYNAMIC → (h.resize_factor * h.size) % 2 ^ 32 ≠ 0) ∧
      (no_null_key h → ∃ ht a1, maybe_resize a h = some (ht, a1)) := by
  have hlt : hash_func key % h.size < h.size := Nat.mod_lt _ h1
  have hcode : toInt32 ((hash_func key % h.size : Nat) : Int) < (h.size : Int) :=
    lt_of_le_of_lt (toInt32_le _ (Int.ofNat_nonneg _)) (Int.ofNat_lt.2 hlt)
  have hnew : h.type = hash_type.HASH_DYNAMIC →
      (h.resize_factor * h.size) % 2 ^ 32 = h.resize_factor * h.size ∧
        h.size ≤ h.resize_factor * h.size := by
    intro ht
    obtain ⟨g1, g2⟩ := hd ht
    exact ⟨Nat.mod_eq_of_lt (lt_trans g2 (by norm_num)), Nat.le_mul_of_pos_left _ g1⟩
  refine ⟨_, hash_code_of_size_ne_zero h key (by omega), hcode, ?_, ?_, ?_⟩
  · intro ht a1 hr
    have hsize : h.size ≤ ht.size := by
      rcases maybe_resize_some a h ht a1 hr with g | ⟨gt, nb1, g1, g2, _⟩
      · rw [g]
      · rw [g1]
        show h.size ≤ nb1.length
        rw [g2, (hnew gt).1]
        exact (hnew gt).2
    exact ⟨le_trans h1 hsize, lt_of_lt_of_le hcode (Int.ofNat_le.2 hsize)⟩
  · intro ht
    rw [(hnew ht).1]
    have := (hnew ht).2
    omega
  · intro hn
    apply maybe_resize_defined a h hn
    intro ht
    rw [(hnew ht).1]
    have := (hnew ht).2
    omega

/-- C25, witness: the dynamic table of 1 bin that holds "a", with the threshold 1/2 and the
factor 2, and the key "c": the index 0 is computed, the table is resized to 2 bins, and bin 0
is read. -/
theorem C25_bin_index_below_size_witness :
    ∃ code, hash_code
        { bins := [[{ key := some [97], value := 1 }]], count := 1,
          type := hash_type.HASH_DYNAMIC, load_threshold := 1 / 2, resize_factor := 2 }
        [99] = some code ∧
      code < ((({ bins := [[{ key := some [97], value := 1 }]], count := 1,
                  type := hash_type.HASH_DYNAMIC, load_threshold := 1 / 2,
                  resize_factor := 2 } : hash).size : Nat) : Int) ∧
      (∀ ht a1, maybe_resize []
          { bins := [[{ key := some [97], value := 1 }]], count := 1,
            type := hash_type.HASH_DYNAMIC, load_threshold := 1 / 2, resize_factor := 2 }
          = some (ht, a1) →
        1 ≤ ht.size ∧ code < (ht.size : Int)) ∧
      (({ bins := [[{ key := some [97], value := 1 }]], count := 1,
          type := hash_type.HASH_DYNAMIC, load_threshold := 1 / 2,
          resize_factor := 2 } : hash).type = hash_type.HASH_DYNAMIC →
        (({ bins := [[{ key := some [97], value := 1 }]], count := 1,
            type := hash_type.HASH_DYNAMIC, load_threshold := 1 / 2,
            resize_factor := 2 } : hash).resize_factor *
          ({ bins := [[{ key := some [97], value := 1 }]], count := 1,
             type := hash_type.HASH_DYNAMIC, load_threshold := 1 / 2,
             resize_factor := 2 } : hash).size) % 2 ^ 32 ≠ 0) ∧
      (no_null_key
          { bins := [[{ key := some [97], value := 1 }]], count := 1,
            type := hash_type.HASH_DYNAMIC, load_threshold := 1 / 2, resize_factor := 2 } →
        ∃ ht a1, maybe_resize []
          { bins := [[{ key := some [97], value := 1 }]], count := 1,
            type := hash_type.HASH_DYNAMIC, load_threshold := 1 / 2, resize_factor := 2 }
          = some (ht, a1)) :=
  C25_bin_index_below_size []
    { bins := [[{ key := some [97], value := 1 }]], count := 1,
      type := hash_type.HASH_DYNAMIC, load_threshold := 1 / 2, resize_factor := 2 }
    [99] (by decide) (by decide)

/-- C26: in every table that can be reached from `create_hash` or `create_dynamic_hash` by
calls of `hash_set` and `resize_hash`, whatever the outcomes of the allocations, the field
`count` is the number of pairs in the bins, which is the sum of the lengths of the bins; when
no allocation fails `hash_keys` returns a list of that length, and every list that `hash_keys`
returns has that length. -/
theorem C26_count_is_number_of_pairs (h : hash) (hr : reachable h) :
    h.count = h.bins.flatten.length ∧ h.count = (h.bins.map List.length).sum ∧
      (∃ keys, hash_keys [] h = (some keys, []) ∧ keys.length = h.count) ∧
      ∀ a keys a1, hash_keys a h = (some keys, a1) → keys.length = h.count := by
  have hc := reachable_count h hr
  refine ⟨hc, by rw [hc, List.length_flatten], ⟨stored_keys h, hash_keys_nil h, ?_⟩, ?_⟩
  · rw [hc]
    unfold stored_keys
    rw [List.length_map]
  · intro a keys a1 hk
    rw [hash_keys_some a h keys a1 hk, hc]
    unfold stored_keys
    rw [List.length_map]

/-- C26, witness: the dynamic table made by `create_dynamic_hash(1, 0.5, 2)` in which the key
"a" is set to 1 and then to 2: it holds two pairs (the second call appends a pair for "a" once
more), and `count` is 2. -/
theorem C26_count_is_number_of_pairs_witness :
    reachable
        { bins := [[{ key := some [97], value := 2 }], [{ key := some [97], value := 1 }]],
          count := 2, type := hash_type.HASH_DYNAMIC, load_threshold := 1 / 2,
          resize_factor := 2 } ∧
      (2 : Nat) =
        ([[{ key := some [97], value := 2 }],
          [{ key := some [97], value := 1 }]] : List (llist key_val_pair)).flatten.length ∧
      ∃ keys, hash_keys []
          { bins := [[{ key := some [97], value := 2 }], [{ key := some [97], value := 1 }]],
            count := 2, type := hash_type.HASH_DYNAMIC, load_threshold := 1 / 2,
            resize_factor := 2 } = (some keys, []) ∧
        keys.length = 2 :=
  have hr : reachable
      { bins := [[{ key := some [97], value := 2 }], [{ key := some [97], value := 1 }]],
        count := 2, type := hash_type.HASH_DYNAMIC, load_threshold := 1 / 2,
        resize_factor := 2 } :=
    reachable.set [] _ [97] 2 status.SUCCESS _ []
      (reachable.set [] _ [97] 1 status.SUCCESS
        { bins := [[{ key := some [97], value := 1 }]], count := 1,
          type := hash_type.HASH_DYNAMIC, load_threshold := 1 / 2, resize_factor := 2 } []
        (reachable.created_dynamic [] 1 (1 / 2) 2
          { bins := [[]], count := 0, type := hash_type.HASH_DYNAMIC,
            load_threshold := 1 / 2, resize_factor := 2 } [] (by decide!))
        (by decide!))
      (by decide!)
  ⟨hr, (C26_count_is_number_of_pairs _ hr).1, (C26_count_is_number_of_pairs _ hr).2.2.1⟩

/-- C27: on a well-formed tree (the order-listing not empty, every node listed once and before
its parent, the root last) `process_tree` takes the root from the head of the reversed listing
and comes to every other node after the parent of that node; it reads no node data that has not
been assigned: it is defined, and leaves data in every listed node. -/
theorem C27_parent_data_assigned_before_read (params : parameters) (s : store)
    (t : rooted_tree) (hwf : well_formed s t) :
    t.nodes_in_order.reverse.head? = some t.root ∧
      (∀ pre n post, t.nodes_in_order.reverse = pre ++ n :: post → pre ≠ [] →
        ∃ e, (s n).parent_edge = some e ∧ e.parent_node ∈ pre) ∧
      ∃ s1, process_tree s t params = some s1 ∧
        ∀ n ∈ t.nodes_in_order, ∃ nd, (s1 n).data = some nd := by
  obtain ⟨s1, hp, hinv⟩ := process_tree_spec params s t hwf
  refine ⟨?_, ?_, s1, hp, ?_⟩
  · rw [List.head?_reverse]
    exact hwf.2.1
  · intro pre n post hsplit hpre
    have hL : t.nodes_in_order = post.reverse ++ n :: pre.reverse := by
      have := congrArg List.reverse hsplit
      rw [List.reverse_reverse] at this
      rw [this]
      simp
    have hpl := hwf.2.2.1
    rw [hL] at hpl
    obtain ⟨e, he, hmem⟩ := parents_later_head s n pre.reverse
      (parents_later_suffix s _ _ hpl) (by simpa using hpre)
    exact ⟨e, he, List.mem_reverse.1 hmem⟩
  · intro n hn
    obtain ⟨nd, hnd, _⟩ := hinv.data_ok n hn
    exact ⟨nd, hnd⟩

/-- C27, witness: the tree `((A:1)B:0.5)R;`, no node of which has data, trimmed at
distance 1. -/
theorem C27_parent_data_assigned_before_read_witness :
    chain_tree.nodes_in_order.reverse.head? = some chain_tree.root ∧
      (∀ pre n post, chain_tree.nodes_in_order.reverse = pre ++ n :: post → pre ≠ [] →
        ∃ e, (chain_store (1 / 2) 1 n).parent_edge = some e ∧ e.parent_node ∈ pre) ∧
      ∃ s1, process_tree (chain_store (1 / 2) 1) chain_tree
          { depth_type := depth_type.DEPTH_DISTANCE, threshold := 1 } = some s1 ∧
        ∀ n ∈ chain_tree.nodes_in_order, ∃ nd, (s1 n).data = some nd :=
  C27_parent_data_assigned_before_read
    { depth_type := depth_type.DEPTH_DISTANCE, threshold := 1 } (chain_store (1 / 2) 1)
    chain_tree (by decide)

end nw
